import Mathlib

/-!
# Normal ray reflection and HDRI irradiance kernels

A shallow embedding of the math in the Blink kernels
`src/blink/kernels/normal_ray_reflect.cpp` and
`src/blink/kernels/hdri_irradiance.cpp`.

Scalars are elements of a linearly ordered field `α`. The kernels use `float`: the
geometric identities are stated over the real numbers in exact arithmetic, and the statements
that depend on rounding are stated over the definitions of the `Binary32` part, which round
every arithmetic operation to binary32.
The Blink built-ins the kernels call but do not define (`PI`, `sqrt`, `sin`,
`cos`, `acos`, `atan2`) are taken as explicit arguments, so every definition
is computable; the theorems instantiate them with the real functions.
-/

namespace Blink

/-! ## Blink built-in value types and vector operations -/

/-- A pair of scalars, Blink's `float2`. -/
@[ext]
structure float2 (α : Type) where
  x : α
  y : α
deriving DecidableEq, Repr

/-- A triple of scalars, Blink's `float3`. -/
@[ext]
structure float3 (α : Type) where
  x : α
  y : α
  z : α
deriving DecidableEq, Repr

/-- A 3x3 matrix, Blink's `float3x3`; `mij` is the entry `[i][j]`. -/
@[ext]
structure float3x3 (α : Type) where
  m00 : α
  m01 : α
  m02 : α
  m10 : α
  m11 : α
  m12 : α
  m20 : α
  m21 : α
  m22 : α
deriving DecidableEq, Repr

/-- Four scalars, Blink's `float4`. -/
@[ext]
structure float4 (α : Type) where
  x : α
  y : α
  z : α
  w : α
deriving DecidableEq, Repr

/-- A 4x4 matrix, Blink's `float4x4`; `mij` is the entry `[i][j]`. -/
@[ext]
structure float4x4 (α : Type) where
  m00 : α
  m01 : α
  m02 : α
  m03 : α
  m10 : α
  m11 : α
  m12 : α
  m13 : α
  m20 : α
  m21 : α
  m22 : α
  m23 : α
  m30 : α
  m31 : α
  m32 : α
  m33 : α
deriving DecidableEq, Repr

section Builtins

variable {α : Type} [LinearOrderedField α]

/-- Component-wise sum of two `float3`. -/
instance : Add (float3 α) := ⟨fun a b => ⟨a.x + b.x, a.y + b.y, a.z + b.z⟩⟩

/-- Component-wise difference of two `float3`. -/
instance : Sub (float3 α) := ⟨fun a b => ⟨a.x - b.x, a.y - b.y, a.z - b.z⟩⟩

/-- Component-wise product of two `float3`. -/
instance : Mul (float3 α) := ⟨fun a b => ⟨a.x * b.x, a.y * b.y, a.z * b.z⟩⟩

/-- Scalar times `float3`. -/
instance : HMul α (float3 α) (float3 α) := ⟨fun s a => ⟨s * a.x, s * a.y, s * a.z⟩⟩

/-- A `float3` times a scalar. -/
instance : HMul (float3 α) α (float3 α) := ⟨fun a s => ⟨a.x * s, a.y * s, a.z * s⟩⟩

/-- Division of a `float3` by a scalar. -/
instance : HDiv (float3 α) α (float3 α) := ⟨fun a s => ⟨a.x / s, a.y / s, a.z / s⟩⟩

/-- Component-wise sum of two `float2`. -/
instance : Add (float2 α) := ⟨fun a b => ⟨a.x + b.x, a.y + b.y⟩⟩

/-- A `float2` minus a scalar. -/
instance : HSub (float2 α) α (float2 α) := ⟨fun a s => ⟨a.x - s, a.y - s⟩⟩

/-- Component-wise sum of two `float4`. -/
instance : Add (float4 α) := ⟨fun a b => ⟨a.x + b.x, a.y + b.y, a.z + b.z, a.w + b.w⟩⟩

/-- Component-wise product of two `float4`. -/
instance : Mul (float4 α) := ⟨fun a b => ⟨a.x * b.x, a.y * b.y, a.z * b.z, a.w * b.w⟩⟩

/-- Scalar times `float4`. -/
instance : HMul α (float4 α) (float4 α) := ⟨fun s a => ⟨s * a.x, s * a.y, s * a.z, s * a.w⟩⟩

/-- A `float4` times a scalar. -/
instance : HMul (float4 α) α (float4 α) := ⟨fun a s => ⟨a.x * s, a.y * s, a.z * s, a.w * s⟩⟩

/-- Division of a `float4` by a scalar. -/
instance : HDiv (float4 α) α (float4 α) := ⟨fun a s => ⟨a.x / s, a.y / s, a.z / s, a.w / s⟩⟩

/-- Blink `float4(s)`: all four components equal to `s`. -/
def float4.splat (s : α) : float4 α := ⟨s, s, s, s⟩

/-- Blink `clamp` on `float2`, component-wise. -/
def clamp2 (value lo hi : float2 α) : float2 α :=
  ⟨min (max value.x lo.x) hi.x, min (max value.y lo.y) hi.y⟩

/-- C `round`: to the nearest integer, halves away from zero. -/
def cRound [FloorRing α] (x : α) : ℤ := if 0 ≤ x then ⌊x + 1 / 2⌋ else ⌈x - 1 / 2⌉

/-- A `for` loop over a float variable, `for (t = start; cond t; t = next t) body`, run for
at most `fuel` tests of the condition; `none` when the bound is reached. -/
def floatFor {σ : Type} (cond : α → Bool) (next : α → α) (body : α → σ → Option σ) :
    ℕ → α → σ → Option σ
  | 0, _, _ => none
  | fuel + 1, t, acc =>
    if cond t then (body t acc).bind (fun acc1 => floatFor cond next body fuel (next t) acc1)
    else some acc

/-- Blink `dot` on `float3`. -/
def dot (a b : float3 α) : α := a.x * b.x + a.y * b.y + a.z * b.z

/-- Blink `cross` on `float3`. -/
def cross (a b : float3 α) : float3 α :=
  ⟨a.y * b.z - a.z * b.y, a.z * b.x - a.x * b.z, a.x * b.y - a.y * b.x⟩

/-- Blink `length` on `float3`: the square root of the dot product with itself. -/
def length (sqrt : α → α) (a : float3 α) : α := sqrt (dot a a)

/-- Blink `normalize` on `float3`: the vector divided by its length. -/
def normalize (sqrt : α → α) (a : float3 α) : float3 α := a / length sqrt a

/-- Blink `clamp`: `min(max(value, lo), hi)`. -/
def clamp (value lo hi : α) : α := min (max value lo) hi

/-- Truncation toward zero, the integer quotient used by C `fmod`. -/
def truncQuot [FloorRing α] (q : α) : ℤ := if 0 ≤ q then ⌊q⌋ else ⌈q⌉

/-- C `fmod`: `x - y * trunc(x / y)`; the result has the sign of `x`. -/
def fmod [FloorRing α] (x y : α) : α := x - y * (truncQuot (x / y) : α)

/-- The value of a comparison used as a number, as in `2 * PI * (a < 0)`. -/
def boolToScalar (b : Bool) : α := if b then 1 else 0

end Builtins

/-! ## Functions shared by both kernels -/

section Shared

variable {α : Type} [LinearOrderedField α]

/-- Source `normalizeAngles` (normal_ray_reflect.cpp 57-67, hdri_irradiance.cpp 16-26). -/
def normalizeAngles [FloorRing α] (PI : α) (angles : float2 α) : float2 α :=
  let normalizedAngles : float2 α := ⟨fmod angles.x (2 * PI), fmod angles.y PI⟩
  let nx := normalizedAngles.x + 2 * PI * boolToScalar (decide (normalizedAngles.x < 0))
  let ny := normalizedAngles.y + PI * boolToScalar (decide (normalizedAngles.y < 0))
  ⟨nx, ny⟩

end Shared

/-! ## Functions of `hdri_irradiance.cpp` -/

namespace HdriIrradiance

variable {α : Type} [LinearOrderedField α]

/-- Source `cartesionUnitVectorToSpherical` (hdri_irradiance.cpp 36-42). -/
def cartesionUnitVectorToSpherical [FloorRing α] (PI : α) (atan2 : α → α → α) (acos : α → α)
    (rayDirection : float3 α) : float2 α :=
  normalizeAngles PI ⟨atan2 rayDirection.z rayDirection.x, acos rayDirection.y⟩

/-- Source `sphericalUnitVectorToCartesion` (hdri_irradiance.cpp 52-60). -/
def sphericalUnitVectorToCartesion (sin cos : α → α) (angles : float2 α) : float3 α :=
  let sinPhi := sin angles.y
  ⟨cos angles.x * sinPhi, cos angles.y, sin angles.x * sinPhi⟩

/-- Source `uvPositionToAngles` (hdri_irradiance.cpp 70-76). -/
def uvPositionToAngles (PI : α) (uvPosition : float2 α) : float2 α :=
  ⟨(uvPosition.x + 1) * PI, (1 - uvPosition.y) * PI / 2⟩

/-- Source `pixelsToUV` (hdri_irradiance.cpp 87-93). -/
def pixelsToUV (pixelLocation format : float2 α) : float2 α :=
  ⟨2 * pixelLocation.x / format.x - 1, 2 * pixelLocation.y / format.y - 1⟩

/-- The input image of `HDRIrradiance`, `Image<eRead, eAccessRandom, eEdgeClamped> hdri`:
its bounds and its stored texels. -/
structure Image (α : Type) where
  width : ℤ
  height : ℤ
  pixel : ℤ → ℤ → float4 α

/-- Edge-clamped point access `hdri(x, y)`. -/
def Image.read (hdri : Image α) (x y : ℤ) : float4 α :=
  hdri.pixel (max 0 (min x (hdri.width - 1))) (max 0 (min y (hdri.height - 1)))

/-- The `local:` variables of `HDRIrradiance`. -/
structure Locals (α : Type) where
  __hdriPixelSize : float2 α
  __up : float3 α
  __sampleStep : float2 α

/-- Source `HDRIrradiance::init` (hdri_irradiance.cpp 122-131). -/
def init (PI : α) (hdri : Image α) (_samples : ℤ × ℤ) : Locals α :=
  { __hdriPixelSize := ⟨(hdri.width : α) / (2 * PI), (hdri.height : α) / PI⟩
    __up := ⟨0, 1, 0⟩
    __sampleStep := ⟨2 * PI / (_samples.1 : α), PI / (2 * (_samples.2 : α))⟩ }

/-- Source `HDRIrradiance::readHDRIValue` (hdri_irradiance.cpp 141-150). -/
def readHDRIValue [FloorRing α] (PI : α) (atan2 : α → α → α) (acos : α → α)
    (hdri : Image α) (l : Locals α) (rayDirection : float3 α) : float4 α :=
  let angles := cartesionUnitVectorToSpherical PI atan2 acos rayDirection
  hdri.read (cRound (l.__hdriPixelSize.x * angles.x) - 1)
    (cRound ((hdri.height : α) - l.__hdriPixelSize.y * angles.y) - 1)

/-- The texel indices that `readHDRIValue` passes to `hdri(x, y)`
(hdri_irradiance.cpp 143-149). -/
def readHDRIValueIndices [FloorRing α] (PI : α) (atan2 : α → α → α) (acos : α → α)
    (hdri : Image α) (l : Locals α) (rayDirection : float3 α) : ℤ × ℤ :=
  let angles := cartesionUnitVectorToSpherical PI atan2 acos rayDirection
  (cRound (l.__hdriPixelSize.x * angles.x) - 1,
    cRound ((hdri.height : α) - l.__hdriPixelSize.y * angles.y) - 1)

/-- The value one pass of the inner loop body of `process` adds to `irradiance`
(hdri_irradiance.cpp 160-184), as a function of the loop variables `theta` and `phi`. -/
def processSampleTerm [FloorRing α] (PI : α) (sqrt sin cos : α → α) (atan2 : α → α → α)
    (acos : α → α) (hdri : Image α) (_samples : ℤ × ℤ) (pos : ℤ × ℤ) (theta phi : α) :
    float4 α :=
  let l := init PI hdri _samples
  let uvPosition := pixelsToUV ⟨(pos.1 : α), (pos.2 : α)⟩ ⟨(hdri.width : α), (hdri.height : α)⟩
  let direction := sphericalUnitVectorToCartesion sin cos (uvPositionToAngles PI uvPosition)
  let tangentRight := normalize sqrt (cross l.__up direction)
  let tangentUp := normalize sqrt (cross direction tangentRight)
  let tangent := sphericalUnitVectorToCartesion sin cos ⟨theta, phi⟩
  let sampleDirection :=
    tangent.x * tangentRight + tangent.z * tangentUp + tangent.y * direction
  readHDRIValue PI atan2 acos hdri l sampleDirection * cos phi * sin phi

/-- Source `HDRIrradiance::process` (hdri_irradiance.cpp 158-189); the value written to
`dst()`. Each of the two float loops tests its condition at most `fuel` times. -/
def process [FloorRing α] (PI : α) (sqrt sin cos : α → α) (atan2 : α → α → α) (acos : α → α)
    (hdri : Image α) (_samples : ℤ × ℤ) (fuel : ℕ) (pos : ℤ × ℤ) : Option (float4 α) :=
  let l := init PI hdri _samples
  let uvPosition := pixelsToUV ⟨(pos.1 : α), (pos.2 : α)⟩ ⟨(hdri.width : α), (hdri.height : α)⟩
  let direction := sphericalUnitVectorToCartesion sin cos (uvPositionToAngles PI uvPosition)
  let tangentRight := normalize sqrt (cross l.__up direction)
  let tangentUp := normalize sqrt (cross direction tangentRight)
  let irradiance :=
    floatFor (fun theta => decide (theta < 2 * PI)) (fun theta => theta + l.__sampleStep.x)
      (fun theta irradiance =>
        floatFor (fun phi => decide (phi > 0)) (fun phi => phi - l.__sampleStep.y)
          (fun phi irradiance =>
            let tangent := sphericalUnitVectorToCartesion sin cos ⟨theta, phi⟩
            let sampleDirection :=
              tangent.x * tangentRight + tangent.z * tangentUp + tangent.y * direction
            some (irradiance
              + readHDRIValue PI atan2 acos hdri l sampleDirection * cos phi * sin phi))
          fuel (PI / 2) irradiance)
      fuel 0 (float4.splat 0)
  irradiance.map (fun irradiance => PI * irradiance / ((_samples.1 * _samples.2 : ℤ) : α))

end HdriIrradiance

/-! ## Functions of `normal_ray_reflect.cpp` -/

namespace NormalRayReflect

variable {α : Type} [LinearOrderedField α]

/-- Source `cartesionUnitVectorToSpherical` (normal_ray_reflect.cpp 78-86). -/
def cartesionUnitVectorToSpherical [FloorRing α] (PI : α) (atan2 : α → α → α) (acos : α → α)
    (rayDirection : float3 α) (thetaOffset : α) : float2 α :=
  normalizeAngles PI ⟨atan2 rayDirection.z rayDirection.x + thetaOffset, acos rayDirection.y⟩

/-- Source `blend` on scalars (normal_ray_reflect.cpp 27-30). -/
def blend (value0 value1 weight : α) : α := value1 + weight * (value0 - value1)

/-- Source `saturate` (normal_ray_reflect.cpp 112-115). -/
def saturate (value : α) : α := clamp value 0 1

/-- Source `reflectRayOffSurface` (normal_ray_reflect.cpp 496-504). -/
def reflectRayOffSurface (sqrt : α → α)
    (incidentRayDirection surfaceNormalDirection : float3 α) : float3 α :=
  normalize sqrt
    (incidentRayDirection
      - (2 * dot incidentRayDirection surfaceNormalDirection) * surfaceNormalDirection)

/-- Source `refractRayThroughSurface` (normal_ray_reflect.cpp 519-539). -/
def refractRayThroughSurface (sqrt : α → α)
    (incidentRayDirection surfaceNormalDirection : float3 α)
    (incidentRefractiveIndex refractedRefractiveIndex : α) : float3 α :=
  let refractiveRatio := incidentRefractiveIndex / refractedRefractiveIndex
  let cosIncident := -dot incidentRayDirection surfaceNormalDirection
  let sinTransmittedSquared :=
    refractiveRatio * refractiveRatio * (1 - cosIncident * cosIncident)
  if sinTransmittedSquared > 1 then
    reflectRayOffSurface sqrt incidentRayDirection surfaceNormalDirection
  else
    let cosTransmitted := sqrt (1 - sinTransmittedSquared)
    normalize sqrt
      (refractiveRatio * incidentRayDirection
        + (refractiveRatio * cosIncident - cosTransmitted) * surfaceNormalDirection)

/-- Source `schlickReflectionCoefficient` (normal_ray_reflect.cpp 554-579). The source
overwrites `cosX` inside the `if` and falls through to the final `return`; here the final
expression is written once in each branch. -/
def schlickReflectionCoefficient (sqrt : α → α)
    (incidentRayDirection surfaceNormalDirection : float3 α)
    (incidentRefractiveIndex refractedRefractiveIndex : α) : α :=
  let parallelCoefficient :=
    ((incidentRefractiveIndex - refractedRefractiveIndex)
      / (incidentRefractiveIndex + refractedRefractiveIndex)) ^ 2
  let cosX := -dot surfaceNormalDirection incidentRayDirection
  if incidentRefractiveIndex > refractedRefractiveIndex then
    let refractiveRatio := incidentRefractiveIndex / refractedRefractiveIndex
    let sinTransmittedSquared := refractiveRatio * refractiveRatio * (1 - cosX * cosX)
    if sinTransmittedSquared > 1 then
      1
    else
      let cosX := sqrt (1 - sinTransmittedSquared)
      parallelCoefficient + (1 - parallelCoefficient) * (1 - cosX) ^ 5
  else
    parallelCoefficient + (1 - parallelCoefficient) * (1 - cosX) ^ 5

/-- Source `blend` on `float3` (normal_ray_reflect.cpp 43-46). -/
def blend3 (value0 value1 : float3 α) (weight : α) : float3 α :=
  value1 + weight * (value0 - value1)

/-- Source `matmul` of a 3x3 matrix and a `float3` (normal_ray_reflect.cpp 156-163). -/
def matmul (m : float3x3 α) (v : float3 α) : float3 α :=
  ⟨m.m00 * v.x + m.m01 * v.y + m.m02 * v.z,
   m.m10 * v.x + m.m11 * v.y + m.m12 * v.z,
   m.m20 * v.x + m.m21 * v.y + m.m22 * v.z⟩

/-- Source `axisAngleRotationMatrix` (normal_ray_reflect.cpp 247-270). -/
def axisAngleRotationMatrix (sin cos : α → α) (axis : float3 α) (angle : α) : float3x3 α :=
  let cosAngle := cos angle
  let oneMinusCosAngle := 1 - cosAngle
  let sinAngle := sin angle
  let axisSquared := axis * axis
  let axisXY := axis.x * axis.y * oneMinusCosAngle
  let axisXZ := axis.x * axis.z * oneMinusCosAngle
  let axisYZ := axis.y * axis.z * oneMinusCosAngle
  let axisSinAngle := axis * sinAngle
  { m00 := cosAngle + axisSquared.x * oneMinusCosAngle
    m01 := axisXY - axisSinAngle.z
    m02 := axisXZ + axisSinAngle.y
    m10 := axisXY + axisSinAngle.z
    m11 := cosAngle + axisSquared.y * oneMinusCosAngle
    m12 := axisYZ - axisSinAngle.x
    m20 := axisXZ - axisSinAngle.y
    m21 := axisYZ + axisSinAngle.x
    m22 := cosAngle + axisSquared.z * oneMinusCosAngle }

/-- Source `getAngleAndAxisBetweenVectors` (normal_ray_reflect.cpp 281-308): the returned
angle paired with the axis the source stores through its reference argument. -/
def getAngleAndAxisBetweenVectors (sqrt acos : α → α) (vector0 vector1 : float3 α) :
    α × float3 α :=
  let perpendicularVector := cross vector0 vector1
  let axis :=
    if length sqrt perpendicularVector > 0 then
      normalize sqrt perpendicularVector
    else if vector1.z ≠ 0 ∨ vector1.y ≠ 0 then
      normalize sqrt (cross ⟨1, 0, 0⟩ vector1)
    else if vector1.x ≠ 0 ∨ vector1.z ≠ 0 then
      normalize sqrt (cross ⟨0, 1, 0⟩ vector1)
    else if vector1.x ≠ 0 ∨ vector1.y ≠ 0 then
      normalize sqrt (cross ⟨0, 0, 1⟩ vector1)
    else
      vector0
  (acos (dot vector0 vector1), axis)

/-- Source `alignWithDirection` (normal_ray_reflect.cpp 324-345). -/
def alignWithDirection (sqrt sin cos acos : α → α)
    (unalignedAxis alignDirection vectorToAlign : float3 α) : float3 α :=
  let angleAndAxis := getAngleAndAxisBetweenVectors sqrt acos unalignedAxis alignDirection
  let angle := angleAndAxis.1
  let rotationAxis := angleAndAxis.2
  if angle = 0 then
    vectorToAlign
  else
    matmul (axisAngleRotationMatrix sin cos rotationAxis angle) vectorToAlign

/-- Source `fract` (normal_ray_reflect.cpp 222-225, random.cpp 15-18). -/
def fract [FloorRing α] (value : α) : α := value - (⌊value⌋ : α)

/-- Source `positivePart` (normal_ray_reflect.cpp 235-238). -/
def positivePart (value : α) : α := max value 0

/-- Source `random` on `float` (normal_ray_reflect.cpp 360-363, random.cpp 28-31). -/
def random [FloorRing α] (sin : α → α) (seed : α) : α :=
  fract (sin (seed * 91.3458) * 47453.5453)

/-- Source `random` on `float2` (normal_ray_reflect.cpp 373-379). -/
def random2 [FloorRing α] (sin : α → α) (seed : float2 α) : float2 α :=
  ⟨random sin seed.x, random sin seed.y⟩

/-- Source `cosineDirectionInZHemisphere` (normal_ray_reflect.cpp 390-400). -/
def cosineDirectionInZHemisphere [FloorRing α] (PI : α) (sqrt sin cos : α → α)
    (seed : float2 α) : float3 α :=
  let uniform := random sin seed.x
  let r := sqrt uniform
  let angle := 2 * PI * random sin seed.y
  let x := r * cos angle
  let y := r * sin angle
  ⟨x, y, sqrt (positivePart (1 - uniform))⟩

/-- Source `cosineDirectionInHemisphere` (normal_ray_reflect.cpp 412-419). -/
def cosineDirectionInHemisphere [FloorRing α] (PI : α) (sqrt sin cos acos : α → α)
    (axis : float3 α) (seed : float2 α) : float3 α :=
  normalize sqrt
    (alignWithDirection sqrt sin cos acos ⟨0, 0, 1⟩ axis
      (cosineDirectionInZHemisphere PI sqrt sin cos seed))

/-- The three lobe weights `process` works with. -/
structure LobeWeights (α : Type) where
  specular : α
  transmission : α
  diffuse : α
deriving DecidableEq, Repr

/-- The weight reconciliation at the head of `NormalReflectionKernel::process`
(normal_ray_reflect.cpp 800-810), as a function of the raw weights `specularColour.w`
and `transmissionColour.w`. -/
def processLobeWeights (specularColourW transmissionColourW : α) : LobeWeights α :=
  let specular := saturate specularColourW
  let transmission :=
    if specular + transmissionColourW > 1 then 1 - specular
    else saturate transmissionColourW
  let diffuse := saturate (1 - transmission - specular)
  ⟨specular, transmission, diffuse⟩

/-- Source `positionFromWorldMatrix` (normal_ray_reflect.cpp 95-102). -/
def positionFromWorldMatrix (worldMatrix : float4x4 α) : float3 α :=
  ⟨worldMatrix.m03, worldMatrix.m13, worldMatrix.m23⟩

/-- Source `pixelsToUV` (normal_ray_reflect.cpp 126-132). -/
def pixelsToUV (pixelLocation format : float2 α) : float2 α :=
  ⟨2 * pixelLocation.x / format.x - 1, 2 * pixelLocation.y / format.y - 1⟩

/-- Source `aspectRatio` (normal_ray_reflect.cpp 143-146). -/
def aspectRatio (height_ width_ : α) : α := height_ / width_

/-- Source `matmul` of a 4x4 matrix and a `float4` (normal_ray_reflect.cpp 173-199): each
component starts at `0` and accumulates the four products in order. -/
def matmul4 (m : float4x4 α) (v : float4 α) : float4 α :=
  ⟨0 + m.m00 * v.x + m.m01 * v.y + m.m02 * v.z + m.m03 * v.w,
   0 + m.m10 * v.x + m.m11 * v.y + m.m12 * v.z + m.m13 * v.w,
   0 + m.m20 * v.x + m.m21 * v.y + m.m22 * v.z + m.m23 * v.w,
   0 + m.m30 * v.x + m.m31 * v.y + m.m32 * v.z + m.m33 * v.w⟩

/-- Source `degreesToRadians` (normal_ray_reflect.cpp 209-212). -/
def degreesToRadians (PI : α) (angle : α) : α := angle * PI / 180

/-- Source `projectionMatrix` (normal_ray_reflect.cpp 438-452). -/
def projectionMatrix (focalLength horizontalAperture aspect nearPlane farPlane : α) :
    float4x4 α :=
  let farMinusNear := farPlane - nearPlane
  { m00 := 2 * focalLength / horizontalAperture, m01 := 0, m02 := 0, m03 := 0
    m10 := 0, m11 := 2 * focalLength / horizontalAperture / aspect, m12 := 0, m13 := 0
    m20 := 0, m21 := 0, m22 := -(farPlane + nearPlane) / farMinusNear
    m23 := -2 * (farPlane * nearPlane) / farMinusNear
    m30 := 0, m31 := 0, m32 := -1, m33 := 0 }

/-- Source `createCameraRay` (normal_ray_reflect.cpp 464-482): the pair
`(rayOrigin, rayDirection)` stored through the reference arguments. -/
def createCameraRay (sqrt : α → α) (cameraWorldMatrix inverseProjectionMatrix : float4x4 α)
    (uvPosition : float2 α) : float3 α × float3 α :=
  let rayOrigin := positionFromWorldMatrix cameraWorldMatrix
  let direction := matmul4 inverseProjectionMatrix ⟨uvPosition.x, uvPosition.y, 0, 1⟩
  let direction := matmul4 cameraWorldMatrix ⟨direction.x, direction.y, direction.z, 0⟩
  (rayOrigin, normalize sqrt ⟨direction.x, direction.y, direction.z⟩)

/-- A random-access input image of `NormalReflectionKernel`
(`Image<eRead, eAccessRandom, eEdgeClamped>`): its bounds and the Blink built-in
`bilinear(image, x, y)` on it. -/
structure Image (α : Type) where
  width : ℤ
  height : ℤ
  bilinear : α → α → float4 α

/-- The `param:` block of `NormalReflectionKernel` (normal_ray_reflect.cpp 598-619). -/
structure Params (α : Type) where
  _focalLength : α
  _horizontalAperture : α
  _nearPlane : α
  _farPlane : α
  _cameraWorldMatrix : float4x4 α
  _formatWidth : α
  _formatHeight : α
  _hdriOffsetAngle : α
  _usePrecomputedIrradiance : Bool
  _samples : ℤ
  _incidentRefractiveIndex : α
  _refractedRefractiveIndex : α

/-- The `local:` block of `NormalReflectionKernel` that the code reads
(normal_ray_reflect.cpp 622-630). -/
structure Locals (α : Type) where
  __inverseCameraProjectionMatrix : float4x4 α
  __hdriPixelSize : float2 α
  __hdriOffsetRadians : α
  __irradiancePixelSize : float2 α

/-- Source `NormalReflectionKernel::define` (normal_ray_reflect.cpp 636-664): the default
parameter values. -/
def define : Params α :=
  { _focalLength := 50
    _horizontalAperture := 24.576
    _nearPlane := 0.1
    _farPlane := 10000
    _cameraWorldMatrix :=
      { m00 := 1, m01 := 0, m02 := 0, m03 := 0
        m10 := 0, m11 := 1, m12 := 0, m13 := 0
        m20 := 0, m21 := 0, m22 := 1, m23 := 0
        m30 := 0, m31 := 0, m32 := 0, m33 := 1 }
    _formatWidth := 3840
    _formatHeight := 2160
    _hdriOffsetAngle := 0
    _usePrecomputedIrradiance := true
    _samples := 1
    _incidentRefractiveIndex := 1
    _refractedRefractiveIndex := 1.33 }

/-- Source `NormalReflectionKernel::init` (normal_ray_reflect.cpp 670-691); the Blink matrix
method `invert()` is the argument `invert`. -/
def init (PI : α) (invert : float4x4 α → float4x4 α) (p : Params α)
    (hdri irradiance : Image α) : Locals α :=
  let aspect := aspectRatio p._formatHeight p._formatWidth
  let cameraProjectionMatrix :=
    projectionMatrix p._focalLength p._horizontalAperture aspect p._nearPlane p._farPlane
  { __inverseCameraProjectionMatrix := invert cameraProjectionMatrix
    __hdriPixelSize := ⟨(hdri.width : α) / (2 * PI), (hdri.height : α) / PI⟩
    __irradiancePixelSize := ⟨(irradiance.width : α) / (2 * PI), (irradiance.height : α) / PI⟩
    __hdriOffsetRadians := degreesToRadians PI p._hdriOffsetAngle }

/-- The texel coordinates `indices` computed in `readHDRIValue`
(normal_ray_reflect.cpp 703-714). -/
def readHDRIValueIndices [FloorRing α] (PI : α) (atan2 : α → α → α) (acos : α → α)
    (hdri : Image α) (l : Locals α) (rayDirection : float3 α) : float2 α :=
  let angles := cartesionUnitVectorToSpherical PI atan2 acos rayDirection l.__hdriOffsetRadians
  clamp2
    ⟨l.__hdriPixelSize.x * angles.x, (hdri.height : α) - l.__hdriPixelSize.y * angles.y⟩
    ⟨0, 0⟩
    ((⟨(hdri.width : α), (hdri.height : α)⟩ : float2 α) - (1 : α))

/-- Source `NormalReflectionKernel::readHDRIValue` (normal_ray_reflect.cpp 701-717). -/
def readHDRIValue [FloorRing α] (PI : α) (atan2 : α → α → α) (acos : α → α)
    (hdri : Image α) (l : Locals α) (rayDirection : float3 α) : float4 α :=
  let indices := readHDRIValueIndices PI atan2 acos hdri l rayDirection
  hdri.bilinear indices.x indices.y

/-- The texel coordinates `indices` computed in `readIrradianceValue`
(normal_ray_reflect.cpp 729-740). -/
def readIrradianceValueIndices [FloorRing α] (PI : α) (atan2 : α → α → α) (acos : α → α)
    (irradiance : Image α) (l : Locals α) (rayDirection : float3 α) : float2 α :=
  let angles := cartesionUnitVectorToSpherical PI atan2 acos rayDirection l.__hdriOffsetRadians
  clamp2
    ⟨l.__irradiancePixelSize.x * angles.x,
      (irradiance.height : α) - l.__irradiancePixelSize.y * angles.y⟩
    ⟨0, 0⟩
    ((⟨(irradiance.width : α), (irradiance.height : α)⟩ : float2 α) - (1 : α))

/-- Source `NormalReflectionKernel::readIrradianceValue` (normal_ray_reflect.cpp 727-743). -/
def readIrradianceValue [FloorRing α] (PI : α) (atan2 : α → α → α) (acos : α → α)
    (irradiance : Image α) (l : Locals α) (rayDirection : float3 α) : float4 α :=
  let indices := readIrradianceValueIndices PI atan2 acos irradiance l rayDirection
  irradiance.bilinear indices.x indices.y

/-- Source `NormalReflectionKernel::getCameraRay` (normal_ray_reflect.cpp 754-772): the
pair `(rayOrigin, rayDirection)`. -/
def getCameraRay [FloorRing α] (sqrt sin : α → α) (p : Params α) (l : Locals α)
    (seed pixelLocation : float2 α) : float3 α × float3 α :=
  let uvCoordinates :=
    pixelsToUV (pixelLocation + random2 sin seed) ⟨p._formatWidth, p._formatHeight⟩
  createCameraRay sqrt p._cameraWorldMatrix l.__inverseCameraProjectionMatrix uvCoordinates

/-- The seed update that ends every sample of `process` (normal_ray_reflect.cpp 900-909):
the new `(seed0, seed1)`. -/
def processSeedUpdate [FloorRing α] (sin : α → α) (seed0 seed1 : float2 α) :
    float2 α × float2 α :=
  let seed0 := random2 sin (seed1 + random2 sin seed0)
  let x := seed0.x
  let seed0 := { seed0 with x := seed0.y }
  let seed0 := { seed0 with y := x }
  let seed1 := random2 sin (seed0 + random2 sin seed1)
  let x := seed1.x
  let seed1 := { seed1 with x := seed1.y }
  let seed1 := { seed1 with y := seed0.x }
  let seed0 := { seed0 with x := x }
  (seed0, seed1)

/-- The values `process` reads from the point-access images at the current pixel
(normal_ray_reflect.cpp 784-798). -/
structure PixelInputs (α : Type) where
  seed4 : float4 α
  normal : float4 α
  diffuseColour : float4 α
  specularColour : float4 α
  transmissionColour : float4 α
  materialProperties : float4 α

/-- The variables carried from one sample of `process` to the next. -/
structure SampleState (α : Type) where
  resultPixel : float4 α
  seed0 : float2 α
  seed1 : float2 α

/-- The shading of a surface pixel, the `if` branch of the sample loop of `process`
(normal_ray_reflect.cpp 835-893): the new `resultPixel`. -/
def processSurface [FloorRing α] (PI : α) (sqrt sin cos : α → α) (atan2 : α → α → α)
    (acos : α → α) (p : Params α) (l : Locals α) (hdri irradiance : Image α)
    (inputs : PixelInputs α) (weights : LobeWeights α)
    (rayDirection : float3 α) (seed1 : float2 α) (resultPixel : float4 α) : float4 α :=
  let normalDirection : float3 α := ⟨inputs.normal.x, inputs.normal.y, inputs.normal.z⟩
  let specular := weights.specular
  let transmission := weights.transmission
  let diffuse := weights.diffuse
  let specularRoughness := inputs.materialProperties.x * inputs.materialProperties.x
  let transmissionRoughness := inputs.materialProperties.y * inputs.materialProperties.y
  let diffuseDirection :=
    cosineDirectionInHemisphere PI sqrt sin cos acos normalDirection seed1
  let resultPixel :=
    if diffuse > 0 then
      if p._usePrecomputedIrradiance then
        resultPixel + diffuse * inputs.diffuseColour
          * readIrradianceValue PI atan2 acos irradiance l normalDirection
      else
        resultPixel + diffuse * inputs.diffuseColour
          * readHDRIValue PI atan2 acos hdri l diffuseDirection
    else resultPixel
  let fresnelSpecular := specular
  let fresnelSpecular :=
    if transmission > 0 ∨ specular > 0 then
      let reflectivity :=
        schlickReflectionCoefficient sqrt rayDirection normalDirection
          p._incidentRefractiveIndex p._refractedRefractiveIndex
      blend 1 specular reflectivity
    else fresnelSpecular
  let resultPixel :=
    if transmission > 0 ∨ specular > 0 then
      if transmission > 0 then
        resultPixel
          + transmission * inputs.transmissionColour * (1 - fresnelSpecular)
            * readHDRIValue PI atan2 acos hdri l
                (normalize sqrt
                  (blend3 diffuseDirection
                    (refractRayThroughSurface sqrt rayDirection normalDirection
                      p._incidentRefractiveIndex p._refractedRefractiveIndex)
                    transmissionRoughness))
            / (1 - specular)
      else resultPixel
    else resultPixel
  if fresnelSpecular > 0 then
    resultPixel
      + fresnelSpecular * inputs.specularColour
        * readHDRIValue PI atan2 acos hdri l
            (normalize sqrt
              (blend3 diffuseDirection (reflectRayOffSurface sqrt rayDirection normalDirection)
                specularRoughness))
  else resultPixel

/-- One pass through the body of the sample loop of `process`
(normal_ray_reflect.cpp 819-910). -/
def processSample [FloorRing α] (PI : α) (sqrt sin cos : α → α) (atan2 : α → α → α)
    (acos : α → α) (p : Params α) (l : Locals α) (hdri irradiance : Image α)
    (inputs : PixelInputs α) (weights : LobeWeights α) (pixelLocation : float2 α)
    (state : SampleState α) : SampleState α :=
  let ray := getCameraRay sqrt sin p l state.seed0 pixelLocation
  let rayDirection := ray.2
  let resultPixel :=
    if inputs.normal.x ≠ 0 ∨ inputs.normal.y ≠ 0 ∨ inputs.normal.z ≠ 0 then
      processSurface PI sqrt sin cos atan2 acos p l hdri irradiance inputs weights
        rayDirection state.seed1 state.resultPixel
    else
      state.resultPixel + readHDRIValue PI atan2 acos hdri l rayDirection
  let seeds := processSeedUpdate sin state.seed0 state.seed1
  ⟨resultPixel, seeds.1, seeds.2⟩

/-- The sample loop `for (int sample = 1; sample <= _samples; sample++)`, run `count`
times. -/
def sampleLoop (body : SampleState α → SampleState α) : ℕ → SampleState α → SampleState α
  | 0, state => state
  | count + 1, state => sampleLoop body count (body state)

/-- Source `NormalReflectionKernel::process` (normal_ray_reflect.cpp 780-913): the value
written to `dst()`. The loop body runs `_samples` times, and not at all when `_samples` is
not positive. -/
def process [FloorRing α] (PI : α) (sqrt sin cos : α → α) (atan2 : α → α → α)
    (acos : α → α) (p : Params α) (l : Locals α) (hdri irradiance : Image α)
    (inputs : PixelInputs α) (pos : ℤ × ℤ) : float4 α :=
  let pixelLocation : float2 α := ⟨(pos.1 : α), (pos.2 : α)⟩
  let seed0 : float2 α := ⟨inputs.seed4.x, inputs.seed4.y⟩
  let seed1 : float2 α := ⟨inputs.seed4.z, inputs.seed4.w⟩
  let weights := processLobeWeights inputs.specularColour.w inputs.transmissionColour.w
  let final :=
    sampleLoop
      (processSample PI sqrt sin cos atan2 acos p l hdri irradiance inputs weights
        pixelLocation)
      p._samples.toNat ⟨float4.splat 0, seed0, seed1⟩
  final.resultPixel / (p._samples : α)

end NormalRayReflect


/-! ## Binary32 arithmetic

The kernels compute in `float`. The definitions of this part repeat source functions with every
arithmetic operation rounded to binary32 (IEEE 754 single precision, round to nearest, ties
to even), for the statements that depend on the rounding. A binary32 number is represented by
its value in the field `α`; the rounding has 24 significant bits, the least exponent `-126`
(so the subnormal numbers are covered) and no largest exponent: results of magnitude `2 ^ 128`
or more, which the hardware turns into an infinity, are outside the model, and the statements
bound their inputs accordingly. Comparisons, `floor`, `fmod`, `min` and `max` are exact. -/

namespace Binary32

variable {α : Type} [LinearOrderedField α] [FloorRing α]

/-- The integer nearest to `q`; of two equally near integers, the even one. -/
def roundEven (q : α) : ℤ :=
  if q - (⌊q⌋ : α) < 1 / 2 then ⌊q⌋
  else if 1 / 2 < q - (⌊q⌋ : α) then ⌊q⌋ + 1
  else if ⌊q⌋ % 2 = 0 then ⌊q⌋
  else ⌊q⌋ + 1

/-- The binary exponent of `x`: the `e` with `2 ^ e ≤ |x| < 2 ^ (e + 1)`, and `-126` for the
subnormal numbers. -/
def exponent (x : α) : ℤ := max (Int.log 2 |x|) (-126)

/-- The spacing of the binary32 numbers around `x` (24 significant bits). -/
def ulp (x : α) : α := 2 ^ (exponent x - 23)

/-- Rounding to binary32: the nearest multiple of the spacing around `x`, ties to even. -/
def roundToFloat (x : α) : α := (roundEven (x / ulp x) : α) * ulp x

/-- Binary32 addition: the exact sum, rounded. -/
def fadd (a b : α) : α := roundToFloat (a + b)

/-- Binary32 subtraction: the exact difference, rounded. -/
def fsub (a b : α) : α := roundToFloat (a - b)

/-- Binary32 multiplication: the exact product, rounded. -/
def fmul (a b : α) : α := roundToFloat (a * b)

/-- Binary32 division by a non-zero divisor: the exact quotient, rounded. -/
def fdiv (a b : α) : α := roundToFloat (a / b)

/-- The binary32 number nearest to `π`, `13176795 * 2 ^ (-22)`: the value of Blink's `PI`. -/
def pi : α := 13176795 / 4194304

/-- Source `normalizeAngles` (normal_ray_reflect.cpp 57-67, hdri_irradiance.cpp 16-26) in
binary32 arithmetic. C `fmod` is exact, so it is not rounded. -/
def normalizeAngles (PI : α) (angles : float2 α) : float2 α :=
  let normalizedAngles : float2 α := ⟨fmod angles.x (fmul 2 PI), fmod angles.y PI⟩
  let nx := fadd normalizedAngles.x
    (fmul (fmul 2 PI) (boolToScalar (decide (normalizedAngles.x < 0))))
  let ny := fadd normalizedAngles.y (fmul PI (boolToScalar (decide (normalizedAngles.y < 0))))
  ⟨nx, ny⟩

/-- Source `fract` (normal_ray_reflect.cpp 222-225, random.cpp 15-18) in binary32
arithmetic: `floor` is exact, the subtraction rounds. -/
def fract (value : α) : α := fsub value (⌊value⌋ : α)

/-- Source `random` on `float` (normal_ray_reflect.cpp 360-363, random.cpp 28-31) in binary32
arithmetic; the literals `91.3458f` and `47453.5453f` are the rounded decimals. -/
def random (sin : α → α) (seed : α) : α :=
  fract (fmul (sin (fmul seed (roundToFloat 91.3458))) (roundToFloat 47453.5453))

/-- The weight reconciliation at the head of `NormalReflectionKernel::process`
(normal_ray_reflect.cpp 800-810) in binary32 arithmetic; `saturate` is a clamp and does not
round. -/
def processLobeWeights (specularColourW transmissionColourW : α) :
    NormalRayReflect.LobeWeights α :=
  let specular := NormalRayReflect.saturate specularColourW
  let transmission :=
    if fadd specular transmissionColourW > 1 then fsub 1 specular
    else NormalRayReflect.saturate transmissionColourW
  let diffuse := NormalRayReflect.saturate (fsub (fsub 1 transmission) specular)
  ⟨specular, transmission, diffuse⟩

/-- Source `blend` on scalars (normal_ray_reflect.cpp 27-30) in binary32 arithmetic. -/
def blend (value0 value1 weight : α) : α := fadd value1 (fmul weight (fsub value0 value1))

/-- The `__sampleStep` of `HDRIrradiance::init` (hdri_irradiance.cpp 127-130) in binary32
arithmetic. -/
def sampleStep (PI : α) (_samples : ℤ × ℤ) : float2 α :=
  ⟨fdiv (fmul 2 PI) (roundToFloat (_samples.1 : α)),
    fdiv PI (fmul 2 (roundToFloat (_samples.2 : α)))⟩

/-- The double loop of `HDRIrradiance::process` (hdri_irradiance.cpp 173-186) in binary32
arithmetic, over an accumulator `acc` that `body theta phi` updates once per pass of the inner
loop. Each of the two float loops tests its condition at most `fuel` times. -/
def processLoops {σ : Type} (PI : α) (_samples : ℤ × ℤ) (fuel : ℕ) (body : α → α → σ → σ)
    (acc : σ) : Option σ :=
  floatFor (fun theta => decide (theta < fmul 2 PI))
    (fun theta => fadd theta (sampleStep PI _samples).x)
    (fun theta acc =>
      floatFor (fun phi => decide (phi > 0)) (fun phi => fsub phi (sampleStep PI _samples).y)
        (fun phi acc => some (body theta phi acc))
        fuel (fdiv PI 2) acc)
    fuel 0 acc

/-- Blink `dot` on `float3` in binary32 arithmetic. -/
def dot (a b : float3 α) : α := fadd (fadd (fmul a.x b.x) (fmul a.y b.y)) (fmul a.z b.z)

/-- Blink `cross` on `float3` in binary32 arithmetic. -/
def cross (a b : float3 α) : float3 α :=
  ⟨fsub (fmul a.y b.z) (fmul a.z b.y), fsub (fmul a.z b.x) (fmul a.x b.z),
    fsub (fmul a.x b.y) (fmul a.y b.x)⟩

/-- Blink `length` on `float3` in binary32 arithmetic. -/
def length (sqrt : α → α) (a : float3 α) : α := sqrt (dot a a)

/-- Blink `normalize` on `float3` in binary32 arithmetic. -/
def normalize (sqrt : α → α) (a : float3 α) : float3 α :=
  ⟨fdiv a.x (length sqrt a), fdiv a.y (length sqrt a), fdiv a.z (length sqrt a)⟩

/-- Source `matmul` of a 3x3 matrix and a `float3` (normal_ray_reflect.cpp 156-163) in
binary32 arithmetic. -/
def matmul (m : float3x3 α) (v : float3 α) : float3 α :=
  ⟨fadd (fadd (fmul m.m00 v.x) (fmul m.m01 v.y)) (fmul m.m02 v.z),
   fadd (fadd (fmul m.m10 v.x) (fmul m.m11 v.y)) (fmul m.m12 v.z),
   fadd (fadd (fmul m.m20 v.x) (fmul m.m21 v.y)) (fmul m.m22 v.z)⟩

/-- Source `axisAngleRotationMatrix` (normal_ray_reflect.cpp 247-270) in binary32
arithmetic. -/
def axisAngleRotationMatrix (sin cos : α → α) (axis : float3 α) (angle : α) : float3x3 α :=
  let cosAngle := cos angle
  let oneMinusCosAngle := fsub 1 cosAngle
  let sinAngle := sin angle
  let axisSquared : float3 α := ⟨fmul axis.x axis.x, fmul axis.y axis.y, fmul axis.z axis.z⟩
  let axisXY := fmul (fmul axis.x axis.y) oneMinusCosAngle
  let axisXZ := fmul (fmul axis.x axis.z) oneMinusCosAngle
  let axisYZ := fmul (fmul axis.y axis.z) oneMinusCosAngle
  let axisSinAngle : float3 α := ⟨fmul axis.x sinAngle, fmul axis.y sinAngle, fmul axis.z sinAngle⟩
  { m00 := fadd cosAngle (fmul axisSquared.x oneMinusCosAngle)
    m01 := fsub axisXY axisSinAngle.z
    m02 := fadd axisXZ axisSinAngle.y
    m10 := fadd axisXY axisSinAngle.z
    m11 := fadd cosAngle (fmul axisSquared.y oneMinusCosAngle)
    m12 := fsub axisYZ axisSinAngle.x
    m20 := fsub axisXZ axisSinAngle.y
    m21 := fadd axisYZ axisSinAngle.x
    m22 := fadd cosAngle (fmul axisSquared.z oneMinusCosAngle) }

/-- Source `getAngleAndAxisBetweenVectors` (normal_ray_reflect.cpp 281-308) in binary32
arithmetic: the returned angle paired with the axis. -/
def getAngleAndAxisBetweenVectors (sqrt acos : α → α) (vector0 vector1 : float3 α) :
    α × float3 α :=
  let perpendicularVector := cross vector0 vector1
  let axis :=
    if length sqrt perpendicularVector > 0 then
      normalize sqrt perpendicularVector
    else if vector1.z ≠ 0 ∨ vector1.y ≠ 0 then
      normalize sqrt (cross ⟨1, 0, 0⟩ vector1)
    else if vector1.x ≠ 0 ∨ vector1.z ≠ 0 then
      normalize sqrt (cross ⟨0, 1, 0⟩ vector1)
    else if vector1.x ≠ 0 ∨ vector1.y ≠ 0 then
      normalize sqrt (cross ⟨0, 0, 1⟩ vector1)
    else
      vector0
  (acos (dot vector0 vector1), axis)

/-- Source `alignWithDirection` (normal_ray_reflect.cpp 324-345) in binary32 arithmetic. -/
def alignWithDirection (sqrt sin cos acos : α → α)
    (unalignedAxis alignDirection vectorToAlign : float3 α) : float3 α :=
  let angleAndAxis := getAngleAndAxisBetweenVectors sqrt acos unalignedAxis alignDirection
  let angle := angleAndAxis.1
  let rotationAxis := angleAndAxis.2
  if angle = 0 then
    vectorToAlign
  else
    matmul (axisAngleRotationMatrix sin cos rotationAxis angle) vectorToAlign

/-- Source `cosineDirectionInZHemisphere` (normal_ray_reflect.cpp 390-400) in binary32
arithmetic. -/
def cosineDirectionInZHemisphere (PI : α) (sqrt sin cos : α → α) (seed : float2 α) :
    float3 α :=
  let uniform := random sin seed.x
  let r := sqrt uniform
  let angle := fmul (fmul 2 PI) (random sin seed.y)
  let x := fmul r (cos angle)
  let y := fmul r (sin angle)
  ⟨x, y, sqrt (NormalRayReflect.positivePart (fsub 1 uniform))⟩

/-- Source `cosineDirectionInHemisphere` (normal_ray_reflect.cpp 412-419) in binary32
arithmetic. -/
def cosineDirectionInHemisphere (PI : α) (sqrt sin cos acos : α → α) (axis : float3 α)
    (seed : float2 α) : float3 α :=
  normalize sqrt
    (alignWithDirection sqrt sin cos acos ⟨0, 0, 1⟩ axis
      (cosineDirectionInZHemisphere PI sqrt sin cos seed))

end Binary32


/-! ## Lemmas on the built-ins -/

section VectorLemmas

variable {α : Type} [LinearOrderedField α]

theorem float3.add_def (a b : float3 α) : a + b = ⟨a.x + b.x, a.y + b.y, a.z + b.z⟩ := rfl

theorem float3.sub_def (a b : float3 α) : a - b = ⟨a.x - b.x, a.y - b.y, a.z - b.z⟩ := rfl

theorem float3.mul_def (a b : float3 α) : a * b = ⟨a.x * b.x, a.y * b.y, a.z * b.z⟩ := rfl

theorem float3.hmul_def (s : α) (a : float3 α) : s * a = ⟨s * a.x, s * a.y, s * a.z⟩ := rfl

theorem float3.mul_scalar_def (a : float3 α) (s : α) : a * s = ⟨a.x * s, a.y * s, a.z * s⟩ := rfl

theorem float3.hdiv_def (a : float3 α) (s : α) : a / s = ⟨a.x / s, a.y / s, a.z / s⟩ := rfl

theorem float2_add_def (a b : float2 α) : a + b = ⟨a.x + b.x, a.y + b.y⟩ := rfl

theorem float2_sub_scalar_def (a : float2 α) (s : α) : a - s = ⟨a.x - s, a.y - s⟩ := rfl

theorem float4_add_def (a b : float4 α) :
    a + b = ⟨a.x + b.x, a.y + b.y, a.z + b.z, a.w + b.w⟩ := rfl

theorem float4_hmul_def (s : α) (a : float4 α) :
    s * a = ⟨s * a.x, s * a.y, s * a.z, s * a.w⟩ := rfl

theorem float4_mul_scalar_def (a : float4 α) (s : α) :
    a * s = ⟨a.x * s, a.y * s, a.z * s, a.w * s⟩ := rfl

theorem float4_hdiv_def (a : float4 α) (s : α) :
    a / s = ⟨a.x / s, a.y / s, a.z / s, a.w / s⟩ := rfl

end VectorLemmas

section BuiltinLemmas

variable {α : Type} [LinearOrderedField α] [FloorRing α]

theorem fmod_abs_lt (x p : α) (hp : 0 < p) : -p < fmod x p ∧ fmod x p < p := by
  unfold fmod truncQuot
  have hne : p ≠ 0 := ne_of_gt hp
  have hx : x = p * (x / p) := by field_simp
  split_ifs with h
  · have h1 := Int.floor_le (x / p)
    have h2 := Int.lt_floor_add_one (x / p)
    constructor <;> nlinarith
  · have h1 := Int.le_ceil (x / p)
    have h2 := Int.ceil_lt_add_one (x / p)
    constructor <;> nlinarith

theorem fmod_of_nonneg_lt (x p : α) (h0 : 0 ≤ x) (hlt : x < p) : fmod x p = x := by
  unfold fmod truncQuot
  have hp : 0 < p := lt_of_le_of_lt h0 hlt
  have hq : 0 ≤ x / p := div_nonneg h0 hp.le
  have hq1 : x / p < 1 := (div_lt_one hp).2 hlt
  have hfl : ⌊x / p⌋ = 0 := by
    rw [Int.floor_eq_iff]
    constructor
    · simpa using hq
    · simpa using hq1
  simp [hq, hfl]

/-- The wrap step of `normalizeAngles` lands in `[0, p)`. -/
theorem wrap_range (x p : α) (hp : 0 < p) :
    0 ≤ fmod x p + p * boolToScalar (decide (fmod x p < 0)) ∧
      fmod x p + p * boolToScalar (decide (fmod x p < 0)) < p := by
  obtain ⟨h1, h2⟩ := fmod_abs_lt x p hp
  by_cases h : fmod x p < 0
  · have hd : decide (fmod x p < 0) = true := decide_eq_true h
    rw [hd]
    simp only [boolToScalar, if_true, mul_one]
    constructor <;> linarith
  · have hd : decide (fmod x p < 0) = false := decide_eq_false h
    rw [hd]
    simp only [boolToScalar, Bool.false_eq_true, if_false, mul_zero, add_zero]
    exact ⟨not_lt.1 h, h2⟩

/-- The wrap step of `normalizeAngles` fixes every value already in `[0, p)`. -/
theorem wrap_fixed (x p : α) (h0 : 0 ≤ x) (hlt : x < p) :
    fmod x p + p * boolToScalar (decide (fmod x p < 0)) = x := by
  rw [fmod_of_nonneg_lt x p h0 hlt]
  simp [boolToScalar, not_lt.2 h0]

/-- The wrap step of `normalizeAngles` moves a value by a whole number of periods. -/
theorem wrap_eq_add_int (x p : α) :
    ∃ m : ℤ, fmod x p + p * boolToScalar (decide (fmod x p < 0)) = x + (m : α) * p := by
  by_cases h : fmod x p < 0
  · refine ⟨1 - truncQuot (x / p), ?_⟩
    rw [decide_eq_true h]
    simp only [boolToScalar, if_true, fmod]
    push_cast
    ring
  · refine ⟨- truncQuot (x / p), ?_⟩
    rw [decide_eq_false h]
    simp only [boolToScalar, Bool.false_eq_true, if_false, fmod]
    push_cast
    ring

end BuiltinLemmas

/-- A vector of length one has unit dot product with itself. -/
theorem dot_self_of_length_eq_one (v : float3 ℝ) (h : length Real.sqrt v = 1) : dot v v = 1 := by
  unfold length at h
  have h0 : 0 ≤ dot v v := by unfold dot; nlinarith [sq_nonneg v.x, sq_nonneg v.y, sq_nonneg v.z]
  have := Real.sq_sqrt h0
  rw [h] at this
  linarith

/-- A vector with unit dot product with itself is fixed by `normalize`. -/
theorem normalize_of_dot_self_eq_one (v : float3 ℝ) (h : dot v v = 1) :
    normalize Real.sqrt v = v := by
  unfold normalize length
  rw [h, Real.sqrt_one]
  ext <;> simp [HDiv.hDiv] <;> exact div_one _

/-! ## Angle normalisation -/

/-! ## Spherical round trip

The C `atan2(y, x)` is instantiated on the reals by the argument of the point
`(x, y)`: a value in `(-π, π]`, and `0` at the origin. -/

/-- Sine and cosine do not see the wrap step applied with period `2π`. -/
theorem wrap_two_pi_trig (t : ℝ) :
    Real.cos (fmod t (2 * Real.pi)
        + 2 * Real.pi * boolToScalar (decide (fmod t (2 * Real.pi) < 0))) = Real.cos t ∧
    Real.sin (fmod t (2 * Real.pi)
        + 2 * Real.pi * boolToScalar (decide (fmod t (2 * Real.pi) < 0))) = Real.sin t := by
  obtain ⟨m, hm⟩ := wrap_eq_add_int t (2 * Real.pi)
  rw [hm]
  exact ⟨Real.cos_add_int_mul_two_pi t m, Real.sin_add_int_mul_two_pi t m⟩

/-- Round trip through the angles `(theta, arccos y)` for any `theta` whose wrapped value
has the sine and cosine of the azimuth of `(x, z)`. -/
theorem roundtrip_core (d : float3 ℝ) (hd : dot d d = 1)
    (hy1 : d.y ≠ 1) (hy2 : d.y ≠ -1) (theta : ℝ)
    (hc : Real.cos theta = Real.cos (Complex.arg ⟨d.x, d.z⟩))
    (hs : Real.sin theta = Real.sin (Complex.arg ⟨d.x, d.z⟩)) :
    HdriIrradiance.sphericalUnitVectorToCartesion Real.sin Real.cos
      (normalizeAngles Real.pi ⟨theta, Real.arccos d.y⟩) = d := by
  obtain ⟨x, y, z⟩ := d
  simp only [dot] at hd
  simp only at hy1 hy2 hc hs
  have hysq : y ^ 2 < 1 := by
    have h1 : y ^ 2 ≤ 1 := by nlinarith [sq_nonneg x, sq_nonneg z]
    rcases lt_or_eq_of_le h1 with h | h
    · exact h
    · exfalso
      have : (y - 1) * (y + 1) = 0 := by ring_nf; linarith
      rcases mul_eq_zero.1 this with h' | h'
      · exact hy1 (by linarith)
      · exact hy2 (by linarith)
  have hylo : -1 < y := by nlinarith
  have hyhi : y < 1 := by nlinarith
  have hphi0 : 0 ≤ Real.arccos y := Real.arccos_nonneg y
  have hphi1 : Real.arccos y < Real.pi := by
    refine lt_of_le_of_ne (Real.arccos_le_pi y) (fun h => ?_)
    have := Real.arccos_eq_pi.1 h
    linarith
  have hwy := wrap_fixed (Real.arccos y) Real.pi hphi0 hphi1
  obtain ⟨hwc, hws⟩ := wrap_two_pi_trig theta
  have hne : (⟨x, z⟩ : ℂ) ≠ 0 := by
    intro h
    have hx : x = 0 := congrArg Complex.re h
    have hz : z = 0 := congrArg Complex.im h
    subst hx hz
    nlinarith
  have habs : Complex.abs ⟨x, z⟩ = Real.sqrt (1 - y ^ 2) := by
    rw [Complex.abs_apply, Complex.normSq_mk]
    congr 1
    nlinarith
  have hspos : 0 < Real.sqrt (1 - y ^ 2) := Real.sqrt_pos.2 (by linarith)
  have hcos : Real.cos (Complex.arg ⟨x, z⟩) = x / Real.sqrt (1 - y ^ 2) := by
    rw [Complex.cos_arg hne, habs]
  have hsin : Real.sin (Complex.arg ⟨x, z⟩) = z / Real.sqrt (1 - y ^ 2) := by
    rw [Complex.sin_arg, habs]
  simp only [HdriIrradiance.sphericalUnitVectorToCartesion, normalizeAngles]
  rw [hwy, hwc, hws, hc, hs, hcos, hsin, Real.sin_arccos, Real.cos_arccos hylo.le hyhi.le]
  ext
  · exact div_mul_cancel₀ x (ne_of_gt hspos)
  · rfl
  · exact div_mul_cancel₀ z (ne_of_gt hspos)

/-- C3: for every unit direction `d` that is not a pole (`y ≠ 1`, `y ≠ -1`), converting to
spherical angles and back gives `d`, both with the irradiance kernel's conversion and with
the shading kernel's conversion at theta offset `0`. -/
theorem spherical_roundtrip (d : float3 ℝ) (hd : length Real.sqrt d = 1)
    (hy1 : d.y ≠ 1) (hy2 : d.y ≠ -1) :
    HdriIrradiance.sphericalUnitVectorToCartesion Real.sin Real.cos
      (HdriIrradiance.cartesionUnitVectorToSpherical Real.pi
        (fun y x => Complex.arg ⟨x, y⟩) Real.arccos d) = d ∧
    HdriIrradiance.sphericalUnitVectorToCartesion Real.sin Real.cos
      (NormalRayReflect.cartesionUnitVectorToSpherical Real.pi
        (fun y x => Complex.arg ⟨x, y⟩) Real.arccos d 0) = d := by
  have h1 := dot_self_of_length_eq_one d hd
  constructor
  · exact roundtrip_core d h1 hy1 hy2 _ rfl rfl
  · simp only [NormalRayReflect.cartesionUnitVectorToSpherical, add_zero]
    exact roundtrip_core d h1 hy1 hy2 _ rfl rfl

/-- Witness for C3 at the direction `(1, 0, 0)`. -/
theorem spherical_roundtrip_witness :
    length Real.sqrt (⟨1, 0, 0⟩ : float3 ℝ) = 1 ∧
    HdriIrradiance.sphericalUnitVectorToCartesion Real.sin Real.cos
      (HdriIrradiance.cartesionUnitVectorToSpherical Real.pi
        (fun y x => Complex.arg ⟨x, y⟩) Real.arccos (⟨1, 0, 0⟩ : float3 ℝ)) = ⟨1, 0, 0⟩ :=
  have h : length Real.sqrt (⟨1, 0, 0⟩ : float3 ℝ) = 1 := by simp [length, dot]
  ⟨h, (spherical_roundtrip ⟨1, 0, 0⟩ h (by norm_num) (by norm_num)).1⟩


/-! ## Reflection -/

/-- The reflected vector before normalisation has unit dot product with itself. -/
theorem dot_self_reflect (v n : float3 ℝ) (hv : dot v v = 1) (hn : dot n n = 1) :
    dot (v - (2 * dot v n) * n) (v - (2 * dot v n) * n) = 1 := by
  simp only [float3.sub_def, float3.hmul_def, dot] at *
  linear_combination hv + (4 * (v.x * n.x + v.y * n.y + v.z * n.z) ^ 2) * hn

/-- On unit vectors the normalisation in `reflectRayOffSurface` does nothing. -/
theorem reflect_eq (v n : float3 ℝ) (hv : dot v v = 1) (hn : dot n n = 1) :
    NormalRayReflect.reflectRayOffSurface Real.sqrt v n = v - (2 * dot v n) * n := by
  unfold NormalRayReflect.reflectRayOffSurface
  exact normalize_of_dot_self_eq_one _ (dot_self_reflect v n hv hn)

/-- Reflecting twice off the same unit normal returns a unit vector to itself. -/
theorem reflect_reflect (v n : float3 ℝ) (hv : dot v v = 1) (hn : dot n n = 1) :
    NormalRayReflect.reflectRayOffSurface Real.sqrt
      (NormalRayReflect.reflectRayOffSurface Real.sqrt v n) n = v := by
  rw [reflect_eq v n hv hn]
  rw [reflect_eq _ n (dot_self_reflect v n hv hn) hn]
  simp only [float3.sub_def, float3.hmul_def, dot] at *
  ext
  · simp only
    linear_combination (4 * n.x * (v.x * n.x + v.y * n.y + v.z * n.z)) * hn
  · simp only
    linear_combination (4 * n.y * (v.x * n.x + v.y * n.y + v.z * n.z)) * hn
  · simp only
    linear_combination (4 * n.z * (v.x * n.x + v.y * n.y + v.z * n.z)) * hn

/-- C4: reflection is self-inverse: for every unit vector `v` and unit normal `n` with
`dot v n < 0`, reflecting `v` off `n` twice gives `v`. -/
theorem reflectRayOffSurface_self_inverse (v n : float3 ℝ)
    (hv : length Real.sqrt v = 1) (hn : length Real.sqrt n = 1) (_hdot : dot v n < 0) :
    NormalRayReflect.reflectRayOffSurface Real.sqrt
      (NormalRayReflect.reflectRayOffSurface Real.sqrt v n) n = v :=
  reflect_reflect v n (dot_self_of_length_eq_one v hv) (dot_self_of_length_eq_one n hn)

/-- Witness for C4: the ray `(0, 0, -1)` hitting the surface with normal `(0, 0, 1)`. -/
theorem reflectRayOffSurface_self_inverse_witness :
    length Real.sqrt (⟨0, 0, -1⟩ : float3 ℝ) = 1 ∧ length Real.sqrt (⟨0, 0, 1⟩ : float3 ℝ) = 1 ∧
    dot (⟨0, 0, -1⟩ : float3 ℝ) ⟨0, 0, 1⟩ < 0 ∧
    NormalRayReflect.reflectRayOffSurface Real.sqrt
      (NormalRayReflect.reflectRayOffSurface Real.sqrt ⟨0, 0, -1⟩ ⟨0, 0, 1⟩) ⟨0, 0, 1⟩
      = (⟨0, 0, -1⟩ : float3 ℝ) :=
  have hv : length Real.sqrt (⟨0, 0, -1⟩ : float3 ℝ) = 1 := by simp [length, dot]
  have hn : length Real.sqrt (⟨0, 0, 1⟩ : float3 ℝ) = 1 := by simp [length, dot]
  have hd : dot (⟨0, 0, -1⟩ : float3 ℝ) ⟨0, 0, 1⟩ < 0 := by simp [dot]
  ⟨hv, hn, hd, reflectRayOffSurface_self_inverse ⟨0, 0, -1⟩ ⟨0, 0, 1⟩ hv hn hd⟩


/-! ## Refraction -/

/-- C5, the claim as stated fails: the unit ray `(0, 0, 1)` leaving through the surface
with unit normal `(0, 0, 1)` at equal indices `1` comes back as `(0, 0, -1)`. -/
theorem refract_equal_indices_counterexample :
    length Real.sqrt (⟨0, 0, 1⟩ : float3 ℝ) = 1 ∧ (0 : ℝ) < 1 ∧
    NormalRayReflect.refractRayThroughSurface Real.sqrt ⟨0, 0, 1⟩ ⟨0, 0, 1⟩ 1 1
      = (⟨0, 0, -1⟩ : float3 ℝ) ∧
    NormalRayReflect.refractRayThroughSurface Real.sqrt ⟨0, 0, 1⟩ ⟨0, 0, 1⟩ 1 1
      ≠ (⟨0, 0, 1⟩ : float3 ℝ) := by
  have h : NormalRayReflect.refractRayThroughSurface Real.sqrt ⟨0, 0, 1⟩ ⟨0, 0, 1⟩ 1 1
      = (⟨0, 0, -1⟩ : float3 ℝ) := by
    simp only [NormalRayReflect.refractRayThroughSurface, dot, float3.hmul_def, float3.add_def,
      normalize, length, float3.hdiv_def]
    norm_num
  refine ⟨by simp [length, dot], by norm_num, h, ?_⟩
  rw [h]
  intro hEq
  have := congrArg float3.z hEq
  norm_num at this

/-- C5 as amended: for every unit incident direction `v` and unit normal `n` facing it
(`dot v n ≤ 0`) and every positive index `eta`, refraction at equal indices returns `v`. -/
theorem refract_equal_indices (v n : float3 ℝ) (eta : ℝ)
    (hv : length Real.sqrt v = 1) (_hn : length Real.sqrt n = 1) (hdot : dot v n ≤ 0)
    (heta : 0 < eta) :
    NormalRayReflect.refractRayThroughSurface Real.sqrt v n eta eta = v := by
  have hvv := dot_self_of_length_eq_one v hv
  have hr : eta / eta = 1 := div_self (ne_of_gt heta)
  have hnot : ¬ (1 * 1 * (1 - -dot v n * -dot v n) > 1) := by
    have := mul_self_nonneg (dot v n)
    intro h
    nlinarith
  have hsq : Real.sqrt (1 - 1 * 1 * (1 - -dot v n * -dot v n)) = -dot v n := by
    have : 1 - 1 * 1 * (1 - -dot v n * -dot v n) = (-dot v n) ^ 2 := by ring
    rw [this, Real.sqrt_sq (by linarith)]
  simp only [NormalRayReflect.refractRayThroughSurface, hr, if_neg hnot, hsq]
  have hvec : (1 : ℝ) * v + (1 * -dot v n - -dot v n) * n = v := by
    simp only [float3.hmul_def, float3.add_def]
    ext <;> simp
  rw [hvec]
  exact normalize_of_dot_self_eq_one v hvv

/-- Witness for the amended C5: the ray `(0, 0, -1)` entering the surface with normal
`(0, 0, 1)` at equal indices `2`. -/
theorem refract_equal_indices_witness :
    length Real.sqrt (⟨0, 0, -1⟩ : float3 ℝ) = 1 ∧ length Real.sqrt (⟨0, 0, 1⟩ : float3 ℝ) = 1 ∧
    dot (⟨0, 0, -1⟩ : float3 ℝ) ⟨0, 0, 1⟩ ≤ 0 ∧
    NormalRayReflect.refractRayThroughSurface Real.sqrt ⟨0, 0, -1⟩ ⟨0, 0, 1⟩ 2 2
      = (⟨0, 0, -1⟩ : float3 ℝ) :=
  have hv : length Real.sqrt (⟨0, 0, -1⟩ : float3 ℝ) = 1 := by simp [length, dot]
  have hn : length Real.sqrt (⟨0, 0, 1⟩ : float3 ℝ) = 1 := by simp [length, dot]
  have hd : dot (⟨0, 0, -1⟩ : float3 ℝ) ⟨0, 0, 1⟩ ≤ 0 := by simp [dot]
  ⟨hv, hn, hd, refract_equal_indices ⟨0, 0, -1⟩ ⟨0, 0, 1⟩ 2 hv hn hd (by norm_num)⟩

/-- C6: total internal reflection fallback: whenever
`(eta_i / eta_t)^2 * (1 - dot(v, n)^2) > 1`, `refractRayThroughSurface` returns exactly
`reflectRayOffSurface v n`. -/
theorem refract_total_internal_reflection (v n : float3 ℝ) (eta_i eta_t : ℝ)
    (h : (eta_i / eta_t) ^ 2 * (1 - dot v n ^ 2) > 1) :
    NormalRayReflect.refractRayThroughSurface Real.sqrt v n eta_i eta_t
      = NormalRayReflect.reflectRayOffSurface Real.sqrt v n := by
  have hc : eta_i / eta_t * (eta_i / eta_t) * (1 - -dot v n * -dot v n) > 1 := by
    have e : eta_i / eta_t * (eta_i / eta_t) * (1 - -dot v n * -dot v n)
        = (eta_i / eta_t) ^ 2 * (1 - dot v n ^ 2) := by ring
    rw [e]
    exact h
  simp only [NormalRayReflect.refractRayThroughSurface, if_pos hc]

/-- Witness for C6: a grazing ray `(1, 0, 0)` on the normal `(0, 0, 1)` going from index `2`
to index `1`. -/
theorem refract_total_internal_reflection_witness :
    ((2 : ℝ) / 1) ^ 2 * (1 - dot (⟨1, 0, 0⟩ : float3 ℝ) ⟨0, 0, 1⟩ ^ 2) > 1 ∧
    NormalRayReflect.refractRayThroughSurface Real.sqrt ⟨1, 0, 0⟩ ⟨0, 0, 1⟩ 2 1
      = NormalRayReflect.reflectRayOffSurface Real.sqrt (⟨1, 0, 0⟩ : float3 ℝ) ⟨0, 0, 1⟩ :=
  have h : ((2 : ℝ) / 1) ^ 2 * (1 - dot (⟨1, 0, 0⟩ : float3 ℝ) ⟨0, 0, 1⟩ ^ 2) > 1 := by
    simp only [dot]
    norm_num
  ⟨h, refract_total_internal_reflection ⟨1, 0, 0⟩ ⟨0, 0, 1⟩ 2 1 h⟩


/-! ## Schlick reflection coefficient -/

/-- C7: `schlickReflectionCoefficient` returns exactly `1` whenever `eta_i > eta_t` and
the incidence exceeds the critical angle, `(eta_i / eta_t)^2 * (1 - dot(n, v)^2) > 1`. -/
theorem schlick_beyond_critical_angle (v n : float3 ℝ) (eta_i eta_t : ℝ)
    (hgt : eta_i > eta_t) (h : (eta_i / eta_t) ^ 2 * (1 - dot n v ^ 2) > 1) :
    NormalRayReflect.schlickReflectionCoefficient Real.sqrt v n eta_i eta_t = 1 := by
  have hc : eta_i / eta_t * (eta_i / eta_t) * (1 - -dot n v * -dot n v) > 1 := by
    have e : eta_i / eta_t * (eta_i / eta_t) * (1 - -dot n v * -dot n v)
        = (eta_i / eta_t) ^ 2 * (1 - dot n v ^ 2) := by ring
    rw [e]
    exact h
  simp only [NormalRayReflect.schlickReflectionCoefficient, if_pos hgt, if_pos hc]

/-- Witness for C7: a grazing ray `(1, 0, 0)` on the normal `(0, 0, 1)` going from index `2`
to index `1`. -/
theorem schlick_beyond_critical_angle_witness :
    (2 : ℝ) > 1 ∧ ((2 : ℝ) / 1) ^ 2 * (1 - dot (⟨0, 0, 1⟩ : float3 ℝ) ⟨1, 0, 0⟩ ^ 2) > 1 ∧
    NormalRayReflect.schlickReflectionCoefficient Real.sqrt ⟨1, 0, 0⟩ ⟨0, 0, 1⟩ 2 1 = 1 :=
  have h : ((2 : ℝ) / 1) ^ 2 * (1 - dot (⟨0, 0, 1⟩ : float3 ℝ) ⟨1, 0, 0⟩ ^ 2) > 1 := by
    simp only [dot]
    norm_num
  ⟨by norm_num, h,
    schlick_beyond_critical_angle ⟨1, 0, 0⟩ ⟨0, 0, 1⟩ 2 1 (by norm_num) h⟩

/-- C8: at normal incidence (`dot normal incident = -1`) `schlickReflectionCoefficient`
returns the base reflectance `((eta_i - eta_t) / (eta_i + eta_t))^2`, for all positive
indices, in both branches of the comparison of the indices. -/
theorem schlick_normal_incidence (v n : float3 ℝ) (eta_i eta_t : ℝ)
    (_hi : 0 < eta_i) (_ht : 0 < eta_t) (hdot : dot n v = -1) :
    NormalRayReflect.schlickReflectionCoefficient Real.sqrt v n eta_i eta_t
      = ((eta_i - eta_t) / (eta_i + eta_t)) ^ 2 := by
  simp only [NormalRayReflect.schlickReflectionCoefficient, hdot]
  norm_num

/-- Witness for C8 with `eta_i ≤ eta_t`: the ray `(0, 0, -1)` on the normal `(0, 0, 1)`,
from index `1` to index `2`. -/
theorem schlick_normal_incidence_witness :
    dot (⟨0, 0, 1⟩ : float3 ℝ) ⟨0, 0, -1⟩ = -1 ∧
    NormalRayReflect.schlickReflectionCoefficient Real.sqrt ⟨0, 0, -1⟩ ⟨0, 0, 1⟩ 1 2
      = (((1 : ℝ) - 2) / (1 + 2)) ^ 2 ∧
    NormalRayReflect.schlickReflectionCoefficient Real.sqrt ⟨0, 0, -1⟩ ⟨0, 0, 1⟩ 2 1
      = (((2 : ℝ) - 1) / (2 + 1)) ^ 2 :=
  have hd : dot (⟨0, 0, 1⟩ : float3 ℝ) ⟨0, 0, -1⟩ = -1 := by simp [dot]
  ⟨hd, schlick_normal_incidence ⟨0, 0, -1⟩ ⟨0, 0, 1⟩ 1 2 (by norm_num) (by norm_num) hd,
    schlick_normal_incidence ⟨0, 0, -1⟩ ⟨0, 0, 1⟩ 2 1 (by norm_num) (by norm_num) hd⟩


/-- Cauchy-Schwarz for two vectors with unit dot product with themselves. -/
theorem dot_sq_le_one (a b : float3 ℝ) (ha : dot a a = 1) (hb : dot b b = 1) :
    dot a b ^ 2 ≤ 1 := by
  simp only [dot] at *
  nlinarith [sq_nonneg (a.x * b.y - a.y * b.x), sq_nonneg (a.y * b.z - a.z * b.y),
    sq_nonneg (a.z * b.x - a.x * b.z)]

/-- The base reflectance of two positive indices lies in `[0, 1]`. -/
theorem parallelCoefficient_range (eta_i eta_t : ℝ) (hi : 0 < eta_i) (ht : 0 < eta_t) :
    0 ≤ ((eta_i - eta_t) / (eta_i + eta_t)) ^ 2 ∧
      ((eta_i - eta_t) / (eta_i + eta_t)) ^ 2 ≤ 1 := by
  have hs : 0 < eta_i + eta_t := by linarith
  refine ⟨sq_nonneg _, ?_⟩
  rw [div_pow, div_le_one (by positivity)]
  nlinarith

/-- Schlick's interpolation stays in `[0, 1]` when the base reflectance and the cosine do. -/
theorem schlick_mix_range (r c : ℝ) (hr0 : 0 ≤ r) (hr1 : r ≤ 1) (hc0 : 0 ≤ c) (hc1 : c ≤ 1) :
    0 ≤ r + (1 - r) * (1 - c) ^ 5 ∧ r + (1 - r) * (1 - c) ^ 5 ≤ 1 := by
  have ht0 : 0 ≤ (1 - c) ^ 5 := pow_nonneg (by linarith) 5
  have ht1 : (1 - c) ^ 5 ≤ 1 := pow_le_one₀ (by linarith) (by linarith)
  constructor
  · nlinarith [mul_nonneg (sub_nonneg.2 hr1) ht0]
  · nlinarith [mul_nonneg (sub_nonneg.2 hr1) (sub_nonneg.2 ht1)]

/-- C9, the claim as stated fails: for the unit ray `(0, 0, 1)` leaving through the surface
with unit normal `(0, 0, 1)`, from index `1` to index `2`, the coefficient is `257 / 9`. -/
theorem schlick_range_counterexample :
    length Real.sqrt (⟨0, 0, 1⟩ : float3 ℝ) = 1 ∧
    NormalRayReflect.schlickReflectionCoefficient Real.sqrt ⟨0, 0, 1⟩ ⟨0, 0, 1⟩ 1 2
      = (257 / 9 : ℝ) ∧
    ¬ (NormalRayReflect.schlickReflectionCoefficient Real.sqrt ⟨0, 0, 1⟩ ⟨0, 0, 1⟩ 1 2
      ≤ (1 : ℝ)) := by
  have h : NormalRayReflect.schlickReflectionCoefficient Real.sqrt ⟨0, 0, 1⟩ ⟨0, 0, 1⟩ 1 2
      = (257 / 9 : ℝ) := by
    simp only [NormalRayReflect.schlickReflectionCoefficient, dot]
    norm_num
  refine ⟨by simp [length, dot], h, ?_⟩
  rw [h]
  norm_num

/-- C9 as amended: for every unit incident direction `v`, every unit normal `n` and all
positive indices, if the normal faces the incident ray (`dot n v ≤ 0`) or `eta_i > eta_t`,
the value of `schlickReflectionCoefficient` lies in `[0, 1]`. -/
theorem schlick_range (v n : float3 ℝ) (eta_i eta_t : ℝ)
    (hv : length Real.sqrt v = 1) (hn : length Real.sqrt n = 1)
    (hi : 0 < eta_i) (ht : 0 < eta_t) (hside : dot n v ≤ 0 ∨ eta_t < eta_i) :
    0 ≤ NormalRayReflect.schlickReflectionCoefficient Real.sqrt v n eta_i eta_t ∧
    NormalRayReflect.schlickReflectionCoefficient Real.sqrt v n eta_i eta_t ≤ 1 := by
  have hvv := dot_self_of_length_eq_one v hv
  have hnn := dot_self_of_length_eq_one n hn
  have hcs := dot_sq_le_one n v hnn hvv
  obtain ⟨hr0, hr1⟩ := parallelCoefficient_range eta_i eta_t hi ht
  simp only [NormalRayReflect.schlickReflectionCoefficient]
  split_ifs with hgt hcrit
  · exact ⟨zero_le_one, le_refl 1⟩
  · have hs1 : eta_i / eta_t * (eta_i / eta_t) * (1 - -dot n v * -dot n v) ≤ 1 :=
      not_lt.1 hcrit
    have hs0 : 0 ≤ eta_i / eta_t * (eta_i / eta_t) * (1 - -dot n v * -dot n v) := by
      apply mul_nonneg (mul_self_nonneg _)
      nlinarith
    exact schlick_mix_range _ _ hr0 hr1 (Real.sqrt_nonneg _)
      (Real.sqrt_le_one.2 (by linarith))
  · have hd : dot n v ≤ 0 := by
      rcases hside with h | h
      · exact h
      · exact absurd h hgt
    have hc1 : -dot n v ≤ 1 := by nlinarith
    exact schlick_mix_range _ _ hr0 hr1 (by linarith) hc1

/-- Witness for the amended C9: the ray `(0, 0, -1)` on the normal `(0, 0, 1)`, from index
`1` to index `2`. -/
theorem schlick_range_witness :
    length Real.sqrt (⟨0, 0, -1⟩ : float3 ℝ) = 1 ∧ length Real.sqrt (⟨0, 0, 1⟩ : float3 ℝ) = 1 ∧
    dot (⟨0, 0, 1⟩ : float3 ℝ) ⟨0, 0, -1⟩ ≤ 0 ∧
    0 ≤ NormalRayReflect.schlickReflectionCoefficient Real.sqrt ⟨0, 0, -1⟩ ⟨0, 0, 1⟩ 1 2 ∧
    NormalRayReflect.schlickReflectionCoefficient Real.sqrt ⟨0, 0, -1⟩ ⟨0, 0, 1⟩ 1 2
      ≤ (1 : ℝ) :=
  have hv : length Real.sqrt (⟨0, 0, -1⟩ : float3 ℝ) = 1 := by simp [length, dot]
  have hn : length Real.sqrt (⟨0, 0, 1⟩ : float3 ℝ) = 1 := by simp [length, dot]
  have hd : dot (⟨0, 0, 1⟩ : float3 ℝ) ⟨0, 0, -1⟩ ≤ 0 := by simp [dot]
  ⟨hv, hn, hd,
    schlick_range ⟨0, 0, -1⟩ ⟨0, 0, 1⟩ 1 2 hv hn (by norm_num) (by norm_num) (Or.inl hd)⟩

/-! ## Lobe-weight reconciliation -/

/-! ## Pseudo-random sampler -/

/-- The fractional part lies in `[0, 1)`. -/
theorem fract_range (x : ℝ) :
    0 ≤ NormalRayReflect.fract x ∧ NormalRayReflect.fract x < 1 := by
  unfold NormalRayReflect.fract
  have h1 := Int.floor_le x
  have h2 := Int.lt_floor_add_one x
  constructor <;> linarith

/-- C14: for every seed pair, `cosineDirectionInZHemisphere seed` is a unit vector with
non-negative `z`; with `u1 = random seed.x` and `u2 = random seed.y` it equals
`(sqrt u1 * cos (2π u2), sqrt u1 * sin (2π u2), sqrt (1 - u1))`. -/
theorem cosineDirectionInZHemisphere_unit (seed : float2 ℝ) :
    NormalRayReflect.cosineDirectionInZHemisphere Real.pi Real.sqrt Real.sin Real.cos seed
      = ⟨Real.sqrt (NormalRayReflect.random Real.sin seed.x)
            * Real.cos (2 * Real.pi * NormalRayReflect.random Real.sin seed.y),
          Real.sqrt (NormalRayReflect.random Real.sin seed.x)
            * Real.sin (2 * Real.pi * NormalRayReflect.random Real.sin seed.y),
          Real.sqrt (1 - NormalRayReflect.random Real.sin seed.x)⟩ ∧
    length Real.sqrt
      (NormalRayReflect.cosineDirectionInZHemisphere Real.pi Real.sqrt Real.sin Real.cos seed)
      = 1 ∧
    0 ≤ (NormalRayReflect.cosineDirectionInZHemisphere Real.pi Real.sqrt Real.sin
      Real.cos seed).z := by
  obtain ⟨hu0, hu1⟩ : 0 ≤ NormalRayReflect.random Real.sin seed.x
      ∧ NormalRayReflect.random Real.sin seed.x < 1 := fract_range _
  have hpos : NormalRayReflect.positivePart (1 - NormalRayReflect.random Real.sin seed.x)
      = 1 - NormalRayReflect.random Real.sin seed.x := by
    unfold NormalRayReflect.positivePart
    exact max_eq_left (by linarith)
  have hcs := Real.cos_sq_add_sin_sq
    (2 * Real.pi * NormalRayReflect.random Real.sin seed.y)
  have h1 := Real.sq_sqrt hu0
  have h2 : Real.sqrt (1 - NormalRayReflect.random Real.sin seed.x) ^ 2
      = 1 - NormalRayReflect.random Real.sin seed.x := Real.sq_sqrt (by linarith)
  refine ⟨?_, ?_, ?_⟩
  · simp only [NormalRayReflect.cosineDirectionInZHemisphere, hpos]
  · simp only [NormalRayReflect.cosineDirectionInZHemisphere, hpos, length, dot]
    rw [show ∀ r c s t : ℝ, r * c * (r * c) + r * s * (r * s) + t * t
        = r ^ 2 * (c ^ 2 + s ^ 2) + t ^ 2 from fun r c s t => by ring]
    rw [hcs, h1, h2]
    simp
  · simp only [NormalRayReflect.cosineDirectionInZHemisphere]
    exact Real.sqrt_nonneg _

/-! ## Snell's law -/

/-- The refracted vector before normalisation, for any ratio `r` and any `cT` with
`cT^2 = 1 - r^2 * (1 - dot(v, n)^2)`: unit length, normal part `-cT`, tangential part
scaled by `r`. -/
theorem snell_core (v n : float3 ℝ) (r cT : ℝ) (hvv : dot v v = 1) (hnn : dot n n = 1)
    (hcT2 : cT ^ 2 = 1 - r ^ 2 * (1 - dot v n ^ 2)) :
    dot (r * v + (r * -dot v n - cT) * n) (r * v + (r * -dot v n - cT) * n) = 1 ∧
    dot (r * v + (r * -dot v n - cT) * n) n = -cT ∧
    (r * v + (r * -dot v n - cT) * n) - dot (r * v + (r * -dot v n - cT) * n) n * n
      = r * (v - dot v n * n) := by
  have hdn : dot (r * v + (r * -dot v n - cT) * n) n = -cT := by
    simp only [float3.hmul_def, float3.add_def, dot] at *
    linear_combination (r * -(v.x * n.x + v.y * n.y + v.z * n.z) - cT) * hnn
  refine ⟨?_, hdn, ?_⟩
  · simp only [float3.hmul_def, float3.add_def, dot] at *
    linear_combination (r ^ 2) * hvv
      + ((r * -(v.x * n.x + v.y * n.y + v.z * n.z) - cT) ^ 2) * hnn + hcT2
  · rw [hdn]
    simp only [float3.hmul_def, float3.add_def, float3.sub_def, dot]
    ext <;> simp only <;> ring

/-- C18: for unit incident `v` and unit normal `n` with `dot v n ≤ 0`, positive indices,
`r = eta_i / eta_t` and `s2 = r^2 * (1 - dot(v, n)^2) ≤ 1`, the refracted vector `t` is a
unit vector with `dot t n = -sqrt (1 - s2)` and tangential part
`t - dot(t, n) * n = r * (v - dot(v, n) * n)`. -/
theorem refract_snell (v n : float3 ℝ) (eta_i eta_t : ℝ)
    (hv : length Real.sqrt v = 1) (hn : length Real.sqrt n = 1) (_hdot : dot v n ≤ 0)
    (_hi : 0 < eta_i) (_ht : 0 < eta_t)
    (hs : (eta_i / eta_t) ^ 2 * (1 - dot v n ^ 2) ≤ 1) :
    length Real.sqrt (NormalRayReflect.refractRayThroughSurface Real.sqrt v n eta_i eta_t) = 1 ∧
    dot (NormalRayReflect.refractRayThroughSurface Real.sqrt v n eta_i eta_t) n
      = -Real.sqrt (1 - (eta_i / eta_t) ^ 2 * (1 - dot v n ^ 2)) ∧
    NormalRayReflect.refractRayThroughSurface Real.sqrt v n eta_i eta_t
        - dot (NormalRayReflect.refractRayThroughSurface Real.sqrt v n eta_i eta_t) n * n
      = (eta_i / eta_t) * (v - dot v n * n) := by
  have hvv := dot_self_of_length_eq_one v hv
  have hnn := dot_self_of_length_eq_one n hn
  have e : eta_i / eta_t * (eta_i / eta_t) * (1 - -dot v n * -dot v n)
      = (eta_i / eta_t) ^ 2 * (1 - dot v n ^ 2) := by ring
  have hcT2 := Real.sq_sqrt (sub_nonneg.2 hs)
  obtain ⟨hu, hdn, htan⟩ := snell_core v n (eta_i / eta_t) _ hvv hnn hcT2
  have hrefr : NormalRayReflect.refractRayThroughSurface Real.sqrt v n eta_i eta_t
      = eta_i / eta_t * v + (eta_i / eta_t * -dot v n
          - Real.sqrt (1 - (eta_i / eta_t) ^ 2 * (1 - dot v n ^ 2))) * n := by
    simp only [NormalRayReflect.refractRayThroughSurface, e]
    rw [if_neg (not_lt.2 hs)]
    exact normalize_of_dot_self_eq_one _ hu
  rw [hrefr]
  refine ⟨?_, hdn, htan⟩
  unfold length
  rw [hu, Real.sqrt_one]

/-- Witness for C18: the ray `(0, 0, -1)` entering the surface with normal `(0, 0, 1)` from
index `1` to index `2`. -/
theorem refract_snell_witness :
    length Real.sqrt (NormalRayReflect.refractRayThroughSurface Real.sqrt
      (⟨0, 0, -1⟩ : float3 ℝ) ⟨0, 0, 1⟩ 1 2) = 1 ∧
    dot (NormalRayReflect.refractRayThroughSurface Real.sqrt
      (⟨0, 0, -1⟩ : float3 ℝ) ⟨0, 0, 1⟩ 1 2) ⟨0, 0, 1⟩
      = -Real.sqrt (1 - ((1 : ℝ) / 2) ^ 2 * (1 - dot (⟨0, 0, -1⟩ : float3 ℝ) ⟨0, 0, 1⟩ ^ 2)) :=
  have hv : length Real.sqrt (⟨0, 0, -1⟩ : float3 ℝ) = 1 := by simp [length, dot]
  have hn : length Real.sqrt (⟨0, 0, 1⟩ : float3 ℝ) = 1 := by simp [length, dot]
  have hd : dot (⟨0, 0, -1⟩ : float3 ℝ) ⟨0, 0, 1⟩ ≤ 0 := by simp [dot]
  have hs : ((1 : ℝ) / 2) ^ 2 * (1 - dot (⟨0, 0, -1⟩ : float3 ℝ) ⟨0, 0, 1⟩ ^ 2) ≤ 1 := by
    simp only [dot]
    norm_num
  have h := refract_snell ⟨0, 0, -1⟩ ⟨0, 0, 1⟩ 1 2 hv hn hd (by norm_num) (by norm_num) hs
  ⟨h.1, h.2.1⟩


/-! ## Axis-angle alignment -/

/-- Rodrigues form of the rotation matrix applied to a vector. -/
theorem matmul_axisAngle (k w : float3 ℝ) (t : ℝ) :
    NormalRayReflect.matmul
        (NormalRayReflect.axisAngleRotationMatrix Real.sin Real.cos k t) w
      = Real.cos t * w + ((1 - Real.cos t) * dot k w) * k + Real.sin t * cross k w := by
  simp only [NormalRayReflect.matmul, NormalRayReflect.axisAngleRotationMatrix,
    float3.mul_def, float3.mul_scalar_def, float3.hmul_def, float3.add_def, dot, cross]
  ext <;> simp only <;> ring

/-- Normalising a non-zero vector gives unit dot product with itself. -/
theorem dot_self_normalize (q : float3 ℝ) (hq : 0 < dot q q) :
    dot (normalize Real.sqrt q) (normalize Real.sqrt q) = 1 := by
  have hL : Real.sqrt (dot q q) ^ 2 = dot q q := Real.sq_sqrt hq.le
  have hL0 : Real.sqrt (dot q q) ≠ 0 := ne_of_gt (Real.sqrt_pos.2 hq)
  have key : dot (normalize Real.sqrt q) (normalize Real.sqrt q)
      = dot q q / Real.sqrt (dot q q) ^ 2 := by
    simp only [normalize, length, float3.hdiv_def]
    generalize Real.sqrt (dot q q) = L
    simp only [dot]
    ring
  rw [key, hL]
  exact div_self (ne_of_gt hq)

/-- Normalising keeps orthogonality. -/
theorem dot_normalize_of_dot_eq_zero (q a : float3 ℝ) (h : dot q a = 0) :
    dot (normalize Real.sqrt q) a = 0 := by
  have key : dot (normalize Real.sqrt q) a = dot q a / Real.sqrt (dot q q) := by
    simp only [normalize, length, float3.hdiv_def]
    generalize Real.sqrt (dot q q) = L
    simp only [dot]
    ring
  rw [key, h, zero_div]

/-- Lagrange identity for unit vectors. -/
theorem dot_cross_self (a b : float3 ℝ) (ha : dot a a = 1) (hb : dot b b = 1) :
    dot (cross a b) (cross a b) = 1 - dot a b ^ 2 := by
  simp only [dot, cross] at *
  linear_combination (b.x * b.x + b.y * b.y + b.z * b.z) * ha + hb

/-- Two unit vectors with dot product `1` are equal. -/
theorem eq_of_dot_eq_one (a b : float3 ℝ) (ha : dot a a = 1) (hb : dot b b = 1)
    (h : dot a b = 1) : b = a := by
  simp only [dot] at *
  have hs : (b.x - a.x) ^ 2 + (b.y - a.y) ^ 2 + (b.z - a.z) ^ 2 = 0 := by
    linear_combination ha + hb - 2 * h
  have hx : b.x - a.x = 0 := by
    nlinarith [sq_nonneg (b.x - a.x), sq_nonneg (b.y - a.y), sq_nonneg (b.z - a.z)]
  have hy : b.y - a.y = 0 := by
    nlinarith [sq_nonneg (b.x - a.x), sq_nonneg (b.y - a.y), sq_nonneg (b.z - a.z)]
  have hz : b.z - a.z = 0 := by
    nlinarith [sq_nonneg (b.x - a.x), sq_nonneg (b.y - a.y), sq_nonneg (b.z - a.z)]
  ext <;> linarith

/-- Two unit vectors with dot product `-1` are opposite. -/
theorem eq_neg_of_dot_eq_neg_one (a b : float3 ℝ) (ha : dot a a = 1) (hb : dot b b = 1)
    (h : dot a b = -1) : b = (-1 : ℝ) * a := by
  simp only [dot, float3.hmul_def] at *
  have hs : (b.x + a.x) ^ 2 + (b.y + a.y) ^ 2 + (b.z + a.z) ^ 2 = 0 := by
    linear_combination ha + hb + 2 * h
  have hx : b.x + a.x = 0 := by
    nlinarith [sq_nonneg (b.x + a.x), sq_nonneg (b.y + a.y), sq_nonneg (b.z + a.z)]
  have hy : b.y + a.y = 0 := by
    nlinarith [sq_nonneg (b.x + a.x), sq_nonneg (b.y + a.y), sq_nonneg (b.z + a.z)]
  have hz : b.z + a.z = 0 := by
    nlinarith [sq_nonneg (b.x + a.x), sq_nonneg (b.y + a.y), sq_nonneg (b.z + a.z)]
  ext <;> simp only <;> linarith


/-- The fallback axis of `getAngleAndAxisBetweenVectors` for a unit `b`: a unit vector
orthogonal to `b`. -/
theorem fallback_axis_spec (b : float3 ℝ) (hb : dot b b = 1) :
    dot
      (if b.z ≠ 0 ∨ b.y ≠ 0 then normalize Real.sqrt (cross ⟨1, 0, 0⟩ b)
        else if b.x ≠ 0 ∨ b.z ≠ 0 then normalize Real.sqrt (cross ⟨0, 1, 0⟩ b)
        else if b.x ≠ 0 ∨ b.y ≠ 0 then normalize Real.sqrt (cross ⟨0, 0, 1⟩ b)
        else (-1 : ℝ) * b)
      (if b.z ≠ 0 ∨ b.y ≠ 0 then normalize Real.sqrt (cross ⟨1, 0, 0⟩ b)
        else if b.x ≠ 0 ∨ b.z ≠ 0 then normalize Real.sqrt (cross ⟨0, 1, 0⟩ b)
        else if b.x ≠ 0 ∨ b.y ≠ 0 then normalize Real.sqrt (cross ⟨0, 0, 1⟩ b)
        else (-1 : ℝ) * b) = 1 ∧
    dot
      (if b.z ≠ 0 ∨ b.y ≠ 0 then normalize Real.sqrt (cross ⟨1, 0, 0⟩ b)
        else if b.x ≠ 0 ∨ b.z ≠ 0 then normalize Real.sqrt (cross ⟨0, 1, 0⟩ b)
        else if b.x ≠ 0 ∨ b.y ≠ 0 then normalize Real.sqrt (cross ⟨0, 0, 1⟩ b)
        else (-1 : ℝ) * b) b = 0 := by
  by_cases h1 : b.z ≠ 0 ∨ b.y ≠ 0
  · rw [if_pos h1]
    have hq : 0 < dot (cross ⟨1, 0, 0⟩ b) (cross ⟨1, 0, 0⟩ b) := by
      simp only [dot, cross]
      rcases h1 with h | h
      · nlinarith [sq_nonneg b.y, sq_pos_of_ne_zero h]
      · nlinarith [sq_nonneg b.z, sq_pos_of_ne_zero h]
    refine ⟨dot_self_normalize _ hq, dot_normalize_of_dot_eq_zero _ _ ?_⟩
    simp only [dot, cross]
    ring
  · rw [if_neg h1]
    have hz : b.z = 0 := by
      by_contra h
      exact h1 (Or.inl h)
    have hy : b.y = 0 := by
      by_contra h
      exact h1 (Or.inr h)
    have hx : b.x ≠ 0 := by
      intro h
      simp only [dot, hz, hy, h] at hb
      norm_num at hb
    rw [if_pos (Or.inl hx)]
    have hq : 0 < dot (cross ⟨0, 1, 0⟩ b) (cross ⟨0, 1, 0⟩ b) := by
      simp only [dot, cross]
      nlinarith [sq_nonneg b.z, sq_pos_of_ne_zero hx]
    refine ⟨dot_self_normalize _ hq, dot_normalize_of_dot_eq_zero _ _ ?_⟩
    simp only [dot, cross]
    ring

/-- The angle and axis computed for two distinct unit vectors `a`, `b`: the angle is
`arccos (dot a b)`, the axis `k` is a unit vector orthogonal to `a`, and
`sin angle * (k × a) = b - dot(a, b) * a`. -/
theorem getAngleAndAxis_spec (a b : float3 ℝ) (ha : dot a a = 1) (hb : dot b b = 1)
    (hne : dot a b ≠ 1) :
    dot (NormalRayReflect.getAngleAndAxisBetweenVectors Real.sqrt Real.arccos a b).2
      (NormalRayReflect.getAngleAndAxisBetweenVectors Real.sqrt Real.arccos a b).2 = 1 ∧
    dot (NormalRayReflect.getAngleAndAxisBetweenVectors Real.sqrt Real.arccos a b).2 a = 0 ∧
    Real.sin (Real.arccos (dot a b))
        * cross (NormalRayReflect.getAngleAndAxisBetweenVectors Real.sqrt Real.arccos a b).2 a
      = b - dot a b * a := by
  have hpp := dot_cross_self a b ha hb
  have hc2 := dot_sq_le_one a b ha hb
  by_cases hp : 0 < dot (cross a b) (cross a b)
  · have hlen : length Real.sqrt (cross a b) > 0 := Real.sqrt_pos.2 hp
    have hax : (NormalRayReflect.getAngleAndAxisBetweenVectors Real.sqrt Real.arccos a b).2
        = normalize Real.sqrt (cross a b) := by
      simp only [NormalRayReflect.getAngleAndAxisBetweenVectors, if_pos hlen]
    rw [hax]
    refine ⟨dot_self_normalize _ hp, dot_normalize_of_dot_eq_zero _ _ ?_, ?_⟩
    · simp only [dot, cross]
      ring
    · rw [Real.sin_arccos, ← hpp]
      have hL0 : Real.sqrt (dot (cross a b) (cross a b)) ≠ 0 := ne_of_gt hlen
      simp only [normalize, length, float3.hdiv_def]
      generalize Real.sqrt (dot (cross a b) (cross a b)) = L at hL0
      simp only [float3.hmul_def, float3.sub_def, dot, cross] at *
      ext
      · simp only
        field_simp
        linear_combination b.x * ha
      · simp only
        field_simp
        linear_combination b.y * ha
      · simp only
        field_simp
        linear_combination b.z * ha
  · have hp0 : dot (cross a b) (cross a b) = 0 := by
      have hnn : 0 ≤ dot (cross a b) (cross a b) := by
        simp only [dot]
        nlinarith [mul_self_nonneg (cross a b).x, mul_self_nonneg (cross a b).y,
          mul_self_nonneg (cross a b).z]
      exact le_antisymm (not_lt.1 hp) hnn
    have hcm : dot a b = -1 := by
      have h0 : (dot a b - 1) * (dot a b + 1) = 0 := by
        rw [hp0] at hpp
        linear_combination hpp
      rcases mul_eq_zero.1 h0 with h | h
      · exact absurd (by linarith) hne
      · linarith
    have hba := eq_neg_of_dot_eq_neg_one a b ha hb hcm
    have hab : a = (-1 : ℝ) * b := by
      rw [hba]
      simp only [float3.hmul_def]
      ext <;> simp
    have hlen : ¬ (length Real.sqrt (cross a b) > 0) := by
      unfold length
      rw [hp0, Real.sqrt_zero]
      exact lt_irrefl 0
    have hax : (NormalRayReflect.getAngleAndAxisBetweenVectors Real.sqrt Real.arccos a b).2
        = (if b.z ≠ 0 ∨ b.y ≠ 0 then normalize Real.sqrt (cross ⟨1, 0, 0⟩ b)
            else if b.x ≠ 0 ∨ b.z ≠ 0 then normalize Real.sqrt (cross ⟨0, 1, 0⟩ b)
            else if b.x ≠ 0 ∨ b.y ≠ 0 then normalize Real.sqrt (cross ⟨0, 0, 1⟩ b)
            else (-1 : ℝ) * b) := by
      simp only [NormalRayReflect.getAngleAndAxisBetweenVectors, if_neg hlen]
      rw [← hab]
    obtain ⟨hk1, hk2⟩ := fallback_axis_spec b hb
    rw [hax, hcm, Real.arccos_neg_one, Real.sin_pi]
    refine ⟨hk1, ?_, ?_⟩
    · generalize (if b.z ≠ 0 ∨ b.y ≠ 0 then normalize Real.sqrt (cross ⟨1, 0, 0⟩ b)
            else if b.x ≠ 0 ∨ b.z ≠ 0 then normalize Real.sqrt (cross ⟨0, 1, 0⟩ b)
            else if b.x ≠ 0 ∨ b.y ≠ 0 then normalize Real.sqrt (cross ⟨0, 0, 1⟩ b)
            else (-1 : ℝ) * b) = k at hk2
      rw [hab]
      simp only [dot, float3.hmul_def] at *
      linear_combination -hk2
    · rw [hba]
      simp only [float3.hmul_def, float3.sub_def]
      ext <;> simp

/-- The rotation built by `alignWithDirection` for distinct unit vectors `a`, `b` is a
rotation about a unit axis that carries `a` onto `b`. -/
theorem align_rotation_spec (a b : float3 ℝ) (ha : dot a a = 1) (hb : dot b b = 1)
    (hne : dot a b ≠ 1) :
    dot (NormalRayReflect.getAngleAndAxisBetweenVectors Real.sqrt Real.arccos a b).2
      (NormalRayReflect.getAngleAndAxisBetweenVectors Real.sqrt Real.arccos a b).2 = 1 ∧
    (NormalRayReflect.getAngleAndAxisBetweenVectors Real.sqrt Real.arccos a b).1 ≠ 0 ∧
    NormalRayReflect.matmul
        (NormalRayReflect.axisAngleRotationMatrix Real.sin Real.cos
          (NormalRayReflect.getAngleAndAxisBetweenVectors Real.sqrt Real.arccos a b).2
          (NormalRayReflect.getAngleAndAxisBetweenVectors Real.sqrt Real.arccos a b).1) a
      = b := by
  obtain ⟨hk1, hk2, hk3⟩ := getAngleAndAxis_spec a b ha hb hne
  have hc2 := dot_sq_le_one a b ha hb
  have hclo : -1 ≤ dot a b := by nlinarith
  have hchi : dot a b ≤ 1 := by nlinarith
  have hang : (NormalRayReflect.getAngleAndAxisBetweenVectors Real.sqrt Real.arccos a b).1
      = Real.arccos (dot a b) := rfl
  refine ⟨hk1, ?_, ?_⟩
  · rw [hang]
    intro h0
    exact hne (le_antisymm hchi (Real.arccos_eq_zero.1 h0))
  · rw [matmul_axisAngle, hang, hk2, hk3, Real.cos_arccos hclo hchi]
    simp only [float3.hmul_def, float3.add_def, float3.sub_def]
    ext <;> simp only <;> ring

/-- C15: `alignWithDirection` carries the reference axis onto the target axis: for all unit
vectors `a` and `b` (including `b = a` and the antiparallel case `b = -a`, which uses the
fallback axis), `alignWithDirection a b a = b`. -/
theorem alignWithDirection_axis (a b : float3 ℝ)
    (ha : length Real.sqrt a = 1) (hb : length Real.sqrt b = 1) :
    NormalRayReflect.alignWithDirection Real.sqrt Real.sin Real.cos Real.arccos a b a = b := by
  have haa := dot_self_of_length_eq_one a ha
  have hbb := dot_self_of_length_eq_one b hb
  by_cases h1 : dot a b = 1
  · have hab := eq_of_dot_eq_one a b haa hbb h1
    have hang : (NormalRayReflect.getAngleAndAxisBetweenVectors Real.sqrt Real.arccos a b).1
        = 0 := by
      simp only [NormalRayReflect.getAngleAndAxisBetweenVectors, h1, Real.arccos_one]
    simp only [NormalRayReflect.alignWithDirection, if_pos hang]
    exact hab.symm
  · obtain ⟨_, hang, hrot⟩ := align_rotation_spec a b haa hbb h1
    simp only [NormalRayReflect.alignWithDirection, if_neg hang]
    exact hrot

/-- Witness for C15 in the antiparallel case: `(0, 0, 1)` is carried onto `(0, 0, -1)`, and
in particular from `(0, 0, 1)` onto `(1, 0, 0)`. -/
theorem alignWithDirection_axis_witness :
    NormalRayReflect.alignWithDirection Real.sqrt Real.sin Real.cos Real.arccos
      (⟨0, 0, 1⟩ : float3 ℝ) ⟨0, 0, -1⟩ ⟨0, 0, 1⟩ = ⟨0, 0, -1⟩ ∧
    NormalRayReflect.alignWithDirection Real.sqrt Real.sin Real.cos Real.arccos
      (⟨0, 0, 1⟩ : float3 ℝ) ⟨1, 0, 0⟩ ⟨0, 0, 1⟩ = ⟨1, 0, 0⟩ :=
  ⟨alignWithDirection_axis ⟨0, 0, 1⟩ ⟨0, 0, -1⟩ (by simp [length, dot]) (by simp [length, dot]),
    alignWithDirection_axis ⟨0, 0, 1⟩ ⟨1, 0, 0⟩ (by simp [length, dot]) (by simp [length, dot])⟩

/-! ## Cosine-weighted direction about an axis -/

/-- Blink `clamp` with ordered bounds lands between the bounds. -/
theorem clamp_range (v lo hi : ℝ) (h : lo ≤ hi) : lo ≤ min (max v lo) hi ∧ min (max v lo) hi ≤ hi :=
  ⟨le_min (le_max_right v lo) h, min_le_right _ _⟩

/-- C17: the shading kernel clamps its texel coordinates: for every direction, every
kernel state (theta offset, pixel sizes) and every image of width and height at least `1`,
the coordinates `readHDRIValue` and `readIrradianceValue` pass to `bilinear` satisfy
`0 ≤ x ≤ width - 1` and `0 ≤ y ≤ height - 1`. -/
theorem lookup_indices_clamped (image : NormalRayReflect.Image ℝ)
    (l : NormalRayReflect.Locals ℝ) (rayDirection : float3 ℝ)
    (hw : 1 ≤ image.width) (hh : 1 ≤ image.height) :
    (NormalRayReflect.readHDRIValue Real.pi (fun y x => Complex.arg ⟨x, y⟩) Real.arccos
        image l rayDirection
      = image.bilinear
          (NormalRayReflect.readHDRIValueIndices Real.pi (fun y x => Complex.arg ⟨x, y⟩)
            Real.arccos image l rayDirection).x
          (NormalRayReflect.readHDRIValueIndices Real.pi (fun y x => Complex.arg ⟨x, y⟩)
            Real.arccos image l rayDirection).y ∧
      0 ≤ (NormalRayReflect.readHDRIValueIndices Real.pi (fun y x => Complex.arg ⟨x, y⟩)
            Real.arccos image l rayDirection).x ∧
      (NormalRayReflect.readHDRIValueIndices Real.pi (fun y x => Complex.arg ⟨x, y⟩)
            Real.arccos image l rayDirection).x ≤ (image.width : ℝ) - 1 ∧
      0 ≤ (NormalRayReflect.readHDRIValueIndices Real.pi (fun y x => Complex.arg ⟨x, y⟩)
            Real.arccos image l rayDirection).y ∧
      (NormalRayReflect.readHDRIValueIndices Real.pi (fun y x => Complex.arg ⟨x, y⟩)
            Real.arccos image l rayDirection).y ≤ (image.height : ℝ) - 1) ∧
    (NormalRayReflect.readIrradianceValue Real.pi (fun y x => Complex.arg ⟨x, y⟩) Real.arccos
        image l rayDirection
      = image.bilinear
          (NormalRayReflect.readIrradianceValueIndices Real.pi
            (fun y x => Complex.arg ⟨x, y⟩) Real.arccos image l rayDirection).x
          (NormalRayReflect.readIrradianceValueIndices Real.pi
            (fun y x => Complex.arg ⟨x, y⟩) Real.arccos image l rayDirection).y ∧
      0 ≤ (NormalRayReflect.readIrradianceValueIndices Real.pi
            (fun y x => Complex.arg ⟨x, y⟩) Real.arccos image l rayDirection).x ∧
      (NormalRayReflect.readIrradianceValueIndices Real.pi
            (fun y x => Complex.arg ⟨x, y⟩) Real.arccos image l rayDirection).x
        ≤ (image.width : ℝ) - 1 ∧
      0 ≤ (NormalRayReflect.readIrradianceValueIndices Real.pi
            (fun y x => Complex.arg ⟨x, y⟩) Real.arccos image l rayDirection).y ∧
      (NormalRayReflect.readIrradianceValueIndices Real.pi
            (fun y x => Complex.arg ⟨x, y⟩) Real.arccos image l rayDirection).y
        ≤ (image.height : ℝ) - 1) := by
  have hw1 : (0 : ℝ) ≤ (image.width : ℝ) - 1 := by
    have : (1 : ℝ) ≤ (image.width : ℝ) := by exact_mod_cast hw
    linarith
  have hh1 : (0 : ℝ) ≤ (image.height : ℝ) - 1 := by
    have : (1 : ℝ) ≤ (image.height : ℝ) := by exact_mod_cast hh
    linarith
  refine ⟨⟨rfl, ?_, ?_, ?_, ?_⟩, ⟨rfl, ?_, ?_, ?_, ?_⟩⟩
  · exact (clamp_range _ 0 _ hw1).1
  · exact (clamp_range _ 0 _ hw1).2
  · exact (clamp_range _ 0 _ hh1).1
  · exact (clamp_range _ 0 _ hh1).2
  · exact (clamp_range _ 0 _ hw1).1
  · exact (clamp_range _ 0 _ hw1).2
  · exact (clamp_range _ 0 _ hh1).1
  · exact (clamp_range _ 0 _ hh1).2

/-- Witness for C17: a `4 x 2` image, the kernel state of pixel sizes `(1, 1)` and offset
`7`, and the direction `(0, -1, 0)`. -/
theorem lookup_indices_clamped_witness :
    0 ≤ (NormalRayReflect.readHDRIValueIndices Real.pi (fun y x => Complex.arg ⟨x, y⟩)
          Real.arccos (⟨4, 2, fun _ _ => ⟨1, 1, 1, 1⟩⟩ : NormalRayReflect.Image ℝ)
          ⟨NormalRayReflect.define._cameraWorldMatrix, ⟨1, 1⟩, 7, ⟨1, 1⟩⟩ ⟨0, -1, 0⟩).x ∧
    (NormalRayReflect.readHDRIValueIndices Real.pi (fun y x => Complex.arg ⟨x, y⟩)
          Real.arccos (⟨4, 2, fun _ _ => ⟨1, 1, 1, 1⟩⟩ : NormalRayReflect.Image ℝ)
          ⟨NormalRayReflect.define._cameraWorldMatrix, ⟨1, 1⟩, 7, ⟨1, 1⟩⟩ ⟨0, -1, 0⟩).x
      ≤ (((4 : ℤ) : ℝ)) - 1 :=
  have h := lookup_indices_clamped (⟨4, 2, fun _ _ => ⟨1, 1, 1, 1⟩⟩ : NormalRayReflect.Image ℝ)
    ⟨NormalRayReflect.define._cameraWorldMatrix, ⟨1, 1⟩, 7, ⟨1, 1⟩⟩ ⟨0, -1, 0⟩
    (by decide) (by decide)
  ⟨h.1.2.1, h.1.2.2.1⟩

/-! ## The shading kernel on a pixel without surface -/

theorem float4_zero_add (a : float4 ℝ) : float4.splat 0 + a = a := by
  rw [float4_add_def]
  ext <;> simp [float4.splat]

theorem float4_div_one (a : float4 ℝ) : a / (1 : ℝ) = a := by
  rw [float4_hdiv_def]
  ext <;> simp

/-- C12: zero-normal bypass: when the pixel's normal is `(0, 0, 0)` and `_samples = 1`, the
output pixel of the shading kernel equals `readHDRIValue rayDirection` for the primary
camera ray generated from the pixel and `seed0`, whatever the colours, weights and
roughness are. -/
theorem process_zero_normal (p : NormalRayReflect.Params ℝ) (l : NormalRayReflect.Locals ℝ)
    (hdri irradiance : NormalRayReflect.Image ℝ) (inputs : NormalRayReflect.PixelInputs ℝ)
    (pos : ℤ × ℤ) (hsamples : p._samples = 1)
    (hx : inputs.normal.x = 0) (hy : inputs.normal.y = 0) (hz : inputs.normal.z = 0) :
    NormalRayReflect.process Real.pi Real.sqrt Real.sin Real.cos
        (fun y x => Complex.arg ⟨x, y⟩) Real.arccos p l hdri irradiance inputs pos
      = NormalRayReflect.readHDRIValue Real.pi (fun y x => Complex.arg ⟨x, y⟩) Real.arccos
          hdri l
          (NormalRayReflect.getCameraRay Real.sqrt Real.sin p l
            ⟨inputs.seed4.x, inputs.seed4.y⟩ ⟨(pos.1 : ℝ), (pos.2 : ℝ)⟩).2 := by
  have hn : ¬ (inputs.normal.x ≠ 0 ∨ inputs.normal.y ≠ 0 ∨ inputs.normal.z ≠ 0) := by
    simp [hx, hy, hz]
  simp only [NormalRayReflect.process, hsamples, Int.toNat_one, NormalRayReflect.sampleLoop,
    NormalRayReflect.processSample, if_neg hn, Int.cast_one]
  rw [float4_zero_add, float4_div_one]

/-- Witness for C12: the default parameters (`_samples = 1`), a constant environment, and a
pixel whose inputs are all zero. -/
theorem process_zero_normal_witness :
    NormalRayReflect.process Real.pi Real.sqrt Real.sin Real.cos
        (fun y x => Complex.arg ⟨x, y⟩) Real.arccos NormalRayReflect.define
        ⟨NormalRayReflect.define._cameraWorldMatrix, ⟨1, 1⟩, 0, ⟨1, 1⟩⟩
        ⟨4, 2, fun _ _ => ⟨1, 2, 3, 4⟩⟩ ⟨4, 2, fun _ _ => ⟨5, 6, 7, 8⟩⟩
        ⟨⟨0, 0, 0, 0⟩, ⟨0, 0, 0, 0⟩, ⟨1, 1, 1, 1⟩, ⟨1, 1, 1, 1⟩, ⟨1, 1, 1, 1⟩, ⟨0, 0, 0, 0⟩⟩
        (0, 0)
      = (⟨1, 2, 3, 4⟩ : float4 ℝ) :=
  process_zero_normal NormalRayReflect.define
    ⟨NormalRayReflect.define._cameraWorldMatrix, ⟨1, 1⟩, 0, ⟨1, 1⟩⟩
    ⟨4, 2, fun _ _ => ⟨1, 2, 3, 4⟩⟩ ⟨4, 2, fun _ _ => ⟨5, 6, 7, 8⟩⟩
    ⟨⟨0, 0, 0, 0⟩, ⟨0, 0, 0, 0⟩, ⟨1, 1, 1, 1⟩, ⟨1, 1, 1, 1⟩, ⟨1, 1, 1, 1⟩, ⟨0, 0, 0, 0⟩⟩
    (0, 0) rfl rfl rfl rfl


/-! ## Seed schedule -/

theorem random_zero : NormalRayReflect.random Real.sin 0 = 0 := by
  simp [NormalRayReflect.random, NormalRayReflect.fract]

/-- On a small positive seed `random` is `sin (seed * 91.3458) * 47453.5453` itself, a
positive number below `seed * 91.3458 * 47453.5453`. -/
theorem random_small (y : ℝ) (hy : 0 < y) (hy1 : y * 91.3458 * 47453.5453 < 1) :
    0 < NormalRayReflect.random Real.sin y ∧
    NormalRayReflect.random Real.sin y < y * 91.3458 * 47453.5453 := by
  have hx0 : 0 < y * 91.3458 := by positivity
  have hx1 : y * 91.3458 < 1 := by nlinarith
  have hxpi : y * 91.3458 < Real.pi := by linarith [Real.pi_gt_three]
  have hs0 : 0 < Real.sin (y * 91.3458) := Real.sin_pos_of_pos_of_lt_pi hx0 hxpi
  have hs1 : Real.sin (y * 91.3458) < y * 91.3458 := Real.sin_lt hx0
  have hv0 : 0 < Real.sin (y * 91.3458) * 47453.5453 := by positivity
  have hv1 : Real.sin (y * 91.3458) * 47453.5453 < y * 91.3458 * 47453.5453 := by
    nlinarith
  have hfl : ⌊Real.sin (y * 91.3458) * 47453.5453⌋ = 0 := by
    rw [Int.floor_eq_iff]
    constructor
    · simpa using hv0.le
    · simp only [Int.cast_zero, zero_add]
      linarith
  unfold NormalRayReflect.random NormalRayReflect.fract
  rw [hfl]
  simp only [Int.cast_zero, sub_zero]
  exact ⟨hv0, hv1⟩

/-- C19, the claim as stated fails: from `seed0 = (0, 0)` and `seed1 = (10^-14, 0)`, with
`A = random (seed1 + random seed0)` and `B = random ((A.y, A.x) + random seed1)`, the
updated `seed0` is not the component swap `(A.y, A.x)` and the updated `seed1` is not the
component swap `(B.y, B.x)`. -/
theorem seed_update_counterexample :
    (NormalRayReflect.processSeedUpdate Real.sin ⟨0, 0⟩ ⟨1 / 10 ^ 14, 0⟩).1
      ≠ ⟨(NormalRayReflect.random2 Real.sin
            ((⟨1 / 10 ^ 14, 0⟩ : float2 ℝ) + NormalRayReflect.random2 Real.sin ⟨0, 0⟩)).y,
          (NormalRayReflect.random2 Real.sin
            ((⟨1 / 10 ^ 14, 0⟩ : float2 ℝ) + NormalRayReflect.random2 Real.sin ⟨0, 0⟩)).x⟩ ∧
    (NormalRayReflect.processSeedUpdate Real.sin ⟨0, 0⟩ ⟨1 / 10 ^ 14, 0⟩).2
      ≠ ⟨(NormalRayReflect.random2 Real.sin
            ((⟨(NormalRayReflect.random2 Real.sin ((⟨1 / 10 ^ 14, 0⟩ : float2 ℝ)
                  + NormalRayReflect.random2 Real.sin ⟨0, 0⟩)).y,
                (NormalRayReflect.random2 Real.sin ((⟨1 / 10 ^ 14, 0⟩ : float2 ℝ)
                  + NormalRayReflect.random2 Real.sin ⟨0, 0⟩)).x⟩ : float2 ℝ)
              + NormalRayReflect.random2 Real.sin ⟨1 / 10 ^ 14, 0⟩)).y,
          (NormalRayReflect.random2 Real.sin
            ((⟨(NormalRayReflect.random2 Real.sin ((⟨1 / 10 ^ 14, 0⟩ : float2 ℝ)
                  + NormalRayReflect.random2 Real.sin ⟨0, 0⟩)).y,
                (NormalRayReflect.random2 Real.sin ((⟨1 / 10 ^ 14, 0⟩ : float2 ℝ)
                  + NormalRayReflect.random2 Real.sin ⟨0, 0⟩)).x⟩ : float2 ℝ)
              + NormalRayReflect.random2 Real.sin ⟨1 / 10 ^ 14, 0⟩)).x⟩ := by
  obtain ⟨hu0, hu1⟩ := random_small (1 / 10 ^ 14) (by norm_num) (by norm_num)
  obtain ⟨hb0, _⟩ := random_small (NormalRayReflect.random Real.sin (1 / 10 ^ 14)) hu0
    (by
      have : (1 : ℝ) / 10 ^ 14 * 91.3458 * 47453.5453 * 91.3458 * 47453.5453 < 1 := by
        norm_num
      nlinarith)
  constructor
  · intro h
    have hx := congrArg float2.x h
    simp only [NormalRayReflect.processSeedUpdate, NormalRayReflect.random2, float2_add_def,
      random_zero, add_zero, zero_add] at hx
    linarith
  · intro h
    have hy := congrArg float2.y h
    simp only [NormalRayReflect.processSeedUpdate, NormalRayReflect.random2, float2_add_def,
      random_zero, add_zero, zero_add] at hy
    linarith

/-- C19 as amended: with `A = random (seed1 + random seed0)`, its swap `A' = (A.y, A.x)` and
`B = random (A' + random seed1)`, the seed update of `process` gives the new
`seed0 = (B.x, A.x)` and the new `seed1 = (B.y, A.y)`. -/
theorem seed_update_schedule (seed0 seed1 : float2 ℝ) :
    NormalRayReflect.processSeedUpdate Real.sin seed0 seed1
      = (⟨(NormalRayReflect.random2 Real.sin
              ((⟨(NormalRayReflect.random2 Real.sin
                    (seed1 + NormalRayReflect.random2 Real.sin seed0)).y,
                  (NormalRayReflect.random2 Real.sin
                    (seed1 + NormalRayReflect.random2 Real.sin seed0)).x⟩ : float2 ℝ)
                + NormalRayReflect.random2 Real.sin seed1)).x,
            (NormalRayReflect.random2 Real.sin
              (seed1 + NormalRayReflect.random2 Real.sin seed0)).x⟩,
          ⟨(NormalRayReflect.random2 Real.sin
              ((⟨(NormalRayReflect.random2 Real.sin
                    (seed1 + NormalRayReflect.random2 Real.sin seed0)).y,
                  (NormalRayReflect.random2 Real.sin
                    (seed1 + NormalRayReflect.random2 Real.sin seed0)).x⟩ : float2 ℝ)
                + NormalRayReflect.random2 Real.sin seed1)).y,
            (NormalRayReflect.random2 Real.sin
              (seed1 + NormalRayReflect.random2 Real.sin seed0)).y⟩) := by
  simp only [NormalRayReflect.processSeedUpdate]


/-! ## Lobe weights applied by the shading kernel -/

/-- A float loop whose condition holds for exactly the first `n` values of its variable and
whose body adds `C * h t` to the accumulator returns, given more than `n` units of fuel,
the accumulator plus `C` times the sum of `h` over those values. -/
theorem floatFor_sum (cond : ℝ → Bool) (next : ℝ → ℝ)
    (body : ℝ → float4 ℝ → Option (float4 ℝ)) (C : float4 ℝ) (h : ℝ → ℝ) :
    ∀ (n fuel : ℕ) (t : ℝ) (acc : float4 ℝ), n < fuel →
      (∀ i, i < n → cond (next^[i] t) = true) → cond (next^[n] t) = false →
      (∀ i, i < n → ∀ a, body (next^[i] t) a = some (a + C * h (next^[i] t))) →
      floatFor cond next body fuel t acc
        = some (acc + C * ∑ i in Finset.range n, h (next^[i] t)) := by
  intro n
  induction n with
  | zero =>
    intro fuel t acc hfuel _ hstop _
    obtain ⟨f, rfl⟩ : ∃ f, fuel = f + 1 := ⟨fuel - 1, by omega⟩
    have hstop0 : cond t = false := by simpa using hstop
    simp only [floatFor, hstop0, Bool.false_eq_true, if_false, Finset.range_zero,
      Finset.sum_empty, float4_add_def, float4_mul_scalar_def, mul_zero, add_zero]
  | succ n ih =>
    intro fuel t acc hfuel hcond hstop hbody
    obtain ⟨f, rfl⟩ : ∃ f, fuel = f + 1 := ⟨fuel - 1, by omega⟩
    have hc0 : cond t = true := by simpa using hcond 0 (Nat.succ_pos n)
    have hb0 : body t acc = some (acc + C * h t) := by simpa using hbody 0 (Nat.succ_pos n) acc
    have hrec := ih f (next t) (acc + C * h t) (by omega)
      (fun i hi => by simpa [Function.iterate_succ_apply] using hcond (i + 1) (by omega))
      (by simpa [Function.iterate_succ_apply] using hstop)
      (fun i hi a => by
        simpa [Function.iterate_succ_apply] using hbody (i + 1) (by omega) a)
    rw [floatFor, if_pos hc0, hb0, Option.some_bind, hrec, Finset.sum_range_succ']
    simp only [Function.iterate_succ_apply, Function.iterate_zero, id_eq, float4_add_def,
      float4_mul_scalar_def]
    congr 1
    ext <;> simp only <;> ring

/-- Repeated subtraction of a step. -/
theorem iterate_sub_step (s t : ℝ) (i : ℕ) : (fun x : ℝ => x - s)^[i] t = t - i * s := by
  induction i with
  | zero => simp
  | succ i ih =>
    rw [Function.iterate_succ_apply', ih]
    push_cast
    ring

/-- Repeated addition of a step. -/
theorem iterate_add_step (s t : ℝ) (i : ℕ) : (fun x : ℝ => x + s)^[i] t = t + i * s := by
  induction i with
  | zero => simp
  | succ i ih =>
    rw [Function.iterate_succ_apply', ih]
    push_cast
    ring

/-- Telescoping sum of `sin (j x) * cos (j x)`. -/
theorem sum_sin_mul_cos (x : ℝ) (n : ℕ) :
    4 * Real.sin x * ∑ j in Finset.range n, Real.sin (j * x) * Real.cos (j * x)
      = Real.cos x - Real.cos (2 * n * x - x) := by
  induction n with
  | zero => simp
  | succ n ih =>
    rw [Finset.sum_range_succ, mul_add, ih]
    have e1 : 2 * ((n + 1 : ℕ) : ℝ) * x - x = 2 * (n * x) + x := by
      push_cast
      ring
    have e2 : 2 * (n : ℝ) * x - x = 2 * (n * x) - x := by ring
    rw [e1, e2, Real.cos_add, Real.cos_sub, Real.sin_two_mul]
    ring

/-- The quadrature weights of the irradiance loop with `50` phi steps sum to
`cos x / (2 sin x)` at `x = π / 100`. -/
theorem sum_cos_mul_sin_fifty :
    ∑ j in Finset.range 50,
        Real.cos (Real.pi / 2 - j * (Real.pi / 100)) * Real.sin (Real.pi / 2 - j * (Real.pi / 100))
      = Real.cos (Real.pi / 100) / (2 * Real.sin (Real.pi / 100)) := by
  have hx0 : 0 < Real.pi / 100 := by positivity
  have hxpi : Real.pi / 100 < Real.pi := by linarith [Real.pi_pos]
  have hsin : 0 < Real.sin (Real.pi / 100) := Real.sin_pos_of_pos_of_lt_pi hx0 hxpi
  have hflip : ∑ j in Finset.range 50,
      Real.cos (Real.pi / 2 - j * (Real.pi / 100)) * Real.sin (Real.pi / 2 - j * (Real.pi / 100))
      = ∑ j in Finset.range 50,
        Real.sin (j * (Real.pi / 100)) * Real.cos (j * (Real.pi / 100)) := by
    refine Finset.sum_congr rfl (fun j _ => ?_)
    rw [Real.cos_pi_div_two_sub, Real.sin_pi_div_two_sub]
  have htel := sum_sin_mul_cos (Real.pi / 100) 50
  have e : 2 * ((50 : ℕ) : ℝ) * (Real.pi / 100) - Real.pi / 100 = Real.pi - Real.pi / 100 := by
    push_cast
    ring
  rw [e, Real.cos_pi_sub] at htel
  rw [hflip, eq_div_iff (by positivity)]
  linarith

/-- The scale factor `x cos x / sin x` at `x = π / 100` is within `1/100` of `1`. -/
theorem irradiance_scale_bound :
    |Real.pi / 100 * Real.cos (Real.pi / 100) / Real.sin (Real.pi / 100) - 1| ≤ 1 / 100 := by
  have hpi1 := Real.pi_gt_d2
  have hpi2 := Real.pi_lt_d2
  have hx0 : 0 < Real.pi / 100 := by positivity
  have hxpi : Real.pi / 100 < Real.pi := by linarith
  have hxhalf : Real.pi / 100 < Real.pi / 2 := by linarith
  have hsin : 0 < Real.sin (Real.pi / 100) := Real.sin_pos_of_pos_of_lt_pi hx0 hxpi
  have hcos : 0 < Real.cos (Real.pi / 100) :=
    Real.cos_pos_of_mem_Ioo ⟨by linarith, hxhalf⟩
  have htan := Real.lt_tan hx0 hxhalf
  rw [Real.tan_eq_sin_div_cos, lt_div_iff₀ hcos] at htan
  have hsinle : Real.sin (Real.pi / 100) ≤ Real.pi / 100 := Real.sin_le hx0.le
  have hcoslo := Real.one_sub_sq_div_two_le_cos (x := Real.pi / 100)
  have hxsmall : Real.pi / 100 < 315 / 10000 := by
    norm_num at hpi2 ⊢
    linarith
  have hcos99 : 99 / 100 ≤ Real.cos (Real.pi / 100) := by nlinarith
  rw [abs_le]
  constructor
  · rw [le_sub_iff_add_le, le_div_iff₀ hsin]
    nlinarith
  · rw [sub_le_iff_le_add, div_le_iff₀ hsin]
    nlinarith

/-- The phi loop of the irradiance kernel with step `π / 100`, for a body that adds
`C * cos phi * sin phi`: it runs its `50` samples and returns the accumulated sum. -/
theorem phi_loop_uniform (C : float4 ℝ) (sy : ℝ) (hsy : sy = Real.pi / 100)
    (body : ℝ → float4 ℝ → Option (float4 ℝ))
    (hbody : ∀ phi a, body phi a = some (a + C * Real.cos phi * Real.sin phi))
    (fuel : ℕ) (hfuel : 50 < fuel) (irr : float4 ℝ) :
    floatFor (fun phi => decide (phi > 0)) (fun phi => phi - sy) body fuel (Real.pi / 2) irr
      = some (irr + C * ∑ j in Finset.range 50,
          Real.cos (Real.pi / 2 - j * (Real.pi / 100))
            * Real.sin (Real.pi / 2 - j * (Real.pi / 100))) := by
  subst hsy
  have hpi := Real.pi_pos
  have h := floatFor_sum (fun phi => decide (phi > 0)) (fun phi => phi - Real.pi / 100) body C
    (fun phi => Real.cos phi * Real.sin phi) 50 fuel (Real.pi / 2) irr hfuel
    (fun i hi => by
      rw [iterate_sub_step]
      have : (i : ℝ) < 50 := by exact_mod_cast hi
      simp only [gt_iff_lt, decide_eq_true_eq]
      nlinarith)
    (by
      rw [iterate_sub_step]
      simp only [gt_iff_lt, decide_eq_false_iff_not, not_lt]
      push_cast
      linarith)
    (fun i _ a => by
      rw [hbody]
      congr 2
      simp only [float4_mul_scalar_def]
      ext <;> simp only <;> ring)
  rw [h]
  congr 3
  refine Finset.sum_congr rfl (fun j _ => ?_)
  rw [iterate_sub_step]

/-- The theta loop of the irradiance kernel with step `2π / 100`, for a body that adds
`C * S`: it runs `100` times. -/
theorem theta_loop_uniform (C : float4 ℝ) (S sx : ℝ) (hsx : sx = 2 * Real.pi / 100)
    (body : ℝ → float4 ℝ → Option (float4 ℝ))
    (hbody : ∀ theta a, body theta a = some (a + C * S))
    (fuel : ℕ) (hfuel : 100 < fuel) (irr : float4 ℝ) :
    floatFor (fun theta => decide (theta < 2 * Real.pi)) (fun theta => theta + sx) body fuel
        0 irr
      = some (irr + C * ∑ _k in Finset.range 100, S) := by
  subst hsx
  have hpi := Real.pi_pos
  exact floatFor_sum (fun theta => decide (theta < 2 * Real.pi))
    (fun theta => theta + 2 * Real.pi / 100) body C (fun _ => S) 100 fuel 0 irr hfuel
    (fun i hi => by
      rw [iterate_add_step]
      have : (i : ℝ) < 100 := by exact_mod_cast hi
      simp only [decide_eq_true_eq]
      nlinarith)
    (by
      rw [iterate_add_step]
      simp only [decide_eq_false_iff_not, not_lt]
      push_cast
      linarith)
    (fun i _ a => hbody _ a)

/-- C11: irradiance energy sanity: if every texel of the environment is the same colour
`C`, then with `_samples = (100, 50)` the output of the irradiance kernel at every pixel is
`s * C`, where `s` is the accumulated sum of `cos phi * sin phi` over the double loop times
`π / (100 * 50)`, and `|s - 1| ≤ 1/100`. Both loops finish within any fuel above `100`. -/
theorem irradiance_uniform (hdri : HdriIrradiance.Image ℝ) (C : float4 ℝ)
    (hC : ∀ x y, hdri.pixel x y = C) (pos : ℤ × ℤ) (fuel : ℕ) (hfuel : 100 < fuel) :
    ∃ s : ℝ,
      s = Real.pi
            * (∑ _k in Finset.range 100, ∑ j in Finset.range 50,
                Real.cos (Real.pi / 2 - j * (Real.pi / 100))
                  * Real.sin (Real.pi / 2 - j * (Real.pi / 100)))
            / (100 * 50) ∧
      |s - 1| ≤ 1 / 100 ∧
      HdriIrradiance.process Real.pi Real.sqrt Real.sin Real.cos
          (fun y x => Complex.arg ⟨x, y⟩) Real.arccos hdri (100, 50) fuel pos
        = some (s * C) := by
  refine ⟨_, rfl, ?_, ?_⟩
  · rw [sum_cos_mul_sin_fifty, Finset.sum_const, Finset.card_range]
    have hx0 : 0 < Real.pi / 100 := by positivity
    have hxpi : Real.pi / 100 < Real.pi := by linarith [Real.pi_pos]
    have hsin : Real.sin (Real.pi / 100) ≠ 0 :=
      ne_of_gt (Real.sin_pos_of_pos_of_lt_pi hx0 hxpi)
    have e : Real.pi * ((100 : ℕ) • (Real.cos (Real.pi / 100) / (2 * Real.sin (Real.pi / 100))))
          / (100 * 50)
        = Real.pi / 100 * Real.cos (Real.pi / 100) / Real.sin (Real.pi / 100) := by
      rw [nsmul_eq_mul]
      push_cast
      field_simp
      ring
    rw [e]
    exact irradiance_scale_bound
  · have hread : ∀ (l : HdriIrradiance.Locals ℝ) (d : float3 ℝ),
        HdriIrradiance.readHDRIValue Real.pi (fun y x => Complex.arg ⟨x, y⟩) Real.arccos
          hdri l d = C := by
      intro l d
      simp only [HdriIrradiance.readHDRIValue, HdriIrradiance.Image.read, hC]
    have hsy : (HdriIrradiance.init Real.pi hdri (100, 50)).__sampleStep.y = Real.pi / 100 := by
      simp only [HdriIrradiance.init]
      push_cast
      ring
    have hsx : (HdriIrradiance.init Real.pi hdri (100, 50)).__sampleStep.x
        = 2 * Real.pi / 100 := by
      simp only [HdriIrradiance.init]
      push_cast
      ring
    simp only [HdriIrradiance.process, hread]
    rw [theta_loop_uniform C _ _ hsx _
      (fun theta a => phi_loop_uniform C _ hsy _ (fun phi b => rfl) fuel (by omega) a)
      fuel hfuel]
    simp only [Option.map_some', float4.splat, float4_add_def, float4_mul_scalar_def,
      float4_hmul_def, float4_hdiv_def]
    congr 1
    ext <;> simp only <;> push_cast <;> ring

/-- Witness for C11: the solid environment `RGBA (1, 1, 1, 1)` on a `4 x 2` image, at pixel
`(0, 0)` with fuel `101`. -/
theorem irradiance_uniform_witness :
    ∃ s : ℝ, |s - 1| ≤ 1 / 100 ∧
      HdriIrradiance.process Real.pi Real.sqrt Real.sin Real.cos
          (fun y x => Complex.arg ⟨x, y⟩) Real.arccos
          (⟨4, 2, fun _ _ => ⟨1, 1, 1, 1⟩⟩ : HdriIrradiance.Image ℝ) (100, 50) 101 (0, 0)
        = some (s * (⟨1, 1, 1, 1⟩ : float4 ℝ)) :=
  have h := irradiance_uniform (⟨4, 2, fun _ _ => ⟨1, 1, 1, 1⟩⟩ : HdriIrradiance.Image ℝ)
    ⟨1, 1, 1, 1⟩ (fun _ _ => rfl) (0, 0) 101 (by decide)
  ⟨h.choose, h.choose_spec.2.1, h.choose_spec.2.2⟩


/-! ## Reconciled weights for arbitrary raw weights -/

/-! ## Texel indices of the irradiance kernel -/

/-- C `round` of a value in `[0, n + 1/2)` for an integer `n` lies in `[0, n]`. -/
theorem cRound_range (v : ℝ) (n : ℤ) (h0 : 0 ≤ v) (h1 : v < (n : ℝ) + 1 / 2) :
    0 ≤ cRound v ∧ cRound v ≤ n := by
  unfold cRound
  rw [if_pos h0]
  constructor
  · exact Int.floor_nonneg.2 (by linarith)
  · have : ⌊v + 1 / 2⌋ < n + 1 := by
      rw [Int.floor_lt]
      push_cast
      linarith
    omega

/-- The angles of any direction, as the irradiance kernel computes them, lie in
`[0, 2π) x [0, π)`. -/
theorem irradiance_angles_range (d : float3 ℝ) :
    0 ≤ (HdriIrradiance.cartesionUnitVectorToSpherical Real.pi
          (fun y x => Complex.arg ⟨x, y⟩) Real.arccos d).x ∧
    (HdriIrradiance.cartesionUnitVectorToSpherical Real.pi
          (fun y x => Complex.arg ⟨x, y⟩) Real.arccos d).x < 2 * Real.pi ∧
    0 ≤ (HdriIrradiance.cartesionUnitVectorToSpherical Real.pi
          (fun y x => Complex.arg ⟨x, y⟩) Real.arccos d).y ∧
    (HdriIrradiance.cartesionUnitVectorToSpherical Real.pi
          (fun y x => Complex.arg ⟨x, y⟩) Real.arccos d).y < Real.pi := by
  have h2 : (0 : ℝ) < 2 * Real.pi := by positivity
  obtain ⟨a, b⟩ := wrap_range (Complex.arg ⟨d.x, d.z⟩) (2 * Real.pi) h2
  obtain ⟨c, e⟩ := wrap_range (Real.arccos d.y) Real.pi Real.pi_pos
  exact ⟨a, b, c, e⟩

/-- C27: the texel indices of the irradiance kernel are not clamped and can leave the image:
for every unit direction and every image of width `w ≥ 1` and height `h ≥ 1`, the column
index `round (w / (2π) * theta) - 1` lies in `[-1, w - 1]` and the row index
`round (h - (h / π) * phi) - 1` lies in `[-1, h - 1]`; the column index `-1` is attained at
the direction `(1, 0, 0)`, where the edge-clamped access reads column `0`. -/
theorem irradiance_indices_range (hdri : HdriIrradiance.Image ℝ) (samples : ℤ × ℤ)
    (d : float3 ℝ) (_hd : length Real.sqrt d = 1) (hw : 1 ≤ hdri.width)
    (hh : 1 ≤ hdri.height) :
    HdriIrradiance.readHDRIValue Real.pi (fun y x => Complex.arg ⟨x, y⟩) Real.arccos hdri
        (HdriIrradiance.init Real.pi hdri samples) d
      = hdri.read
          (HdriIrradiance.readHDRIValueIndices Real.pi (fun y x => Complex.arg ⟨x, y⟩)
            Real.arccos hdri (HdriIrradiance.init Real.pi hdri samples) d).1
          (HdriIrradiance.readHDRIValueIndices Real.pi (fun y x => Complex.arg ⟨x, y⟩)
            Real.arccos hdri (HdriIrradiance.init Real.pi hdri samples) d).2 ∧
    -1 ≤ (HdriIrradiance.readHDRIValueIndices Real.pi (fun y x => Complex.arg ⟨x, y⟩)
            Real.arccos hdri (HdriIrradiance.init Real.pi hdri samples) d).1 ∧
    (HdriIrradiance.readHDRIValueIndices Real.pi (fun y x => Complex.arg ⟨x, y⟩)
            Real.arccos hdri (HdriIrradiance.init Real.pi hdri samples) d).1
      ≤ hdri.width - 1 ∧
    -1 ≤ (HdriIrradiance.readHDRIValueIndices Real.pi (fun y x => Complex.arg ⟨x, y⟩)
            Real.arccos hdri (HdriIrradiance.init Real.pi hdri samples) d).2 ∧
    (HdriIrradiance.readHDRIValueIndices Real.pi (fun y x => Complex.arg ⟨x, y⟩)
            Real.arccos hdri (HdriIrradiance.init Real.pi hdri samples) d).2
      ≤ hdri.height - 1 ∧
    (HdriIrradiance.readHDRIValueIndices Real.pi (fun y x => Complex.arg ⟨x, y⟩)
            Real.arccos hdri (HdriIrradiance.init Real.pi hdri samples) ⟨1, 0, 0⟩).1 = -1 ∧
    (∀ row : ℤ, hdri.read (-1) row = hdri.read 0 row) := by
  have hpi := Real.pi_pos
  have hwr : (1 : ℝ) ≤ (hdri.width : ℝ) := by exact_mod_cast hw
  have hhr : (1 : ℝ) ≤ (hdri.height : ℝ) := by exact_mod_cast hh
  refine ⟨rfl, ?_⟩
  obtain ⟨ht0, ht1, hp0, hp1⟩ := irradiance_angles_range d
  simp only [HdriIrradiance.readHDRIValueIndices, HdriIrradiance.init]
  generalize (HdriIrradiance.cartesionUnitVectorToSpherical Real.pi
    (fun y x => Complex.arg ⟨x, y⟩) Real.arccos d).x = theta at ht0 ht1
  generalize (HdriIrradiance.cartesionUnitVectorToSpherical Real.pi
    (fun y x => Complex.arg ⟨x, y⟩) Real.arccos d).y = phi at hp0 hp1
  have hcol0 : 0 ≤ (hdri.width : ℝ) / (2 * Real.pi) * theta := by positivity
  have hcol1 : (hdri.width : ℝ) / (2 * Real.pi) * theta < (hdri.width : ℝ) + 1 / 2 := by
    have hlt : (hdri.width : ℝ) / (2 * Real.pi) * theta < (hdri.width : ℝ) := by
      rw [div_mul_eq_mul_div, div_lt_iff₀ (by positivity)]
      nlinarith
    linarith
  have hmul : (hdri.height : ℝ) / Real.pi * phi < (hdri.height : ℝ) := by
    rw [div_mul_eq_mul_div, div_lt_iff₀ hpi]
    nlinarith
  have hmul0 : 0 ≤ (hdri.height : ℝ) / Real.pi * phi := by positivity
  obtain ⟨hc0, hc1⟩ := cRound_range _ hdri.width hcol0 hcol1
  obtain ⟨hr0, hr1⟩ := cRound_range ((hdri.height : ℝ) - (hdri.height : ℝ) / Real.pi * phi)
    hdri.height (by linarith) (by linarith)
  refine ⟨by omega, by omega, by omega, by omega, ?_, ?_⟩
  · have harg : Complex.arg ⟨1, 0⟩ = 0 := by
      have : (⟨1, 0⟩ : ℂ) = 1 := rfl
      rw [this, Complex.arg_one]
    have hth : (HdriIrradiance.cartesionUnitVectorToSpherical Real.pi
        (fun y x => Complex.arg ⟨x, y⟩) Real.arccos ⟨1, 0, 0⟩).x = 0 := by
      simp only [HdriIrradiance.cartesionUnitVectorToSpherical, normalizeAngles, harg]
      exact wrap_fixed 0 (2 * Real.pi) (le_refl 0) (by positivity)
    rw [hth, mul_zero]
    have hfl : ⌊(0 : ℝ) + 1 / 2⌋ = 0 := by
      rw [Int.floor_eq_iff]
      norm_num
    simp only [cRound, le_refl, if_true, hfl]
    norm_num
  · intro row
    simp only [HdriIrradiance.Image.read]
    congr 1
    omega

/-- Witness for C27 on a `4 x 2` image at the direction `(1, 0, 0)`. -/
theorem irradiance_indices_range_witness :
    length Real.sqrt (⟨1, 0, 0⟩ : float3 ℝ) = 1 ∧
    (HdriIrradiance.readHDRIValueIndices Real.pi (fun y x => Complex.arg ⟨x, y⟩) Real.arccos
      (⟨4, 2, fun _ _ => ⟨1, 1, 1, 1⟩⟩ : HdriIrradiance.Image ℝ)
      (HdriIrradiance.init Real.pi ⟨4, 2, fun _ _ => ⟨1, 1, 1, 1⟩⟩ (100, 50)) ⟨1, 0, 0⟩).1
      = -1 :=
  have h : length Real.sqrt (⟨1, 0, 0⟩ : float3 ℝ) = 1 := by simp [length, dot]
  ⟨h, (irradiance_indices_range ⟨4, 2, fun _ _ => ⟨1, 1, 1, 1⟩⟩ (100, 50) ⟨1, 0, 0⟩ h
    (by decide) (by decide)).2.2.2.2.2.1⟩


/-! ## Row convention of the environment lookup -/

/-- The polar angle the shading kernel computes for a direction with `y > -1` is
`arccos y`. -/
theorem shading_phi_eq (d : float3 ℝ) (offset : ℝ) (hy : -1 < d.y) :
    (NormalRayReflect.cartesionUnitVectorToSpherical Real.pi (fun y x => Complex.arg ⟨x, y⟩)
      Real.arccos d offset).y = Real.arccos d.y := by
  have h1 : Real.arccos d.y < Real.pi := by
    refine lt_of_le_of_ne (Real.arccos_le_pi _) (fun h => ?_)
    have := Real.arccos_eq_pi.1 h
    linarith
  exact wrap_fixed _ _ (Real.arccos_nonneg _) h1

/-- C `round` of an integer is that integer. -/
theorem cRound_intCast (n : ℤ) (hn : 0 ≤ n) : cRound (n : ℝ) = n := by
  have h0 : (0 : ℝ) ≤ (n : ℝ) := by exact_mod_cast hn
  unfold cRound
  rw [if_pos h0, Int.floor_eq_iff]
  constructor <;> linarith

/-- C23, the claim as stated fails: on an `8 x 4` environment with the kernel state of
`init`, the up direction `(0, 1, 0)` is looked up at row coordinate `3 = height - 1`, not
`0`, and the direction `(1, 0, 0)`, whose phi `π / 2` is larger, at the smaller row
coordinate `2`. -/
theorem row_convention_counterexample :
    (NormalRayReflect.readHDRIValueIndices Real.pi (fun y x => Complex.arg ⟨x, y⟩) Real.arccos
        (⟨8, 4, fun _ _ => ⟨1, 1, 1, 1⟩⟩ : NormalRayReflect.Image ℝ)
        (NormalRayReflect.init Real.pi id NormalRayReflect.define
          ⟨8, 4, fun _ _ => ⟨1, 1, 1, 1⟩⟩ ⟨8, 4, fun _ _ => ⟨1, 1, 1, 1⟩⟩)
        ⟨0, 1, 0⟩).y = 3 ∧
    (NormalRayReflect.readHDRIValueIndices Real.pi (fun y x => Complex.arg ⟨x, y⟩) Real.arccos
        (⟨8, 4, fun _ _ => ⟨1, 1, 1, 1⟩⟩ : NormalRayReflect.Image ℝ)
        (NormalRayReflect.init Real.pi id NormalRayReflect.define
          ⟨8, 4, fun _ _ => ⟨1, 1, 1, 1⟩⟩ ⟨8, 4, fun _ _ => ⟨1, 1, 1, 1⟩⟩)
        ⟨0, 1, 0⟩).y ≠ 0 ∧
    (NormalRayReflect.readHDRIValueIndices Real.pi (fun y x => Complex.arg ⟨x, y⟩) Real.arccos
        (⟨8, 4, fun _ _ => ⟨1, 1, 1, 1⟩⟩ : NormalRayReflect.Image ℝ)
        (NormalRayReflect.init Real.pi id NormalRayReflect.define
          ⟨8, 4, fun _ _ => ⟨1, 1, 1, 1⟩⟩ ⟨8, 4, fun _ _ => ⟨1, 1, 1, 1⟩⟩)
        ⟨1, 0, 0⟩).y = 2 ∧
    (NormalRayReflect.cartesionUnitVectorToSpherical Real.pi (fun y x => Complex.arg ⟨x, y⟩)
        Real.arccos ⟨0, 1, 0⟩ 0).y
      < (NormalRayReflect.cartesionUnitVectorToSpherical Real.pi
          (fun y x => Complex.arg ⟨x, y⟩) Real.arccos ⟨1, 0, 0⟩ 0).y := by
  have hpi := Real.pi_pos
  have hup := shading_phi_eq ⟨0, 1, 0⟩ (NormalRayReflect.degreesToRadians Real.pi 0)
    (by norm_num)
  have hside := shading_phi_eq ⟨1, 0, 0⟩ (NormalRayReflect.degreesToRadians Real.pi 0)
    (by norm_num)
  have hup0 := shading_phi_eq ⟨0, 1, 0⟩ 0 (by norm_num)
  have hside0 := shading_phi_eq ⟨1, 0, 0⟩ 0 (by norm_num)
  simp only [Real.arccos_one, Real.arccos_zero] at hup hside hup0 hside0
  have hoff : (NormalRayReflect.define : NormalRayReflect.Params ℝ)._hdriOffsetAngle = 0 := rfl
  have hrow_up : (NormalRayReflect.readHDRIValueIndices Real.pi
      (fun y x => Complex.arg ⟨x, y⟩) Real.arccos
      (⟨8, 4, fun _ _ => ⟨1, 1, 1, 1⟩⟩ : NormalRayReflect.Image ℝ)
      (NormalRayReflect.init Real.pi id NormalRayReflect.define
        ⟨8, 4, fun _ _ => ⟨1, 1, 1, 1⟩⟩ ⟨8, 4, fun _ _ => ⟨1, 1, 1, 1⟩⟩)
      ⟨0, 1, 0⟩).y = 3 := by
    simp only [NormalRayReflect.readHDRIValueIndices, NormalRayReflect.init, clamp2, hoff, hup,
      float2_sub_scalar_def]
    norm_num
  have hrow_side : (NormalRayReflect.readHDRIValueIndices Real.pi
      (fun y x => Complex.arg ⟨x, y⟩) Real.arccos
      (⟨8, 4, fun _ _ => ⟨1, 1, 1, 1⟩⟩ : NormalRayReflect.Image ℝ)
      (NormalRayReflect.init Real.pi id NormalRayReflect.define
        ⟨8, 4, fun _ _ => ⟨1, 1, 1, 1⟩⟩ ⟨8, 4, fun _ _ => ⟨1, 1, 1, 1⟩⟩)
      ⟨1, 0, 0⟩).y = 2 := by
    simp only [NormalRayReflect.readHDRIValueIndices, NormalRayReflect.init, clamp2, hoff,
      hside, float2_sub_scalar_def]
    have e : ((4 : ℤ) : ℝ) - ((4 : ℤ) : ℝ) / Real.pi * (Real.pi / 2) = 2 := by
      push_cast
      field_simp
      ring
    rw [e]
    norm_num
  refine ⟨hrow_up, ?_, hrow_side, ?_⟩
  · rw [hrow_up]
    norm_num
  · rw [hup0, hside0]
    positivity

/-- The polar angle the irradiance kernel computes for a direction with `y > -1` is
`arccos y`. -/
theorem irradiance_phi_eq (d : float3 ℝ) (hy : -1 < d.y) :
    (HdriIrradiance.cartesionUnitVectorToSpherical Real.pi (fun y x => Complex.arg ⟨x, y⟩)
      Real.arccos d).y = Real.arccos d.y := by
  have h1 : Real.arccos d.y < Real.pi := by
    refine lt_of_le_of_ne (Real.arccos_le_pi _) (fun h => ?_)
    have := Real.arccos_eq_pi.1 h
    linarith
  exact wrap_fixed _ _ (Real.arccos_nonneg _) h1

/-- C `round` is monotone. -/
theorem cRound_mono (x y : ℝ) (h : x ≤ y) : cRound x ≤ cRound y := by
  unfold cRound
  split_ifs with hx hy hy
  · exact Int.floor_mono (by linarith)
  · linarith
  · have h1 : ⌈x - 1 / 2⌉ ≤ 0 := by
      rw [Int.ceil_le]
      push_cast
      linarith
    have h2 : 0 ≤ ⌊y + 1 / 2⌋ := Int.floor_nonneg.2 (by linarith)
    omega
  · exact Int.ceil_mono (by linarith)

/-- For every `δ > 0` there is a unit direction with `y > -1` whose polar angle `arccos y`
exceeds `π - δ`. -/
theorem exists_direction_near_down (δ : ℝ) (hδ : 0 < δ) :
    ∃ d : float3 ℝ, dot d d = 1 ∧ -1 < d.y ∧ Real.pi - δ < Real.arccos d.y := by
  have hpi := Real.pi_pos
  have h0 : 0 ≤ max (Real.pi - δ / 2) (Real.pi / 2) := le_trans (by linarith) (le_max_right _ _)
  have h1 : max (Real.pi - δ / 2) (Real.pi / 2) < Real.pi := max_lt (by linarith) (by linarith)
  have hac := Real.arccos_cos h0 h1.le
  refine ⟨⟨Real.sin (max (Real.pi - δ / 2) (Real.pi / 2)),
    Real.cos (max (Real.pi - δ / 2) (Real.pi / 2)), 0⟩, ?_, ?_, ?_⟩
  · simp only [dot]
    nlinarith [Real.sin_sq_add_cos_sq (max (Real.pi - δ / 2) (Real.pi / 2))]
  · show -1 < Real.cos (max (Real.pi - δ / 2) (Real.pi / 2))
    refine lt_of_le_of_ne (Real.neg_one_le_cos _) (fun h => ?_)
    rw [← h, Real.arccos_neg_one] at hac
    linarith
  · show Real.pi - δ < Real.arccos (Real.cos (max (Real.pi - δ / 2) (Real.pi / 2)))
    rw [hac]
    exact lt_of_lt_of_le (by linarith) (le_max_left _ _)

/-- C23 as amended: with the kernel state of `init` and environments of height `h ≥ 1`, the
vertical axis is inverted relative to phi. For a direction with `y > -1`, whose phi is
`arccos y`, the shading kernel's row coordinate is `h - (h / π) * phi` clamped to
`[0, h - 1]` and the irradiance kernel's row index is `round (h - (h / π) * phi) - 1`, read
edge-clamped. The up direction `(0, 1, 0)`, whose phi is `0`, is looked up at row `h - 1` in
both kernels; in both kernels the row does not increase as phi increases; and row `0` is
approached as phi tends to `π`: the shading kernel's row coordinate is below any `ε > 0`
once phi exceeds `π - ε π / h`, the irradiance kernel's row index is `-1`, read as row `0`,
once phi exceeds `π - π / (2 h)`, and there are unit directions with phi above any bound
below `π`. -/
theorem row_convention (p : NormalRayReflect.Params ℝ)
    (invert : float4x4 ℝ → float4x4 ℝ) (hdri irradiance : NormalRayReflect.Image ℝ)
    (hdriI : HdriIrradiance.Image ℝ) (samples : ℤ × ℤ)
    (hh : 1 ≤ hdri.height) (hhI : 1 ≤ hdriI.height) :
    (∀ d : float3 ℝ, -1 < d.y →
      (NormalRayReflect.readHDRIValueIndices Real.pi (fun y x => Complex.arg ⟨x, y⟩)
          Real.arccos hdri (NormalRayReflect.init Real.pi invert p hdri irradiance) d).y
        = min (max ((hdri.height : ℝ) - (hdri.height : ℝ) / Real.pi * Real.arccos d.y) 0)
            ((hdri.height : ℝ) - 1)) ∧
    (∀ d : float3 ℝ, -1 < d.y →
      (HdriIrradiance.readHDRIValueIndices Real.pi (fun y x => Complex.arg ⟨x, y⟩)
          Real.arccos hdriI (HdriIrradiance.init Real.pi hdriI samples) d).2
        = cRound ((hdriI.height : ℝ) - (hdriI.height : ℝ) / Real.pi * Real.arccos d.y) - 1) ∧
    (NormalRayReflect.readHDRIValueIndices Real.pi (fun y x => Complex.arg ⟨x, y⟩) Real.arccos
        hdri (NormalRayReflect.init Real.pi invert p hdri irradiance) ⟨0, 1, 0⟩).y
      = (hdri.height : ℝ) - 1 ∧
    (HdriIrradiance.readHDRIValueIndices Real.pi (fun y x => Complex.arg ⟨x, y⟩) Real.arccos
        hdriI (HdriIrradiance.init Real.pi hdriI samples) ⟨0, 1, 0⟩).2 = hdriI.height - 1 ∧
    (∀ d1 d2 : float3 ℝ, -1 < d1.y → -1 < d2.y → Real.arccos d1.y ≤ Real.arccos d2.y →
      (NormalRayReflect.readHDRIValueIndices Real.pi (fun y x => Complex.arg ⟨x, y⟩)
          Real.arccos hdri (NormalRayReflect.init Real.pi invert p hdri irradiance) d2).y
        ≤ (NormalRayReflect.readHDRIValueIndices Real.pi (fun y x => Complex.arg ⟨x, y⟩)
          Real.arccos hdri (NormalRayReflect.init Real.pi invert p hdri irradiance) d1).y) ∧
    (∀ d1 d2 : float3 ℝ, -1 < d1.y → -1 < d2.y → Real.arccos d1.y ≤ Real.arccos d2.y →
      (HdriIrradiance.readHDRIValueIndices Real.pi (fun y x => Complex.arg ⟨x, y⟩)
          Real.arccos hdriI (HdriIrradiance.init Real.pi hdriI samples) d2).2
        ≤ (HdriIrradiance.readHDRIValueIndices Real.pi (fun y x => Complex.arg ⟨x, y⟩)
          Real.arccos hdriI (HdriIrradiance.init Real.pi hdriI samples) d1).2) ∧
    (∀ ε : ℝ, 0 < ε → ∀ d : float3 ℝ, -1 < d.y →
      Real.pi - ε * Real.pi / (hdri.height : ℝ) < Real.arccos d.y →
      (NormalRayReflect.readHDRIValueIndices Real.pi (fun y x => Complex.arg ⟨x, y⟩)
          Real.arccos hdri (NormalRayReflect.init Real.pi invert p hdri irradiance) d).y
        < ε) ∧
    (∀ d : float3 ℝ, -1 < d.y →
      Real.pi - Real.pi / (2 * (hdriI.height : ℝ)) < Real.arccos d.y →
      (HdriIrradiance.readHDRIValueIndices Real.pi (fun y x => Complex.arg ⟨x, y⟩)
          Real.arccos hdriI (HdriIrradiance.init Real.pi hdriI samples) d).2 = -1) ∧
    (∀ col : ℤ, hdriI.read col (-1) = hdriI.read col 0) ∧
    (∀ δ : ℝ, 0 < δ →
      ∃ d : float3 ℝ, dot d d = 1 ∧ -1 < d.y ∧ Real.pi - δ < Real.arccos d.y) := by
  have hpi := Real.pi_pos
  have hhr : (1 : ℝ) ≤ (hdri.height : ℝ) := by exact_mod_cast hh
  have hhIr : (1 : ℝ) ≤ (hdriI.height : ℝ) := by exact_mod_cast hhI
  have hk : 0 ≤ (hdri.height : ℝ) / Real.pi := by positivity
  have hkI : 0 ≤ (hdriI.height : ℝ) / Real.pi := by positivity
  have rowS : ∀ d : float3 ℝ, -1 < d.y →
      (NormalRayReflect.readHDRIValueIndices Real.pi (fun y x => Complex.arg ⟨x, y⟩)
          Real.arccos hdri (NormalRayReflect.init Real.pi invert p hdri irradiance) d).y
        = min (max ((hdri.height : ℝ) - (hdri.height : ℝ) / Real.pi * Real.arccos d.y) 0)
            ((hdri.height : ℝ) - 1) := by
    intro d hd
    have e := shading_phi_eq d (NormalRayReflect.degreesToRadians Real.pi p._hdriOffsetAngle) hd
    simp only [NormalRayReflect.readHDRIValueIndices, NormalRayReflect.init, clamp2, e,
      float2_sub_scalar_def]
  have rowI : ∀ d : float3 ℝ, -1 < d.y →
      (HdriIrradiance.readHDRIValueIndices Real.pi (fun y x => Complex.arg ⟨x, y⟩)
          Real.arccos hdriI (HdriIrradiance.init Real.pi hdriI samples) d).2
        = cRound ((hdriI.height : ℝ) - (hdriI.height : ℝ) / Real.pi * Real.arccos d.y) - 1 := by
    intro d hd
    have e := irradiance_phi_eq d hd
    simp only [HdriIrradiance.readHDRIValueIndices, HdriIrradiance.init, e]
  refine ⟨rowS, rowI, ?_, ?_, ?_, ?_, ?_, ?_, ?_, exists_direction_near_down⟩
  · rw [rowS ⟨0, 1, 0⟩ (by norm_num)]
    simp only [Real.arccos_one, mul_zero, sub_zero]
    rw [max_eq_left (by linarith), min_eq_right (by linarith)]
  · rw [rowI ⟨0, 1, 0⟩ (by norm_num)]
    simp only [Real.arccos_one, mul_zero, sub_zero]
    rw [cRound_intCast _ (by omega)]
  · intro d1 d2 h1 h2 hle
    rw [rowS d1 h1, rowS d2 h2]
    have hmul := mul_le_mul_of_nonneg_left hle hk
    exact min_le_min (max_le_max (by linarith) (le_refl 0)) (le_refl _)
  · intro d1 d2 h1 h2 hle
    rw [rowI d1 h1, rowI d2 h2]
    have hmul := mul_le_mul_of_nonneg_left hle hkI
    have := cRound_mono _ _ (show (hdriI.height : ℝ) - (hdriI.height : ℝ) / Real.pi
      * Real.arccos d2.y ≤ (hdriI.height : ℝ) - (hdriI.height : ℝ) / Real.pi
      * Real.arccos d1.y by linarith)
    omega
  · intro ε hε d hd hphi
    rw [rowS d hd]
    have hpos : (0 : ℝ) < (hdri.height : ℝ) := by linarith
    have hlt : (hdri.height : ℝ) - (hdri.height : ℝ) / Real.pi * Real.arccos d.y < ε := by
      have h1 : (hdri.height : ℝ) / Real.pi * (Real.pi - ε * Real.pi / (hdri.height : ℝ))
          = (hdri.height : ℝ) - ε := by
        field_simp
        ring
      have h2 : (hdri.height : ℝ) / Real.pi * (Real.pi - ε * Real.pi / (hdri.height : ℝ))
          < (hdri.height : ℝ) / Real.pi * Real.arccos d.y :=
        mul_lt_mul_of_pos_left hphi (by positivity)
      linarith
    exact lt_of_le_of_lt (min_le_left _ _) (max_lt hlt hε)
  · intro d hd hphi
    rw [rowI d hd]
    have hpos : (0 : ℝ) < (hdriI.height : ℝ) := by linarith
    have hup : Real.arccos d.y < Real.pi := by
      refine lt_of_le_of_ne (Real.arccos_le_pi _) (fun h => ?_)
      have := Real.arccos_eq_pi.1 h
      linarith
    have hlt : (hdriI.height : ℝ) - (hdriI.height : ℝ) / Real.pi * Real.arccos d.y < 1 / 2 := by
      have h1 : (hdriI.height : ℝ) / Real.pi * (Real.pi - Real.pi / (2 * (hdriI.height : ℝ)))
          = (hdriI.height : ℝ) - 1 / 2 := by
        field_simp
        ring
      have h2 : (hdriI.height : ℝ) / Real.pi * (Real.pi - Real.pi / (2 * (hdriI.height : ℝ)))
          < (hdriI.height : ℝ) / Real.pi * Real.arccos d.y :=
        mul_lt_mul_of_pos_left hphi (by positivity)
      linarith
    have hge : 0 ≤ (hdriI.height : ℝ) - (hdriI.height : ℝ) / Real.pi * Real.arccos d.y := by
      have h1 : (hdriI.height : ℝ) / Real.pi * Real.arccos d.y
          ≤ (hdriI.height : ℝ) / Real.pi * Real.pi := mul_le_mul_of_nonneg_left hup.le hkI
      have h2 : (hdriI.height : ℝ) / Real.pi * Real.pi = (hdriI.height : ℝ) := by
        field_simp
      linarith
    have hc : cRound ((hdriI.height : ℝ) - (hdriI.height : ℝ) / Real.pi * Real.arccos d.y)
        = 0 := by
      unfold cRound
      rw [if_pos hge, Int.floor_eq_iff]
      constructor
      · push_cast
        linarith
      · push_cast
        linarith
    rw [hc]
    norm_num
  · intro col
    simp only [HdriIrradiance.Image.read]
    congr 1
    omega

/-- Witness for the amended C23 on `8 x 4` environments with the default parameters. -/
theorem row_convention_witness :
    (NormalRayReflect.readHDRIValueIndices Real.pi (fun y x => Complex.arg ⟨x, y⟩) Real.arccos
        (⟨8, 4, fun _ _ => ⟨1, 1, 1, 1⟩⟩ : NormalRayReflect.Image ℝ)
        (NormalRayReflect.init Real.pi id NormalRayReflect.define
          ⟨8, 4, fun _ _ => ⟨1, 1, 1, 1⟩⟩ ⟨8, 4, fun _ _ => ⟨1, 1, 1, 1⟩⟩)
        ⟨0, 1, 0⟩).y = (((4 : ℤ) : ℝ)) - 1 ∧
    (HdriIrradiance.readHDRIValueIndices Real.pi (fun y x => Complex.arg ⟨x, y⟩) Real.arccos
        (⟨8, 4, fun _ _ => ⟨1, 1, 1, 1⟩⟩ : HdriIrradiance.Image ℝ)
        (HdriIrradiance.init Real.pi ⟨8, 4, fun _ _ => ⟨1, 1, 1, 1⟩⟩ (100, 50))
        ⟨0, 1, 0⟩).2 = 4 - 1 :=
  have h := row_convention NormalRayReflect.define id
    (⟨8, 4, fun _ _ => ⟨1, 1, 1, 1⟩⟩ : NormalRayReflect.Image ℝ)
    ⟨8, 4, fun _ _ => ⟨1, 1, 1, 1⟩⟩
    (⟨8, 4, fun _ _ => ⟨1, 1, 1, 1⟩⟩ : HdriIrradiance.Image ℝ) (100, 50)
    (by decide) (by decide)
  ⟨h.2.2.1, h.2.2.2.1⟩


/-! ## The irradiance map and its lookup -/

/-- Two angles in `[0, 2π)` with the same cosine and sine are equal. -/
theorem angle_unique (a b : ℝ) (ha0 : 0 ≤ a) (ha1 : a < 2 * Real.pi) (hb0 : 0 ≤ b)
    (hb1 : b < 2 * Real.pi) (hc : Real.cos a = Real.cos b) (hs : Real.sin a = Real.sin b) :
    a = b := by
  have hang := Real.Angle.cos_sin_inj hc hs
  rw [Real.Angle.angle_eq_iff_two_pi_dvd_sub] at hang
  obtain ⟨k, hk⟩ := hang
  have hpi := Real.pi_pos
  have hk0 : k = 0 := by
    by_contra hne
    rcases lt_or_gt_of_ne hne with h | h
    · have : (k : ℝ) ≤ -1 := by exact_mod_cast Int.le_sub_one_of_lt h
      nlinarith
    · have : (1 : ℝ) ≤ (k : ℝ) := by exact_mod_cast Int.add_one_le_of_lt h
      nlinarith
  rw [hk0] at hk
  simp only [Int.cast_zero, mul_zero] at hk
  linarith

/-- The normalised azimuth of the point `(r cos t, r sin t)` with `r > 0` and `t` in
`[0, 2π)` is `t`. -/
theorem wrap_arg_eq (r t : ℝ) (hr : 0 < r) (ht0 : 0 ≤ t) (ht1 : t < 2 * Real.pi) :
    fmod (Complex.arg ⟨Real.cos t * r, Real.sin t * r⟩) (2 * Real.pi)
        + 2 * Real.pi
          * boolToScalar (decide
              (fmod (Complex.arg ⟨Real.cos t * r, Real.sin t * r⟩) (2 * Real.pi) < 0))
      = t := by
  have h2 : (0 : ℝ) < 2 * Real.pi := by positivity
  obtain ⟨hw0, hw1⟩ := wrap_range (Complex.arg ⟨Real.cos t * r, Real.sin t * r⟩)
    (2 * Real.pi) h2
  obtain ⟨hwc, hws⟩ := wrap_two_pi_trig (Complex.arg ⟨Real.cos t * r, Real.sin t * r⟩)
  have habs : Complex.abs ⟨Real.cos t * r, Real.sin t * r⟩ = r := by
    rw [Complex.abs_apply, Complex.normSq_mk]
    have e : Real.cos t * r * (Real.cos t * r) + Real.sin t * r * (Real.sin t * r) = r ^ 2 := by
      have := Real.cos_sq_add_sin_sq t
      linear_combination (r ^ 2) * this
    rw [e, Real.sqrt_sq hr.le]
  have hne : (⟨Real.cos t * r, Real.sin t * r⟩ : ℂ) ≠ 0 := by
    intro h
    have h0 : Complex.abs ⟨Real.cos t * r, Real.sin t * r⟩ = 0 := by rw [h, map_zero]
    rw [habs] at h0
    exact (ne_of_gt hr) h0
  have hcos : Real.cos (Complex.arg ⟨Real.cos t * r, Real.sin t * r⟩) = Real.cos t := by
    rw [Complex.cos_arg hne, habs]
    exact mul_div_cancel_right₀ _ (ne_of_gt hr)
  have hsin : Real.sin (Complex.arg ⟨Real.cos t * r, Real.sin t * r⟩) = Real.sin t := by
    rw [Complex.sin_arg, habs]
    exact mul_div_cancel_right₀ _ (ne_of_gt hr)
  exact angle_unique _ _ hw0 hw1 ht0 ht1 (hwc.trans hcos) (hws.trans hsin)

/-- The shading kernel's angles, at offset `0`, of the direction with spherical angles
`(t, f)`, `t` in `[0, 2π)` and `f` in `(0, π)`, are `(t, f)`. -/
theorem spherical_angles_inverse (t f : ℝ) (ht0 : 0 ≤ t) (ht1 : t < 2 * Real.pi)
    (hf0 : 0 < f) (hf1 : f < Real.pi) :
    NormalRayReflect.cartesionUnitVectorToSpherical Real.pi (fun y x => Complex.arg ⟨x, y⟩)
        Real.arccos (HdriIrradiance.sphericalUnitVectorToCartesion Real.sin Real.cos ⟨t, f⟩) 0
      = ⟨t, f⟩ := by
  have hsf : 0 < Real.sin f := Real.sin_pos_of_pos_of_lt_pi hf0 hf1
  have hth := wrap_arg_eq (Real.sin f) t hsf ht0 ht1
  have hph : fmod (Real.arccos (Real.cos f)) Real.pi
      + Real.pi * boolToScalar (decide (fmod (Real.arccos (Real.cos f)) Real.pi < 0)) = f := by
    rw [Real.arccos_cos hf0.le hf1.le]
    exact wrap_fixed f Real.pi hf0.le hf1
  simp only [NormalRayReflect.cartesionUnitVectorToSpherical,
    HdriIrradiance.sphericalUnitVectorToCartesion, normalizeAngles, add_zero]
  ext
  · exact hth
  · exact hph

/-- C26: the irradiance map and the irradiance lookup use inverse mappings: for an
irradiance image of width `w` and height `h` and every pixel `(x, y)` with `0 ≤ x < w` and
`0 < y ≤ h - 1`, the direction the irradiance kernel assigns to the pixel is looked up by
the shading kernel's `readIrradianceValue`, at theta offset `0`, at texel coordinates
exactly `(x, y)`. -/
theorem irradiance_lookup_inverse (p : NormalRayReflect.Params ℝ)
    (invert : float4x4 ℝ → float4x4 ℝ) (hdri irradiance : NormalRayReflect.Image ℝ)
    (x y : ℤ) (hx0 : 0 ≤ x) (hx1 : x < irradiance.width) (hy0 : 0 < y)
    (hy1 : y ≤ irradiance.height - 1) (hoff : p._hdriOffsetAngle = 0) :
    NormalRayReflect.readIrradianceValueIndices Real.pi (fun y x => Complex.arg ⟨x, y⟩)
        Real.arccos irradiance (NormalRayReflect.init Real.pi invert p hdri irradiance)
        (HdriIrradiance.sphericalUnitVectorToCartesion Real.sin Real.cos
          (HdriIrradiance.uvPositionToAngles Real.pi
            (HdriIrradiance.pixelsToUV ⟨(x : ℝ), (y : ℝ)⟩
              ⟨(irradiance.width : ℝ), (irradiance.height : ℝ)⟩)))
      = ⟨(x : ℝ), (y : ℝ)⟩ := by
  have hpi := Real.pi_pos
  have hxr0 : (0 : ℝ) ≤ (x : ℝ) := by exact_mod_cast hx0
  have hxr1 : (x : ℝ) ≤ (irradiance.width : ℝ) - 1 := by
    have : x ≤ irradiance.width - 1 := by omega
    exact_mod_cast this
  have hyr0 : (0 : ℝ) < (y : ℝ) := by exact_mod_cast hy0
  have hyr1 : (y : ℝ) ≤ (irradiance.height : ℝ) - 1 := by exact_mod_cast hy1
  have hw : (0 : ℝ) < (irradiance.width : ℝ) := by linarith
  have hh : (0 : ℝ) < (irradiance.height : ℝ) := by linarith
  have hxw : (x : ℝ) / (irradiance.width : ℝ) < 1 := by
    rw [div_lt_one hw]
    linarith
  have hyh : (y : ℝ) / (irradiance.height : ℝ) < 1 := by
    rw [div_lt_one hh]
    linarith
  have hxw0 : 0 ≤ (x : ℝ) / (irradiance.width : ℝ) := by positivity
  have hyh0 : 0 < (y : ℝ) / (irradiance.height : ℝ) := by positivity
  have hangles : HdriIrradiance.uvPositionToAngles Real.pi
      (HdriIrradiance.pixelsToUV ⟨(x : ℝ), (y : ℝ)⟩
        ⟨(irradiance.width : ℝ), (irradiance.height : ℝ)⟩)
      = ⟨2 * Real.pi * ((x : ℝ) / (irradiance.width : ℝ)),
          Real.pi * (1 - (y : ℝ) / (irradiance.height : ℝ))⟩ := by
    simp only [HdriIrradiance.uvPositionToAngles, HdriIrradiance.pixelsToUV]
    ext <;> simp only <;> ring
  have hinv := spherical_angles_inverse (2 * Real.pi * ((x : ℝ) / (irradiance.width : ℝ)))
    (Real.pi * (1 - (y : ℝ) / (irradiance.height : ℝ)))
    (by positivity) (by nlinarith) (by nlinarith) (by nlinarith)
  have hdeg : NormalRayReflect.degreesToRadians Real.pi p._hdriOffsetAngle = 0 := by
    simp [NormalRayReflect.degreesToRadians, hoff]
  simp only [NormalRayReflect.readIrradianceValueIndices, NormalRayReflect.init, hangles, hdeg,
    hinv, clamp2, float2_sub_scalar_def]
  have ex : (irradiance.width : ℝ) / (2 * Real.pi)
      * (2 * Real.pi * ((x : ℝ) / (irradiance.width : ℝ))) = (x : ℝ) := by
    field_simp
    ring
  have ey : (irradiance.height : ℝ) - (irradiance.height : ℝ) / Real.pi
      * (Real.pi * (1 - (y : ℝ) / (irradiance.height : ℝ))) = (y : ℝ) := by
    field_simp
    ring
  rw [ex, ey, max_eq_left hxr0, min_eq_left hxr1, max_eq_left hyr0.le, min_eq_left hyr1]

/-- Witness for C26: pixel `(1, 1)` of a `4 x 2` irradiance map with the default
parameters. -/
theorem irradiance_lookup_inverse_witness :
    NormalRayReflect.readIrradianceValueIndices Real.pi (fun y x => Complex.arg ⟨x, y⟩)
        Real.arccos (⟨4, 2, fun _ _ => ⟨1, 1, 1, 1⟩⟩ : NormalRayReflect.Image ℝ)
        (NormalRayReflect.init Real.pi id NormalRayReflect.define
          ⟨4, 2, fun _ _ => ⟨1, 1, 1, 1⟩⟩ ⟨4, 2, fun _ _ => ⟨1, 1, 1, 1⟩⟩)
        (HdriIrradiance.sphericalUnitVectorToCartesion Real.sin Real.cos
          (HdriIrradiance.uvPositionToAngles Real.pi
            (HdriIrradiance.pixelsToUV ⟨((1 : ℤ) : ℝ), ((1 : ℤ) : ℝ)⟩
              ⟨((4 : ℤ) : ℝ), ((2 : ℤ) : ℝ)⟩)))
      = ⟨((1 : ℤ) : ℝ), ((1 : ℤ) : ℝ)⟩ :=
  irradiance_lookup_inverse NormalRayReflect.define id
    (⟨4, 2, fun _ _ => ⟨1, 1, 1, 1⟩⟩ : NormalRayReflect.Image ℝ)
    ⟨4, 2, fun _ _ => ⟨1, 1, 1, 1⟩⟩ 1 1 (by decide) (by decide) (by decide) (by decide) rfl


/-! ## Camera ray -/

/-- A non-zero vector has positive dot product with itself. -/
theorem dot_self_pos (q : float3 ℝ) (hq : q ≠ ⟨0, 0, 0⟩) : 0 < dot q q := by
  have hnn : 0 ≤ dot q q := by
    simp only [dot]
    nlinarith [mul_self_nonneg q.x, mul_self_nonneg q.y, mul_self_nonneg q.z]
  refine lt_of_le_of_ne hnn (fun h0 => hq ?_)
  simp only [dot] at h0
  have hx : q.x = 0 := by nlinarith [mul_self_nonneg q.x, mul_self_nonneg q.y, mul_self_nonneg q.z]
  have hy : q.y = 0 := by nlinarith [mul_self_nonneg q.x, mul_self_nonneg q.y, mul_self_nonneg q.z]
  have hz : q.z = 0 := by nlinarith [mul_self_nonneg q.x, mul_self_nonneg q.y, mul_self_nonneg q.z]
  ext
  · exact hx
  · exact hy
  · exact hz

/-- Unprojecting `(u, v, 0, 1)` through any inverse of the projection matrix gives
`(u * ha / (2 f), v * ha * aspect / (2 f), -1)` in the first three components. -/
theorem unproject_spec (f ha aspect near far : ℝ) (invP : float4x4 ℝ) (u v : ℝ)
    (hf : f ≠ 0) (hha : ha ≠ 0) (hasp : aspect ≠ 0)
    (hinv : ∀ x : float4 ℝ,
      NormalRayReflect.matmul4 (NormalRayReflect.projectionMatrix f ha aspect near far)
        (NormalRayReflect.matmul4 invP x) = x) :
    (NormalRayReflect.matmul4 invP ⟨u, v, 0, 1⟩).x = u * ha / (2 * f) ∧
    (NormalRayReflect.matmul4 invP ⟨u, v, 0, 1⟩).y = v * ha * aspect / (2 * f) ∧
    (NormalRayReflect.matmul4 invP ⟨u, v, 0, 1⟩).z = -1 := by
  have h := hinv ⟨u, v, 0, 1⟩
  generalize NormalRayReflect.matmul4 invP ⟨u, v, 0, 1⟩ = w at h
  have hx := congrArg float4.x h
  have hy := congrArg float4.y h
  have hw := congrArg float4.w h
  simp only [NormalRayReflect.matmul4, NormalRayReflect.projectionMatrix, zero_mul, add_zero,
    zero_add] at hx hy hw
  refine ⟨?_, ?_, ?_⟩
  · rw [eq_div_iff (by positivity)]
    field_simp at hx
    linarith
  · rw [eq_div_iff (by positivity)]
    field_simp at hy
    linarith
  · linarith

/-- C22, the claim as stated fails: for the zero world matrix, with `f = ha = aspect = 1`,
`near = 1`, `far = 2` and the inverse of that projection, the ray direction computed for
`uv = (0, 0)` has length `0`, so it is not a unit vector. -/
theorem camera_ray_counterexample :
    (1 : ℝ) ≠ 0 ∧ (1 : ℝ) * 2 ≠ 0 ∧ (1 : ℝ) ≠ 2 ∧
    (∀ x : float4 ℝ,
      NormalRayReflect.matmul4 (NormalRayReflect.projectionMatrix 1 1 1 1 2)
        (NormalRayReflect.matmul4
          ⟨1 / 2, 0, 0, 0, 0, 1 / 2, 0, 0, 0, 0, 0, -1, 0, 0, -1 / 4, 3 / 4⟩ x) = x) ∧
    length Real.sqrt
      (NormalRayReflect.createCameraRay Real.sqrt
        ⟨0, 0, 0, 0, 0, 0, 0, 0, 0, 0, 0, 0, 0, 0, 0, 0⟩
        ⟨1 / 2, 0, 0, 0, 0, 1 / 2, 0, 0, 0, 0, 0, -1, 0, 0, -1 / 4, 3 / 4⟩ ⟨0, 0⟩).2 = 0 ∧
    length Real.sqrt
      (NormalRayReflect.createCameraRay Real.sqrt
        ⟨0, 0, 0, 0, 0, 0, 0, 0, 0, 0, 0, 0, 0, 0, 0, 0⟩
        ⟨1 / 2, 0, 0, 0, 0, 1 / 2, 0, 0, 0, 0, 0, -1, 0, 0, -1 / 4, 3 / 4⟩ ⟨0, 0⟩).2 ≠ 1 := by
  have hlen : length Real.sqrt
      (NormalRayReflect.createCameraRay Real.sqrt
        ⟨0, 0, 0, 0, 0, 0, 0, 0, 0, 0, 0, 0, 0, 0, 0, 0⟩
        ⟨1 / 2, 0, 0, 0, 0, 1 / 2, 0, 0, 0, 0, 0, -1, 0, 0, -1 / 4, 3 / 4⟩ ⟨0, 0⟩).2 = 0 := by
    simp [NormalRayReflect.createCameraRay, NormalRayReflect.matmul4, normalize, length, dot,
      float3.hdiv_def]
  refine ⟨one_ne_zero, by norm_num, by norm_num, ?_, hlen, ?_⟩
  · intro x
    simp only [NormalRayReflect.matmul4, NormalRayReflect.projectionMatrix]
    ext <;> simp only <;> ring
  · rw [hlen]
    norm_num

/-- C22 as amended: for camera world matrix `M`, projection
`P = projectionMatrix f ha aspect near far` with `f`, `ha`, `aspect` non-zero,
`near * far ≠ 0`, `near ≠ far`, and any inverse `invP` of `P`, `createCameraRay M invP (u, v)`
sets `rayOrigin` to the translation column of `M` and `rayDirection` to
`normalize (M3x3 * (u * ha / (2 f), v * ha * aspect / (2 f), -1))`, an expression without
`M`'s translation and without `near` and `far`; it is a unit vector whenever that product is
not the zero vector; for identity `M` and `uv = (0, 0)` it is `(0, 0, -1)`. -/
theorem camera_ray (M : float4x4 ℝ) (f ha aspect near far : ℝ) (invP : float4x4 ℝ) (u v : ℝ)
    (hf : f ≠ 0) (hha : ha ≠ 0) (hasp : aspect ≠ 0) (_hnf : near * far ≠ 0)
    (_hne : near ≠ far)
    (hinv : ∀ x : float4 ℝ,
      NormalRayReflect.matmul4 (NormalRayReflect.projectionMatrix f ha aspect near far)
        (NormalRayReflect.matmul4 invP x) = x) :
    (NormalRayReflect.createCameraRay Real.sqrt M invP ⟨u, v⟩).1 = ⟨M.m03, M.m13, M.m23⟩ ∧
    (NormalRayReflect.createCameraRay Real.sqrt M invP ⟨u, v⟩).2
      = normalize Real.sqrt
          (NormalRayReflect.matmul
            ⟨M.m00, M.m01, M.m02, M.m10, M.m11, M.m12, M.m20, M.m21, M.m22⟩
            ⟨u * ha / (2 * f), v * ha * aspect / (2 * f), -1⟩) ∧
    (NormalRayReflect.matmul
        ⟨M.m00, M.m01, M.m02, M.m10, M.m11, M.m12, M.m20, M.m21, M.m22⟩
        ⟨u * ha / (2 * f), v * ha * aspect / (2 * f), -1⟩ ≠ ⟨0, 0, 0⟩ →
      length Real.sqrt (NormalRayReflect.createCameraRay Real.sqrt M invP ⟨u, v⟩).2 = 1) ∧
    (NormalRayReflect.createCameraRay Real.sqrt
        ⟨1, 0, 0, 0, 0, 1, 0, 0, 0, 0, 1, 0, 0, 0, 0, 1⟩ invP ⟨0, 0⟩).2 = ⟨0, 0, -1⟩ := by
  obtain ⟨hx, hy, hz⟩ := unproject_spec f ha aspect near far invP u v hf hha hasp hinv
  obtain ⟨hx0, hy0, hz0⟩ := unproject_spec f ha aspect near far invP 0 0 hf hha hasp hinv
  have hdir : (NormalRayReflect.createCameraRay Real.sqrt M invP ⟨u, v⟩).2
      = normalize Real.sqrt
          (NormalRayReflect.matmul
            ⟨M.m00, M.m01, M.m02, M.m10, M.m11, M.m12, M.m20, M.m21, M.m22⟩
            ⟨u * ha / (2 * f), v * ha * aspect / (2 * f), -1⟩) := by
    simp only [NormalRayReflect.createCameraRay, hx, hy, hz]
    congr 1
    simp only [NormalRayReflect.matmul4, NormalRayReflect.matmul]
    ext <;> simp only <;> ring
  refine ⟨rfl, hdir, fun hne => ?_, ?_⟩
  · rw [hdir]
    unfold length
    rw [dot_self_normalize _ (dot_self_pos _ hne), Real.sqrt_one]
  · simp only [NormalRayReflect.createCameraRay, hx0, hy0, hz0]
    have hq : (⟨(NormalRayReflect.matmul4 ⟨1, 0, 0, 0, 0, 1, 0, 0, 0, 0, 1, 0, 0, 0, 0, 1⟩
          ⟨0 * ha / (2 * f), 0 * ha * aspect / (2 * f), -1, 0⟩).x,
        (NormalRayReflect.matmul4 ⟨1, 0, 0, 0, 0, 1, 0, 0, 0, 0, 1, 0, 0, 0, 0, 1⟩
          ⟨0 * ha / (2 * f), 0 * ha * aspect / (2 * f), -1, 0⟩).y,
        (NormalRayReflect.matmul4 ⟨1, 0, 0, 0, 0, 1, 0, 0, 0, 0, 1, 0, 0, 0, 0, 1⟩
          ⟨0 * ha / (2 * f), 0 * ha * aspect / (2 * f), -1, 0⟩).z⟩ : float3 ℝ)
        = ⟨0, 0, -1⟩ := by
      simp only [NormalRayReflect.matmul4]
      ext <;> simp
    rw [hq]
    exact normalize_of_dot_self_eq_one _ (by simp [dot])

/-- Witness for the amended C22: identity world matrix, `f = ha = aspect = 1`, `near = 1`,
`far = 2`, the inverse of that projection, and `uv = (0, 0)`. -/
theorem camera_ray_witness :
    (NormalRayReflect.createCameraRay Real.sqrt
        ⟨1, 0, 0, 0, 0, 1, 0, 0, 0, 0, 1, 0, 0, 0, 0, 1⟩
        (⟨1 / 2, 0, 0, 0, 0, 1 / 2, 0, 0, 0, 0, 0, -1, 0, 0, -1 / 4, 3 / 4⟩ : float4x4 ℝ)
        ⟨0, 0⟩).2 = ⟨0, 0, -1⟩ :=
  (camera_ray ⟨1, 0, 0, 0, 0, 1, 0, 0, 0, 0, 1, 0, 0, 0, 0, 1⟩ 1 1 1 1 2
    ⟨1 / 2, 0, 0, 0, 0, 1 / 2, 0, 0, 0, 0, 0, -1, 0, 0, -1 / 4, 3 / 4⟩ 0 0
    one_ne_zero one_ne_zero one_ne_zero (by norm_num) (by norm_num)
    (fun x => by
      simp only [NormalRayReflect.matmul4, NormalRayReflect.projectionMatrix]
      ext <;> simp only <;> ring)).2.2.2


/-! ## Sample grid of the irradiance loops -/

/-- A float loop whose condition holds for exactly the first `n` values of its variable and
whose body always returns folds its body over those `n` values, given more than `n` units
of fuel. -/
theorem floatFor_foldl {σ : Type} (cond : ℝ → Bool) (next : ℝ → ℝ)
    (body : ℝ → σ → Option σ) (step : ℝ → σ → σ) :
    ∀ (n fuel : ℕ) (t : ℝ) (acc : σ), n < fuel →
      (∀ i, i < n → cond (next^[i] t) = true) → cond (next^[n] t) = false →
      (∀ i, i < n → ∀ a, body (next^[i] t) a = some (step (next^[i] t) a)) →
      floatFor cond next body fuel t acc
        = some ((List.range n).foldl (fun a i => step (next^[i] t) a) acc) := by
  intro n
  induction n with
  | zero =>
    intro fuel t acc hfuel _ hstop _
    obtain ⟨f, rfl⟩ : ∃ f, fuel = f + 1 := ⟨fuel - 1, by omega⟩
    have hstop0 : cond t = false := by simpa using hstop
    simp [floatFor, hstop0]
  | succ n ih =>
    intro fuel t acc hfuel hcond hstop hbody
    obtain ⟨f, rfl⟩ : ∃ f, fuel = f + 1 := ⟨fuel - 1, by omega⟩
    have hc0 : cond t = true := by simpa using hcond 0 (Nat.succ_pos n)
    have hb0 : body t acc = some (step t acc) := by simpa using hbody 0 (Nat.succ_pos n) acc
    have hrec := ih f (next t) (step t acc) (by omega)
      (fun i hi => by simpa [Function.iterate_succ_apply] using hcond (i + 1) (by omega))
      (by simpa [Function.iterate_succ_apply] using hstop)
      (fun i hi a => by
        simpa [Function.iterate_succ_apply] using hbody (i + 1) (by omega) a)
    rw [floatFor, if_pos hc0, hb0, Option.some_bind, hrec, List.range_succ_eq_map,
      List.foldl_cons, List.foldl_map]
    simp only [Function.iterate_succ_apply, Function.iterate_zero, id_eq]


/-! ## Lemmas on the binary32 rounding -/

section RoundingLemmas

open Binary32

variable {α : Type} [LinearOrderedField α] [FloorRing α]

/-- The rounded integer is at least the floor. -/
theorem roundEven_floor_le (q : α) : ⌊q⌋ ≤ roundEven q := by
  unfold roundEven
  split_ifs <;> omega

/-- The rounded integer is at most the floor plus one. -/
theorem roundEven_le_floor_add_one (q : α) : roundEven q ≤ ⌊q⌋ + 1 := by
  unfold roundEven
  split_ifs <;> omega

/-- Rounding to an integer goes up by at most one half. -/
theorem roundEven_sub_le (q : α) : (roundEven q : α) - q ≤ 1 / 2 := by
  have h1 := Int.floor_le q
  have h2 := Int.lt_floor_add_one q
  unfold roundEven
  split_ifs with a b c
  · linarith
  · push_cast; linarith
  · linarith
  · push_cast
    have : q - (⌊q⌋ : α) = 1 / 2 := le_antisymm (not_lt.1 b) (not_lt.1 a)
    linarith

/-- Rounding to an integer goes down by at most one half. -/
theorem sub_roundEven_le (q : α) : q - (roundEven q : α) ≤ 1 / 2 := by
  have h1 := Int.floor_le q
  have h2 := Int.lt_floor_add_one q
  unfold roundEven
  split_ifs with a b c
  · linarith
  · push_cast; linarith
  · have : q - (⌊q⌋ : α) = 1 / 2 := le_antisymm (not_lt.1 b) (not_lt.1 a)
    linarith
  · push_cast
    linarith

/-- An integer is rounded to itself. -/
theorem roundEven_intCast (n : ℤ) : roundEven (n : α) = n := by
  unfold roundEven
  rw [Int.floor_intCast, sub_self, if_pos (by norm_num)]

/-- Rounding to an integer is monotone. -/
theorem roundEven_mono {p q : α} (h : p ≤ q) : roundEven p ≤ roundEven q := by
  rcases lt_or_eq_of_le (Int.floor_mono h) with hlt | heq
  · have := roundEven_le_floor_add_one p
    have := roundEven_floor_le q
    omega
  · unfold roundEven
    rw [heq]
    have hfr : p - (⌊q⌋ : α) ≤ q - (⌊q⌋ : α) := by linarith
    split_ifs <;> first | omega | (exfalso; linarith)


/-- The spacing is positive. -/
theorem ulp_pos (x : α) : 0 < ulp x := by
  unfold ulp
  positivity

/-- The exponent is at least `-126`. -/
theorem exponent_ge (x : α) : -126 ≤ exponent x := le_max_right _ _

/-- A bound on the magnitude bounds the exponent. -/
theorem exponent_le_of_abs_lt (x : α) (e : ℤ) (hx : x ≠ 0) (he : -126 ≤ e)
    (h : |x| < 2 ^ (e + 1)) : exponent x ≤ e := by
  unfold exponent
  refine max_le ?_ he
  have := (Int.lt_zpow_iff_log_lt (by norm_num : 1 < 2) (abs_pos.2 hx)).1
    (by simpa using h : |x| < ((2 : ℕ) : α) ^ (e + 1))
  omega

/-- In the normal range the exponent is the binary logarithm. -/
theorem exponent_eq_of_abs (x : α) (e : ℤ) (he : -126 ≤ e) (h1 : 2 ^ e ≤ |x|)
    (h2 : |x| < 2 ^ (e + 1)) : exponent x = e := by
  have hpos : 0 < |x| := lt_of_lt_of_le (by positivity) h1
  have hl : Int.log 2 |x| = e := by
    apply le_antisymm
    · have := (Int.lt_zpow_iff_log_lt (by norm_num : 1 < 2) hpos).1
        (by simpa using h2 : |x| < ((2 : ℕ) : α) ^ (e + 1))
      omega
    · exact (Int.zpow_le_iff_le_log (by norm_num : 1 < 2) hpos).1 (by simpa using h1)
  unfold exponent
  rw [hl]
  exact max_eq_left he

/-- Below the normal range the exponent is the least one. -/
theorem exponent_eq_of_abs_lt (x : α) (hx : x ≠ 0) (h : |x| < 2 ^ (-125 : ℤ)) :
    exponent x = -126 :=
  le_antisymm (exponent_le_of_abs_lt x (-126) hx (le_refl _) (by simpa using h))
    (exponent_ge x)

/-- Zero is rounded to zero. -/
theorem roundToFloat_zero : roundToFloat (0 : α) = 0 := by
  unfold roundToFloat
  rw [zero_div]
  have := roundEven_intCast (α := α) 0
  simp only [Int.cast_zero] at this
  rw [this]
  simp

/-- The rounding error is at most half a unit in the last place. -/
theorem abs_roundToFloat_sub_le (x : α) : |roundToFloat x - x| ≤ ulp x / 2 := by
  have hu := ulp_pos x
  have h1 := roundEven_sub_le (x / ulp x)
  have h2 := sub_roundEven_le (x / ulp x)
  have e : roundToFloat x - x = ((roundEven (x / ulp x) : α) - x / ulp x) * ulp x := by
    unfold roundToFloat
    field_simp
  rw [e, abs_le]
  constructor
  · nlinarith
  · nlinarith

/-- The absolute rounding error of a value of magnitude below `2 ^ (e + 1)`. -/
theorem abs_roundToFloat_sub_le_of_abs_lt (x : α) (e : ℤ) (he : -126 ≤ e)
    (h : |x| < 2 ^ (e + 1)) : |roundToFloat x - x| ≤ 2 ^ (e - 24) := by
  rcases eq_or_ne x 0 with h0 | hx
  · rw [h0, roundToFloat_zero, sub_zero, abs_zero]
    positivity
  have h1 := abs_roundToFloat_sub_le x
  have h2 : ulp x ≤ 2 ^ (e - 23) := by
    unfold ulp
    exact zpow_le_zpow_right₀ (by norm_num)
      (by have := exponent_le_of_abs_lt x e hx he h; omega)
  have h3 : (2 : α) ^ (e - 23) = 2 * 2 ^ (e - 24) := by
    rw [show e - 23 = 1 + (e - 24) by ring, zpow_add₀ (by norm_num), zpow_one]
  linarith


/-- The relative rounding error of a value in the normal range. -/
theorem abs_roundToFloat_sub_le_mul (x : α) (h : 2 ^ (-126 : ℤ) ≤ |x|) :
    |roundToFloat x - x| ≤ 2 ^ (-24 : ℤ) * |x| := by
  have hpos : 0 < |x| := lt_of_lt_of_le (by positivity) h
  have hlog : (-126 : ℤ) ≤ Int.log 2 |x| :=
    (Int.zpow_le_iff_le_log (by norm_num : 1 < 2) hpos).1 (by simpa using h)
  have hexp : exponent x = Int.log 2 |x| := max_eq_left hlog
  have h1 := abs_roundToFloat_sub_le x
  have h2 : (2 : α) ^ Int.log 2 |x| ≤ |x| := by
    simpa using Int.zpow_log_le_self (b := 2) (by norm_num) hpos
  have h3 : ulp x = 2 ^ (-23 : ℤ) * 2 ^ Int.log 2 |x| := by
    unfold ulp
    rw [hexp, show Int.log 2 |x| - 23 = -23 + Int.log 2 |x| by ring, zpow_add₀ (by norm_num)]
  have h4 : (2 : α) ^ (-23 : ℤ) = 2 * 2 ^ (-24 : ℤ) := by norm_num
  have h5 : (0 : α) < 2 ^ (-24 : ℤ) := by positivity
  rw [h3, h4, show 2 * (2 : α) ^ (-24 : ℤ) * 2 ^ Int.log 2 |x| / 2
    = 2 ^ (-24 : ℤ) * 2 ^ Int.log 2 |x| by ring] at h1
  exact h1.trans (mul_le_mul_of_nonneg_left h2 h5.le)

/-- `2 ^ 24` spacings make up the next power of two. -/
theorem two_pow24_mul_zpow (e : ℤ) : ((2 ^ 24 : ℤ) : α) * 2 ^ (e - 23) = 2 ^ (e + 1) := by
  have h : ((2 ^ 24 : ℤ) : α) = (2 : α) ^ (24 : ℤ) := by norm_num
  rw [h, ← zpow_add₀ (by norm_num)]
  congr 1
  ring

/-- `2 ^ 23` spacings make up the power of two of the binade. -/
theorem two_pow23_mul_zpow (e : ℤ) : ((2 ^ 23 : ℤ) : α) * 2 ^ (e - 23) = 2 ^ e := by
  have h : ((2 ^ 23 : ℤ) : α) = (2 : α) ^ (23 : ℤ) := by norm_num
  rw [h, ← zpow_add₀ (by norm_num)]
  congr 1
  ring

/-- Rounding keeps the sign of a non-negative value. -/
theorem roundToFloat_nonneg {x : α} (h : 0 ≤ x) : 0 ≤ roundToFloat x := by
  unfold roundToFloat
  have hq : (0 : α) ≤ x / ulp x := div_nonneg h (ulp_pos x).le
  have := roundEven_mono hq
  rw [show (0 : α) = ((0 : ℤ) : α) by simp, roundEven_intCast] at this
  have h0 : (0 : α) ≤ (roundEven (x / ulp x) : α) := by exact_mod_cast this
  exact mul_nonneg h0 (ulp_pos x).le

/-- Rounding keeps the sign of a non-positive value. -/
theorem roundToFloat_nonpos {x : α} (h : x ≤ 0) : roundToFloat x ≤ 0 := by
  unfold roundToFloat
  have hq : x / ulp x ≤ (0 : α) := div_nonpos_of_nonpos_of_nonneg h (ulp_pos x).le
  have := roundEven_mono hq
  rw [show (0 : α) = ((0 : ℤ) : α) by simp, roundEven_intCast] at this
  have h0 : (roundEven (x / ulp x) : α) ≤ 0 := by exact_mod_cast this
  exact mul_nonpos_of_nonpos_of_nonneg h0 (ulp_pos x).le

/-- Rounding is monotone on the non-negative values. -/
theorem roundToFloat_mono_of_nonneg {x y : α} (hx : 0 ≤ x) (h : x ≤ y) :
    roundToFloat x ≤ roundToFloat y := by
  rcases eq_or_lt_of_le hx with h0 | hxpos
  · rw [← h0, roundToFloat_zero]
    exact roundToFloat_nonneg (le_trans hx h)
  have hypos : 0 < y := lt_of_lt_of_le hxpos h
  have hax : |x| = x := abs_of_pos hxpos
  have hay : |y| = y := abs_of_pos hypos
  have hlog : Int.log 2 |x| ≤ Int.log 2 |y| := by
    rw [hax, hay]
    exact Int.log_mono_right hxpos h
  have hexp : exponent x ≤ exponent y := max_le_max hlog (le_refl _)
  rcases eq_or_lt_of_le hexp with heq | hlt
  · have hu : ulp x = ulp y := by
      unfold ulp
      rw [heq]
    unfold roundToFloat
    rw [hu]
    have hq : x / ulp y ≤ y / ulp y := div_le_div_of_nonneg_right h (ulp_pos y).le
    have := roundEven_mono hq
    have hc : (roundEven (x / ulp y) : α) ≤ (roundEven (y / ulp y) : α) := by exact_mod_cast this
    exact mul_le_mul_of_nonneg_right hc (ulp_pos y).le
  · -- different binades: a power of two separates the two rounded values
    have hx2 : x < 2 ^ (exponent x + 1) := by
      have h1 : x < (2 : α) ^ (Int.log 2 |x| + 1) := by
        have := Int.lt_zpow_succ_log_self (b := 2) (by norm_num) |x|
        rw [hax] at this ⊢
        simpa using this
      refine lt_of_lt_of_le h1 (zpow_le_zpow_right₀ (by norm_num) ?_)
      have : Int.log 2 |x| ≤ exponent x := le_max_left _ _
      omega
    have hrx : roundToFloat x ≤ 2 ^ (exponent x + 1) := by
      unfold roundToFloat
      have hq : x / ulp x ≤ ((2 ^ 24 : ℤ) : α) := by
        rw [div_le_iff₀ (ulp_pos x)]
        unfold ulp
        rw [two_pow24_mul_zpow]
        exact hx2.le
      have := roundEven_mono hq
      rw [roundEven_intCast] at this
      have hc : (roundEven (x / ulp x) : α) ≤ ((2 ^ 24 : ℤ) : α) := by exact_mod_cast this
      calc (roundEven (x / ulp x) : α) * ulp x ≤ ((2 ^ 24 : ℤ) : α) * ulp x :=
            mul_le_mul_of_nonneg_right hc (ulp_pos x).le
        _ = 2 ^ (exponent x + 1) := by
            unfold ulp
            rw [two_pow24_mul_zpow]
    have hylog : exponent y = Int.log 2 |y| := by
      unfold exponent at hlt ⊢
      have := exponent_ge x
      unfold exponent at this
      apply max_eq_left
      by_contra hc
      rw [max_eq_right (not_le.1 hc).le] at hlt
      omega
    have hy2 : (2 : α) ^ exponent y ≤ y := by
      rw [hylog]
      have := Int.zpow_log_le_self (b := 2) (by norm_num) (abs_pos.2 hypos.ne')
      rw [hay] at this ⊢
      simpa using this
    have hry : 2 ^ exponent y ≤ roundToFloat y := by
      unfold roundToFloat
      have hq : ((2 ^ 23 : ℤ) : α) ≤ y / ulp y := by
        rw [le_div_iff₀ (ulp_pos y)]
        unfold ulp
        rw [two_pow23_mul_zpow]
        exact hy2
      have := roundEven_mono hq
      rw [roundEven_intCast] at this
      have hc : ((2 ^ 23 : ℤ) : α) ≤ (roundEven (y / ulp y) : α) := by exact_mod_cast this
      calc (2 : α) ^ exponent y = ((2 ^ 23 : ℤ) : α) * ulp y := by
            unfold ulp
            rw [two_pow23_mul_zpow]
        _ ≤ (roundEven (y / ulp y) : α) * ulp y :=
            mul_le_mul_of_nonneg_right hc (ulp_pos y).le
    have hpow : (2 : α) ^ (exponent x + 1) ≤ 2 ^ exponent y :=
      zpow_le_zpow_right₀ (by norm_num) (by omega)
    linarith


/-- The rounded integer is nearest, and even when two integers are equally near. -/
theorem roundEven_spec (q : α) :
    |q - (roundEven q : α)| < 1 / 2
      ∨ (|q - (roundEven q : α)| = 1 / 2 ∧ roundEven q % 2 = 0) := by
  have h1 := Int.floor_le q
  have h2 := Int.lt_floor_add_one q
  unfold roundEven
  split_ifs with a b c
  · left
    rw [abs_lt]
    constructor <;> linarith
  · left
    push_cast
    rw [abs_lt]
    constructor <;> linarith
  · right
    have e : q - (⌊q⌋ : α) = 1 / 2 := le_antisymm (not_lt.1 b) (not_lt.1 a)
    refine ⟨?_, c⟩
    rw [e]
    exact abs_of_pos (by norm_num)
  · right
    have e : q - (⌊q⌋ : α) = 1 / 2 := le_antisymm (not_lt.1 b) (not_lt.1 a)
    refine ⟨?_, by omega⟩
    push_cast
    rw [show q - ((⌊q⌋ : α) + 1) = -(1 / 2) by linarith, abs_neg]
    exact abs_of_pos (by norm_num)

/-- An integer that is nearest, and even in a tie, is the rounded one. -/
theorem roundEven_unique (q : α) (m : ℤ)
    (h : |q - (m : α)| < 1 / 2 ∨ (|q - (m : α)| = 1 / 2 ∧ m % 2 = 0)) :
    roundEven q = m := by
  have hs := roundEven_spec q
  have hd : |((roundEven q - m : ℤ) : α)| ≤ |q - (m : α)| + |q - (roundEven q : α)| := by
    have e : ((roundEven q - m : ℤ) : α) = (q - (m : α)) - (q - (roundEven q : α)) := by
      push_cast
      ring
    rw [e]
    exact abs_sub _ _
  by_contra hne
  have h1 : (1 : α) ≤ |((roundEven q - m : ℤ) : α)| := by
    have : (1 : ℤ) ≤ |roundEven q - m| := Int.one_le_abs (sub_ne_zero.2 hne)
    have h' : ((1 : ℤ) : α) ≤ ((|roundEven q - m| : ℤ) : α) := by exact_mod_cast this
    simpa using h'
  rcases h with h | ⟨h, hm⟩
  · rcases hs with hs | ⟨hs, _⟩ <;> linarith
  · rcases hs with hs | ⟨hs, hr⟩
    · linarith
    · have h2 : |((roundEven q - m : ℤ) : α)| ≤ 1 := by linarith
      have h3 : |roundEven q - m| ≤ 1 := by
        have : ((|roundEven q - m| : ℤ) : α) ≤ ((1 : ℤ) : α) := by simpa using h2
        exact_mod_cast this
      have h4 : (1 : ℤ) ≤ |roundEven q - m| := Int.one_le_abs (sub_ne_zero.2 hne)
      have h5 : |roundEven q - m| = 1 := le_antisymm h3 h4
      rcases abs_eq (by norm_num : (0 : ℤ) ≤ 1) |>.1 h5 with h6 | h6 <;> omega

/-- Rounding to even commutes with negation. -/
theorem roundEven_neg (q : α) : roundEven (-q) = -roundEven q := by
  apply roundEven_unique
  rcases roundEven_spec q with h | ⟨h, hr⟩
  · left
    push_cast
    rw [show -q - -(roundEven q : α) = -(q - (roundEven q : α)) by ring, abs_neg]
    exact h
  · right
    refine ⟨?_, by omega⟩
    push_cast
    rw [show -q - -(roundEven q : α) = -(q - (roundEven q : α)) by ring, abs_neg]
    exact h

/-- Rounding commutes with negation. -/
theorem roundToFloat_neg (x : α) : roundToFloat (-x) = -roundToFloat x := by
  have hu : ulp (-x) = ulp x := by
    unfold ulp exponent
    rw [abs_neg]
  unfold roundToFloat
  rw [hu, neg_div, roundEven_neg]
  push_cast
  ring

/-- Rounding is monotone. -/
theorem roundToFloat_mono {x y : α} (h : x ≤ y) : roundToFloat x ≤ roundToFloat y := by
  rcases le_total 0 x with hx | hx
  · exact roundToFloat_mono_of_nonneg hx h
  · rcases le_total 0 y with hy | hy
    · exact le_trans (roundToFloat_nonpos hx) (roundToFloat_nonneg hy)
    · have := roundToFloat_mono_of_nonneg (neg_nonneg.2 hy) (neg_le_neg h)
      rw [roundToFloat_neg, roundToFloat_neg] at this
      linarith

/-- A value with a known binade is rounded on the grid of that binade. -/
theorem roundToFloat_eq (x : α) (e m : ℤ) (he : -126 ≤ e) (h1 : e = -126 ∨ 2 ^ e ≤ |x|)
    (h2 : |x| < 2 ^ (e + 1))
    (h3 : |x - (m : α) * 2 ^ (e - 23)| < 2 ^ (e - 24)
      ∨ (|x - (m : α) * 2 ^ (e - 23)| = 2 ^ (e - 24) ∧ m % 2 = 0)) :
    roundToFloat x = (m : α) * 2 ^ (e - 23) := by
  rcases eq_or_ne x 0 with h0 | hx
  · have hu : (0 : α) < 2 ^ (e - 23) := by positivity
    have hh : (2 : α) ^ (e - 23) = 2 * 2 ^ (e - 24) := by
      rw [show e - 23 = 1 + (e - 24) by ring, zpow_add₀ (by norm_num), zpow_one]
    have hv : (0 : α) < 2 ^ (e - 24) := by positivity
    rw [h0, roundToFloat_zero]
    rw [h0, zero_sub, abs_neg] at h3
    have hm : m = 0 := by
      by_contra hne
      have h4 : (1 : ℤ) ≤ |m| := Int.one_le_abs hne
      have h5 : ((1 : ℤ) : α) ≤ ((|m| : ℤ) : α) := by exact_mod_cast h4
      rw [Int.cast_abs] at h5
      have h6 : |(m : α) * 2 ^ (e - 23)| = |(m : α)| * 2 ^ (e - 23) := by
        rw [abs_mul, abs_of_pos hu]
      rw [h6, hh] at h3
      push_cast at h5
      rcases h3 with h3 | ⟨h3, _⟩ <;> nlinarith
    rw [hm]
    simp
  have hexp : exponent x = e := by
    rcases h1 with h1 | h1
    · rw [h1] at h2 ⊢
      exact exponent_eq_of_abs_lt x hx (by simpa using h2)
    · exact exponent_eq_of_abs x e he h1 h2
  have hu : (0 : α) < 2 ^ (e - 23) := by positivity
  have hh : (2 : α) ^ (e - 24) = 2 ^ (e - 23) * (1 / 2) := by
    rw [show e - 23 = (e - 24) + 1 by ring, zpow_add₀ (by norm_num), zpow_one]
    ring
  have hq : x / 2 ^ (e - 23) - (m : α) = (x - (m : α) * 2 ^ (e - 23)) / 2 ^ (e - 23) := by
    field_simp
    ring
  have hre : roundEven (x / 2 ^ (e - 23)) = m := by
    apply roundEven_unique
    rw [hq, abs_div, abs_of_pos hu]
    rw [hh] at h3
    rcases h3 with h3 | ⟨h3, hm⟩
    · left
      rw [div_lt_iff₀ hu]
      linarith
    · right
      refine ⟨?_, hm⟩
      rw [div_eq_iff hu.ne']
      linarith
  unfold roundToFloat ulp
  rw [hexp, hre]

end RoundingLemmas

section FloatEval
open Binary32
variable {α : Type} [LinearOrderedField α] [FloorRing α]

/-- Evaluation of the rounding at a positive value: `m` is the nearest multiple of the
spacing of the binade `[2 ^ e, 2 ^ (e + 1))`, and even when `x` is half-way. -/
theorem roundToFloat_eq_of_pos (x : α) (e m : ℤ) (he : -126 ≤ e) (hx : 0 < x)
    (h1 : e = -126 ∨ 2 ^ e ≤ x) (h2 : x < 2 ^ (e + 1))
    (h3 : ((m : α) * 2 ^ (e - 23) - 2 ^ (e - 24) < x ∧ x < (m : α) * 2 ^ (e - 23) + 2 ^ (e - 24))
      ∨ ((x = (m : α) * 2 ^ (e - 23) + 2 ^ (e - 24) ∨ x = (m : α) * 2 ^ (e - 23) - 2 ^ (e - 24))
          ∧ m % 2 = 0)) :
    roundToFloat x = (m : α) * 2 ^ (e - 23) := by
  have hv : (0 : α) < 2 ^ (e - 24) := by positivity
  apply roundToFloat_eq x e m he
  · rw [abs_of_pos hx]
    exact h1
  · rw [abs_of_pos hx]
    exact h2
  · rcases h3 with ⟨a, b⟩ | ⟨a | a, hm⟩
    · left
      rw [abs_lt]
      constructor <;> linarith
    · right
      refine ⟨?_, hm⟩
      rw [a, add_sub_cancel_left, abs_of_pos hv]
    · right
      refine ⟨?_, hm⟩
      rw [a, show (m : α) * 2 ^ (e - 23) - 2 ^ (e - 24) - (m : α) * 2 ^ (e - 23)
        = -(2 ^ (e - 24)) by ring, abs_neg, abs_of_pos hv]

/-- One is a binary32 number. -/
theorem roundToFloat_one : roundToFloat (1 : α) = 1 := by
  have := roundToFloat_eq_of_pos (1 : α) 0 (2 ^ 23) (by norm_num) (by norm_num)
    (Or.inr (by norm_num)) (by norm_num) (Or.inl (by norm_num))
  rw [this]
  norm_num

/-- C `fmod` leaves a value of smaller magnitude than the modulus unchanged. -/
theorem fmod_of_abs_lt (x y : α) (hy : 0 < y) (h : |x| < y) : fmod x y = x := by
  have hq : |x / y| < 1 := by
    rw [abs_div, abs_of_pos hy, div_lt_one hy]
    exact h
  rw [abs_lt] at hq
  have ht : truncQuot (x / y) = 0 := by
    unfold truncQuot
    split_ifs with h0
    · rw [Int.floor_eq_iff]
      constructor
      · simpa using h0
      · simpa using hq.2
    · rw [Int.ceil_eq_iff]
      constructor
      · simpa using hq.1
      · simpa using (not_le.1 h0).le
  unfold fmod
  rw [ht]
  simp

/-- C `fmod` of a positive value by itself is zero. -/
theorem fmod_self (y : α) (hy : 0 < y) : fmod y y = 0 := by
  have ht : truncQuot (y / y) = 1 := by
    unfold truncQuot
    rw [div_self hy.ne', if_pos zero_le_one]
    simp
  unfold fmod
  rw [ht]
  simp

end FloatEval

/-! ## `normalizeAngles` in binary32 arithmetic -/

/-- Twice the binary32 `PI` is a binary32 number. -/
theorem fmul_two_pi : Binary32.fmul 2 (Binary32.pi : ℝ) = 2 * Binary32.pi := by
  unfold Binary32.fmul Binary32.pi
  have := roundToFloat_eq_of_pos (2 * (13176795 / 4194304) : ℝ) 2 13176795 (by norm_num)
    (by norm_num) (Or.inr (by norm_num)) (by norm_num) (Or.inl (by norm_num))
  rw [this]
  norm_num

/-- The binary32 `PI` is a binary32 number. -/
theorem roundToFloat_pi : Binary32.roundToFloat (Binary32.pi : ℝ) = Binary32.pi := by
  unfold Binary32.pi
  have := roundToFloat_eq_of_pos (13176795 / 4194304 : ℝ) 1 13176795 (by norm_num)
    (by norm_num) (Or.inr (by norm_num)) (by norm_num) (Or.inl (by norm_num))
  rw [this]
  norm_num

/-- In binary32 arithmetic `normalizeAngles` maps `(-2^-40, -2^-40)` to `(2 * PI, PI)`, and
`(2 * PI, PI)` to `(0, 0)`. -/
theorem normalizeAngles_float_eval :
    Binary32.normalizeAngles (Binary32.pi : ℝ) ⟨-(1 / 2 ^ 40), -(1 / 2 ^ 40)⟩
      = ⟨2 * Binary32.pi, Binary32.pi⟩ ∧
    Binary32.normalizeAngles (Binary32.pi : ℝ) ⟨2 * Binary32.pi, Binary32.pi⟩ = ⟨0, 0⟩ := by
  have hpi : (0 : ℝ) < Binary32.pi := by
    unfold Binary32.pi
    norm_num
  have h1 : fmod (-(1 / 2 ^ 40) : ℝ) (2 * Binary32.pi) = -(1 / 2 ^ 40) := by
    apply fmod_of_abs_lt _ _ (by linarith)
    unfold Binary32.pi
    rw [abs_neg, abs_of_pos (by norm_num)]
    norm_num
  have h2 : fmod (-(1 / 2 ^ 40) : ℝ) Binary32.pi = -(1 / 2 ^ 40) := by
    apply fmod_of_abs_lt _ _ hpi
    unfold Binary32.pi
    rw [abs_neg, abs_of_pos (by norm_num)]
    norm_num
  have h3 : Binary32.roundToFloat (-(1 / 2 ^ 40) + 2 * Binary32.pi : ℝ) = 2 * Binary32.pi := by
    unfold Binary32.pi
    have := roundToFloat_eq_of_pos (-(1 / 2 ^ 40) + 2 * (13176795 / 4194304) : ℝ) 2 13176795
      (by norm_num) (by norm_num) (Or.inr (by norm_num)) (by norm_num)
      (Or.inl (by constructor <;> norm_num))
    rw [this]
    norm_num
  have h4 : Binary32.roundToFloat (-(1 / 2 ^ 40) + Binary32.pi : ℝ) = Binary32.pi := by
    unfold Binary32.pi
    have := roundToFloat_eq_of_pos (-(1 / 2 ^ 40) + 13176795 / 4194304 : ℝ) 1 13176795
      (by norm_num) (by norm_num) (Or.inr (by norm_num)) (by norm_num)
      (Or.inl (by constructor <;> norm_num))
    rw [this]
    norm_num
  have h5 : Binary32.roundToFloat (2 * Binary32.pi : ℝ) = 2 * Binary32.pi := fmul_two_pi
  have hneg : (-(1 / 2 ^ 40) : ℝ) < 0 := by norm_num
  constructor
  · simp only [Binary32.normalizeAngles, fmul_two_pi, h1, h2, hneg, decide_True, boolToScalar,
      if_true, Binary32.fmul, Binary32.fadd, mul_one, h5, roundToFloat_pi, h3, h4]
  · simp only [Binary32.normalizeAngles, fmul_two_pi, fmod_self _ hpi,
      fmod_self _ (by linarith : (0 : ℝ) < 2 * Binary32.pi), lt_irrefl, decide_False,
      boolToScalar, Bool.false_eq_true, if_false, Binary32.fmul, Binary32.fadd, mul_zero,
      roundToFloat_zero, add_zero, h5]

/-- C1, evaluation at the failing input: in binary32 arithmetic
`normalizeAngles(-2^-40, -2^-40)` is exactly `(2 * PI, PI)`, the excluded right ends of the
documented ranges `[0, 2 * PI)` and `[0, PI)`. -/
theorem normalizeAngles_float_boundary :
    Binary32.normalizeAngles (Binary32.pi : ℝ) ⟨-(1 / 2 ^ 40), -(1 / 2 ^ 40)⟩
      = ⟨2 * Binary32.pi, Binary32.pi⟩ ∧
    ¬ ((Binary32.normalizeAngles (Binary32.pi : ℝ) ⟨-(1 / 2 ^ 40), -(1 / 2 ^ 40)⟩).x
        < 2 * Binary32.pi) ∧
    ¬ ((Binary32.normalizeAngles (Binary32.pi : ℝ) ⟨-(1 / 2 ^ 40), -(1 / 2 ^ 40)⟩).y
        < Binary32.pi) := by
  rw [normalizeAngles_float_eval.1]
  exact ⟨rfl, lt_irrefl _, lt_irrefl _⟩

/-- C2, evaluation at the failing input: in binary32 arithmetic a second application of
`normalizeAngles` to the image `(2 * PI, PI)` of `(-2^-40, -2^-40)` gives `(0, 0)`, so the
function is not idempotent there. -/
theorem normalizeAngles_float_not_idempotent :
    Binary32.normalizeAngles (Binary32.pi : ℝ)
        (Binary32.normalizeAngles Binary32.pi ⟨-(1 / 2 ^ 40), -(1 / 2 ^ 40)⟩) = ⟨0, 0⟩ ∧
    Binary32.normalizeAngles (Binary32.pi : ℝ)
        (Binary32.normalizeAngles Binary32.pi ⟨-(1 / 2 ^ 40), -(1 / 2 ^ 40)⟩)
      ≠ Binary32.normalizeAngles Binary32.pi ⟨-(1 / 2 ^ 40), -(1 / 2 ^ 40)⟩ := by
  rw [normalizeAngles_float_eval.1, normalizeAngles_float_eval.2]
  refine ⟨rfl, fun h => ?_⟩
  have := congrArg float2.y h
  simp only [Binary32.pi] at this
  norm_num at this

/-! ## `random` in binary32 arithmetic -/

/-- The literal `91.3458f`. -/
theorem roundToFloat_c1 : Binary32.roundToFloat (91.3458 : ℝ) = 11972877 / 131072 := by
  have := roundToFloat_eq_of_pos (91.3458 : ℝ) 6 11972877 (by norm_num) (by norm_num)
    (Or.inr (by norm_num)) (by norm_num) (Or.inl (by constructor <;> norm_num))
  rw [this]
  norm_num

/-- The literal `47453.5453f`. -/
theorem roundToFloat_c2 : Binary32.roundToFloat (47453.5453 : ℝ) = 3037027 / 64 := by
  have := roundToFloat_eq_of_pos (47453.5453 : ℝ) 15 12148108 (by norm_num) (by norm_num)
    (Or.inr (by norm_num)) (by norm_num) (Or.inl (by constructor <;> norm_num))
  rw [this]
  norm_num

/-- The correctly rounded sine takes values in `[-1, 1]`. -/
theorem abs_roundToFloat_sin_le_one (x : ℝ) : |Binary32.roundToFloat (Real.sin x)| ≤ 1 := by
  rw [abs_le]
  constructor
  · have := roundToFloat_mono (Real.neg_one_le_sin x)
    rw [roundToFloat_neg, roundToFloat_one] at this
    exact this
  · have := roundToFloat_mono (Real.sin_le_one x)
    rw [roundToFloat_one] at this
    exact this

/-- In binary32 arithmetic `fract` takes values in the closed interval `[0, 1]`. -/
theorem fract_float_range (value : ℝ) :
    0 ≤ Binary32.fract value ∧ Binary32.fract value ≤ 1 := by
  have h0 : (0 : ℝ) ≤ value - (⌊value⌋ : ℝ) := by linarith [Int.floor_le value]
  have h1 : value - (⌊value⌋ : ℝ) ≤ 1 := by linarith [Int.lt_floor_add_one value]
  unfold Binary32.fract Binary32.fsub
  constructor
  · exact roundToFloat_nonneg h0
  · have := roundToFloat_mono h1
    rw [roundToFloat_one] at this
    exact this

/-- In binary32 arithmetic `fract` is exactly `1` on `(-2^-25, 0)`. -/
theorem fract_float_eq_one (value : ℝ) (h0 : -(1 / 2 ^ 25) < value) (h1 : value < 0) :
    Binary32.fract value = 1 := by
  have hf : ⌊value⌋ = -1 := by
    rw [Int.floor_eq_iff]
    constructor
    · push_cast
      have : (1 : ℝ) / 2 ^ 25 < 1 := by norm_num
      linarith
    · push_cast
      linarith
  unfold Binary32.fract Binary32.fsub
  rw [hf]
  push_cast
  have := roundToFloat_eq_of_pos (value - -1) (-1) (2 ^ 24) (by norm_num)
    (by have : (1 : ℝ) / 2 ^ 25 < 1 := by norm_num
        linarith)
    (Or.inr (by have : (1 : ℝ) / 2 ^ 25 < 1 / 2 := by norm_num
                norm_num
                linarith))
    (by norm_num
        linarith)
    (Or.inl (by constructor <;> norm_num <;> linarith))
  rw [this]
  norm_num

/-- C13, the claim as stated fails: in binary32 arithmetic, with the correctly rounded sine,
`random(-2^-60)` is exactly `1`, which is not in `[0, 1)`. -/
theorem random_range_counterexample :
    Binary32.random (fun x => Binary32.roundToFloat (Real.sin x)) (-(1 / 2 ^ 60) : ℝ) = 1 ∧
    ¬ (Binary32.random (fun x => Binary32.roundToFloat (Real.sin x)) (-(1 / 2 ^ 60) : ℝ)
        < 1) := by
  have hx0 : (0 : ℝ) < 11972877 / 2 ^ 77 := by positivity
  -- the product `seed * 91.3458f` is exact
  have h1 : Binary32.roundToFloat (-(1 / 2 ^ 60) * (11972877 / 131072) : ℝ)
      = -(11972877 / 2 ^ 77) := by
    rw [show (-(1 / 2 ^ 60) * (11972877 / 131072) : ℝ) = -(11972877 / 2 ^ 77) by norm_num,
      roundToFloat_neg]
    have := roundToFloat_eq_of_pos (11972877 / 2 ^ 77 : ℝ) (-54) 11972877 (by norm_num)
      (by norm_num) (Or.inr (by norm_num)) (by norm_num) (Or.inl (by constructor <;> norm_num))
    rw [this]
    norm_num
  -- the sine of so small an argument rounds to the argument
  have hs1 : Real.sin (11972877 / 2 ^ 77) < 11972877 / 2 ^ 77 := Real.sin_lt hx0
  have hs2 : (11972877 / 2 ^ 77 : ℝ) - (11972877 / 2 ^ 77) ^ 3 / 4
      < Real.sin (11972877 / 2 ^ 77) := Real.sin_gt_sub_cube hx0 (by norm_num)
  have h2 : Binary32.roundToFloat (Real.sin (-(11972877 / 2 ^ 77)))
      = -(11972877 / 2 ^ 77) := by
    rw [Real.sin_neg, roundToFloat_neg]
    have := roundToFloat_eq_of_pos (Real.sin (11972877 / 2 ^ 77)) (-54) 11972877
      (by norm_num) (by norm_num at hs2 ⊢; linarith)
      (Or.inr (by norm_num at hs2 ⊢; linarith)) (by norm_num at hs1 ⊢; linarith)
      (Or.inl (by constructor <;> norm_num at hs1 hs2 ⊢ <;> linarith))
    rw [this]
    norm_num
  -- the product with `47453.5453f`
  have h3 : Binary32.roundToFloat (-(11972877 / 2 ^ 77) * (3037027 / 64) : ℝ)
      = -(8669365 / 2 ^ 61) := by
    rw [show (-(11972877 / 2 ^ 77) * (3037027 / 64) : ℝ)
      = -(11972877 / 2 ^ 77 * (3037027 / 64)) by ring, roundToFloat_neg]
    have := roundToFloat_eq_of_pos (11972877 / 2 ^ 77 * (3037027 / 64) : ℝ) (-38) 8669365
      (by norm_num) (by norm_num) (Or.inr (by norm_num)) (by norm_num)
      (Or.inl (by constructor <;> norm_num))
    rw [this]
    norm_num
  have h4 : Binary32.random (fun x => Binary32.roundToFloat (Real.sin x)) (-(1 / 2 ^ 60) : ℝ)
      = 1 := by
    unfold Binary32.random Binary32.fmul
    simp only [roundToFloat_c1, roundToFloat_c2, h1, h2, h3]
    exact fract_float_eq_one _ (by norm_num) (by norm_num)
  rw [h4]
  exact ⟨rfl, lt_irrefl _⟩

/-- C13 as amended: for every seed of magnitude at most `2 ^ 120` and every sine with values
in `[-1, 1]`, the two products in `random` stay below `2 ^ 128` in magnitude (they are finite
binary32 numbers) and `random(seed)` lies in the closed interval `[0, 1]`. -/
theorem random_range_float (sin : ℝ → ℝ) (seed : ℝ) (hseed : |seed| ≤ 2 ^ 120)
    (hsin : ∀ x, |sin x| ≤ 1) :
    |Binary32.fmul seed (Binary32.roundToFloat 91.3458)| < 2 ^ 128 ∧
    |Binary32.fmul (sin (Binary32.fmul seed (Binary32.roundToFloat 91.3458)))
        (Binary32.roundToFloat 47453.5453)| < 2 ^ 128 ∧
    0 ≤ Binary32.random sin seed ∧ Binary32.random sin seed ≤ 1 := by
  have hp127 : Binary32.roundToFloat ((2 : ℝ) ^ 127) = 2 ^ 127 := by
    have := roundToFloat_eq_of_pos ((2 : ℝ) ^ 127) 127 (2 ^ 23) (by norm_num) (by positivity)
      (Or.inr (by norm_num)) (by norm_num) (Or.inl (by constructor <;> norm_num))
    rw [this]
    norm_num
  have bound : ∀ x : ℝ, |x| ≤ 2 ^ 127 → |Binary32.roundToFloat x| < 2 ^ 128 := by
    intro x hx
    rw [abs_le] at hx
    have h1 := roundToFloat_mono hx.2
    have h2 := roundToFloat_mono hx.1
    rw [hp127] at h1
    rw [roundToFloat_neg, hp127] at h2
    rw [abs_lt]
    constructor
    · have : (2 : ℝ) ^ 127 < 2 ^ 128 := by norm_num
      linarith
    · have : (2 : ℝ) ^ 127 < 2 ^ 128 := by norm_num
      linarith
  refine ⟨?_, ?_, ?_⟩
  · unfold Binary32.fmul
    apply bound
    rw [roundToFloat_c1, abs_mul, abs_of_pos (by norm_num : (0 : ℝ) < 11972877 / 131072)]
    have : |seed| * (11972877 / 131072) ≤ 2 ^ 120 * (11972877 / 131072) :=
      mul_le_mul_of_nonneg_right hseed (by norm_num)
    refine le_trans this ?_
    norm_num
  · unfold Binary32.fmul
    apply bound
    rw [roundToFloat_c2, abs_mul, abs_of_pos (by norm_num : (0 : ℝ) < 3037027 / 64)]
    have : |sin (Binary32.roundToFloat (seed * Binary32.roundToFloat 91.3458))|
        * (3037027 / 64) ≤ 1 * (3037027 / 64) :=
      mul_le_mul_of_nonneg_right (hsin _) (by norm_num)
    refine le_trans this ?_
    norm_num
  · exact fract_float_range _

/-- Witness for the amended C13 at the seed `-2^-60` with the correctly rounded sine. -/
theorem random_range_float_witness :
    0 ≤ Binary32.random (fun x => Binary32.roundToFloat (Real.sin x)) (-(1 / 2 ^ 60) : ℝ) ∧
    Binary32.random (fun x => Binary32.roundToFloat (Real.sin x)) (-(1 / 2 ^ 60) : ℝ) ≤ 1 :=
  (random_range_float (fun x => Binary32.roundToFloat (Real.sin x)) (-(1 / 2 ^ 60))
    (by rw [abs_neg, abs_of_pos (by positivity)]
        norm_num)
    abs_roundToFloat_sin_le_one).2.2

/-! ## The double loop of the irradiance kernel in binary32 arithmetic -/

section LoopEval
variable {α : Type} [LinearOrderedField α]

/-- One pass of a float loop whose condition holds. -/
theorem floatFor_of_true {σ : Type} (cond : α → Bool) (next : α → α)
    (body : α → σ → Option σ) (fuel : ℕ) (t : α) (acc : σ) (h : cond t = true) :
    floatFor cond next body (fuel + 1) t acc
      = (body t acc).bind (fun acc1 => floatFor cond next body fuel (next t) acc1) := by
  rw [floatFor, if_pos h]

/-- A float loop whose condition fails ends. -/
theorem floatFor_of_false {σ : Type} (cond : α → Bool) (next : α → α)
    (body : α → σ → Option σ) (fuel : ℕ) (t : α) (acc : σ) (h : cond t = false) :
    floatFor cond next body (fuel + 1) t acc = some acc := by
  rw [floatFor, if_neg (by simp [h])]

end LoopEval

/-- Evaluation of the rounding at a positive binary32 number `m * 2 ^ (e - 23)`. -/
theorem roundToFloat_exact (x : ℝ) (e m : ℤ) (he : -126 ≤ e) (hx : 0 < x)
    (h1 : e = -126 ∨ 2 ^ e ≤ x) (h2 : x < 2 ^ (e + 1)) (h3 : x = (m : ℝ) * 2 ^ (e - 23)) :
    Binary32.roundToFloat x = x := by
  have hv : (0 : ℝ) < 2 ^ (e - 24) := by positivity
  have := roundToFloat_eq_of_pos x e m he hx h1 h2 (Or.inl (by constructor <;> linarith))
  rw [this, ← h3]

/-- The sample steps for `_samples = (6, 2)`: `fl(2 PI / 6)` and `PI / 4`. -/
theorem sampleStep_six_two :
    Binary32.sampleStep (Binary32.pi : ℝ) (6, 2)
      = ⟨4392265 / 4194304, 13176795 / 16777216⟩ := by
  have h6 : Binary32.roundToFloat (6 : ℝ) = 6 :=
    roundToFloat_exact 6 2 12582912 (by norm_num) (by norm_num) (Or.inr (by norm_num))
      (by norm_num) (by norm_num)
  have h2 : Binary32.roundToFloat (2 : ℝ) = 2 :=
    roundToFloat_exact 2 1 8388608 (by norm_num) (by norm_num) (Or.inr (by norm_num))
      (by norm_num) (by norm_num)
  have h4 : Binary32.roundToFloat (2 * 2 : ℝ) = 4 := by
    rw [show (2 * 2 : ℝ) = 4 by norm_num]
    exact roundToFloat_exact 4 2 8388608 (by norm_num) (by norm_num) (Or.inr (by norm_num))
      (by norm_num) (by norm_num)
  have hx : Binary32.roundToFloat (2 * Binary32.pi / 6 : ℝ) = 4392265 / 4194304 := by
    unfold Binary32.pi
    rw [show (2 * (13176795 / 4194304) / 6 : ℝ) = 4392265 / 4194304 by norm_num]
    exact roundToFloat_exact _ 0 8784530 (by norm_num) (by norm_num) (Or.inr (by norm_num))
      (by norm_num) (by norm_num)
  have hy : Binary32.roundToFloat (Binary32.pi / 4 : ℝ) = 13176795 / 16777216 := by
    unfold Binary32.pi
    rw [show (13176795 / 4194304 / 4 : ℝ) = 13176795 / 16777216 by norm_num]
    exact roundToFloat_exact _ (-1) 13176795 (by norm_num) (by norm_num)
      (Or.inr (by norm_num)) (by norm_num) (by norm_num)
  have h2pi : Binary32.roundToFloat (2 * Binary32.pi : ℝ) = 2 * Binary32.pi := fmul_two_pi
  simp only [Binary32.sampleStep, Binary32.fdiv, Binary32.fmul, Int.cast_ofNat, h6, h2, h4,
    h2pi, hx, hy]

/-- The inner loop for `_samples = (6, 2)` makes two passes, at `phi = PI / 2` and
`phi = PI / 4`. -/
theorem phi_loop_float {σ : Type} (body : ℝ → σ → σ) (n : ℕ) (acc : σ) :
    floatFor (fun phi => decide (phi > 0))
        (fun phi => Binary32.fsub phi (13176795 / 16777216 : ℝ))
        (fun phi acc => some (body phi acc)) (n + 3) (Binary32.fdiv Binary32.pi 2) acc
      = some (body (13176795 / 16777216) (body (13176795 / 8388608) acc)) := by
  have h0 : Binary32.fdiv (Binary32.pi : ℝ) 2 = 13176795 / 8388608 := by
    unfold Binary32.fdiv Binary32.pi
    rw [show (13176795 / 4194304 / 2 : ℝ) = 13176795 / 8388608 by norm_num]
    exact roundToFloat_exact _ 0 13176795 (by norm_num) (by norm_num) (Or.inr (by norm_num))
      (by norm_num) (by norm_num)
  have h1 : Binary32.fsub (13176795 / 8388608 : ℝ) (13176795 / 16777216)
      = 13176795 / 16777216 := by
    unfold Binary32.fsub
    rw [show (13176795 / 8388608 - 13176795 / 16777216 : ℝ) = 13176795 / 16777216 by norm_num]
    exact roundToFloat_exact _ (-1) 13176795 (by norm_num) (by norm_num)
      (Or.inr (by norm_num)) (by norm_num) (by norm_num)
  have h2 : Binary32.fsub (13176795 / 16777216 : ℝ) (13176795 / 16777216) = 0 := by
    unfold Binary32.fsub
    rw [sub_self, roundToFloat_zero]
  rw [h0, floatFor_of_true _ _ _ _ _ _ (by norm_num), Option.some_bind]
  simp only [h1]
  rw [floatFor_of_true _ _ _ _ _ _ (by norm_num), Option.some_bind]
  simp only [h2]
  rw [floatFor_of_false _ _ _ _ _ _ (by norm_num)]

/-- The double loop for `_samples = (6, 2)` makes seven passes of the outer loop, the last
at `theta = 6588397 / 1048576 < 2 * PI`, with two passes of the inner loop each. -/
theorem processLoops_six_two {σ : Type} (body : ℝ → ℝ → σ → σ) (n : ℕ) (acc : σ) :
    Binary32.processLoops (Binary32.pi : ℝ) (6, 2) (n + 8) body acc
      = some
          (body (6588397 / 1048576) (13176795 / 16777216)
          (body (6588397 / 1048576) (13176795 / 8388608)
          (body (5490331 / 1048576) (13176795 / 16777216)
          (body (5490331 / 1048576) (13176795 / 8388608)
          (body (4392265 / 1048576) (13176795 / 16777216)
          (body (4392265 / 1048576) (13176795 / 8388608)
          (body (13176795 / 4194304) (13176795 / 16777216)
          (body (13176795 / 4194304) (13176795 / 8388608)
          (body (4392265 / 2097152) (13176795 / 16777216)
          (body (4392265 / 2097152) (13176795 / 8388608)
          (body (4392265 / 4194304) (13176795 / 16777216)
          (body (4392265 / 4194304) (13176795 / 8388608)
          (body 0 (13176795 / 16777216)
          (body 0 (13176795 / 8388608) acc)))))))))))))) := by
  have t1 : Binary32.fadd (0 : ℝ) (4392265 / 4194304) = 4392265 / 4194304 := by
    unfold Binary32.fadd
    rw [zero_add]
    exact roundToFloat_exact _ 0 8784530 (by norm_num) (by norm_num) (Or.inr (by norm_num))
      (by norm_num) (by norm_num)
  have t2 : Binary32.fadd (4392265 / 4194304 : ℝ) (4392265 / 4194304) = 4392265 / 2097152 := by
    unfold Binary32.fadd
    rw [show (4392265 / 4194304 + 4392265 / 4194304 : ℝ) = 4392265 / 2097152 by norm_num]
    exact roundToFloat_exact _ 1 8784530 (by norm_num) (by norm_num) (Or.inr (by norm_num))
      (by norm_num) (by norm_num)
  have t3 : Binary32.fadd (4392265 / 2097152 : ℝ) (4392265 / 4194304)
      = 13176795 / 4194304 := by
    unfold Binary32.fadd
    rw [show (4392265 / 2097152 + 4392265 / 4194304 : ℝ) = 13176795 / 4194304 by norm_num]
    exact roundToFloat_exact _ 1 13176795 (by norm_num) (by norm_num) (Or.inr (by norm_num))
      (by norm_num) (by norm_num)
  have t4 : Binary32.fadd (13176795 / 4194304 : ℝ) (4392265 / 4194304)
      = 4392265 / 1048576 := by
    unfold Binary32.fadd
    rw [show (13176795 / 4194304 + 4392265 / 4194304 : ℝ) = 4392265 / 1048576 by norm_num]
    exact roundToFloat_exact _ 2 8784530 (by norm_num) (by norm_num) (Or.inr (by norm_num))
      (by norm_num) (by norm_num)
  -- the next three sums lie half-way between two binary32 numbers and round to the even one
  have t5 : Binary32.fadd (4392265 / 1048576 : ℝ) (4392265 / 4194304)
      = 5490331 / 1048576 := by
    unfold Binary32.fadd
    have := roundToFloat_eq_of_pos (4392265 / 1048576 + 4392265 / 4194304 : ℝ) 2 10980662
      (by norm_num) (by norm_num) (Or.inr (by norm_num)) (by norm_num)
      (Or.inr ⟨Or.inl (by norm_num), by norm_num⟩)
    rw [this]
    norm_num
  have t6 : Binary32.fadd (5490331 / 1048576 : ℝ) (4392265 / 4194304)
      = 6588397 / 1048576 := by
    unfold Binary32.fadd
    have := roundToFloat_eq_of_pos (5490331 / 1048576 + 4392265 / 4194304 : ℝ) 2 13176794
      (by norm_num) (by norm_num) (Or.inr (by norm_num)) (by norm_num)
      (Or.inr ⟨Or.inl (by norm_num), by norm_num⟩)
    rw [this]
    norm_num
  have t7 : Binary32.fadd (6588397 / 1048576 : ℝ) (4392265 / 4194304)
      = 7686463 / 1048576 := by
    unfold Binary32.fadd
    have := roundToFloat_eq_of_pos (6588397 / 1048576 + 4392265 / 4194304 : ℝ) 2 15372926
      (by norm_num) (by norm_num) (Or.inr (by norm_num)) (by norm_num)
      (Or.inr ⟨Or.inl (by norm_num), by norm_num⟩)
    rw [this]
    norm_num
  have hp : Binary32.fmul 2 (Binary32.pi : ℝ) = 13176795 / 2097152 := by
    rw [fmul_two_pi]
    unfold Binary32.pi
    norm_num
  unfold Binary32.processLoops
  rw [sampleStep_six_two, hp]
  rw [show n + 8 = (n + 5) + 3 by ring]
  simp only [phi_loop_float]
  rw [show n + 5 + 3 = (n + 7) + 1 by ring]
  rw [floatFor_of_true _ _ _ _ _ _ (by norm_num), Option.some_bind]
  simp only [t1]
  rw [show n + 7 = (n + 6) + 1 by ring]
  rw [floatFor_of_true _ _ _ _ _ _ (by norm_num), Option.some_bind]
  simp only [t2]
  rw [floatFor_of_true _ _ _ _ _ _ (by norm_num), Option.some_bind]
  simp only [t3]
  rw [floatFor_of_true _ _ _ _ _ _ (by norm_num), Option.some_bind]
  simp only [t4]
  rw [floatFor_of_true _ _ _ _ _ _ (by norm_num), Option.some_bind]
  simp only [t5]
  rw [floatFor_of_true _ _ _ _ _ _ (by norm_num), Option.some_bind]
  simp only [t6]
  rw [floatFor_of_true _ _ _ _ _ _ (by norm_num), Option.some_bind]
  simp only [t7]
  rw [floatFor_of_false _ _ _ _ _ _ (by norm_num)]

/-- C21, evaluation at the failing input `_samples = (6, 2)`: in binary32 arithmetic the
double loop evaluates `14` samples, not `6 * 2 = 12`: after six additions of the step
`fl(2 PI / 6)` the loop variable is `6588397 / 1048576`, still below
`2 PI = 13176795 / 2097152`, so the outer loop makes a seventh pass. -/
theorem irradiance_loop_float_count :
    Binary32.processLoops (Binary32.pi : ℝ) (6, 2) 10 (fun _ _ (count : ℕ) => count + 1) 0
      = some 14 ∧
    Binary32.processLoops (Binary32.pi : ℝ) (6, 2) 10
        (fun theta _ (thetas : List ℝ) => thetas ++ [theta]) []
      = some [0, 0, 4392265 / 4194304, 4392265 / 4194304, 4392265 / 2097152,
          4392265 / 2097152, 13176795 / 4194304, 13176795 / 4194304, 4392265 / 1048576,
          4392265 / 1048576, 5490331 / 1048576, 5490331 / 1048576, 6588397 / 1048576,
          6588397 / 1048576] ∧
    (6588397 / 1048576 : ℝ) < Binary32.fmul 2 Binary32.pi ∧
    ((6 * 2 : ℤ) : ℝ) ≠ 14 := by
  refine ⟨?_, ?_, ?_, ?_⟩
  · rw [show (10 : ℕ) = 2 + 8 by norm_num, processLoops_six_two]
  · rw [show (10 : ℕ) = 2 + 8 by norm_num, processLoops_six_two]
    simp
  · rw [fmul_two_pi]
    unfold Binary32.pi
    norm_num
  · norm_num

/-! ## The lobe weights in binary32 arithmetic -/

/-- The rounding error of a value of magnitude below `2` is at most `2 ^ (-24)`. -/
theorem abs_roundToFloat_sub_le_of_lt_two (x : ℝ) (h : |x| < 2) :
    |Binary32.roundToFloat x - x| ≤ 1 / 2 ^ 24 := by
  have := abs_roundToFloat_sub_le_of_abs_lt x 0 (by norm_num) (by simpa using h)
  norm_num at this ⊢
  exact this

/-- Rounding maps `[0, 1]` into `[0, 1]`. -/
theorem roundToFloat_mem_unit (x : ℝ) (h0 : 0 ≤ x) (h1 : x ≤ 1) :
    0 ≤ Binary32.roundToFloat x ∧ Binary32.roundToFloat x ≤ 1 := by
  refine ⟨roundToFloat_nonneg h0, ?_⟩
  have := roundToFloat_mono h1
  rw [roundToFloat_one] at this
  exact this

/-- Two is a binary32 number. -/
theorem roundToFloat_two : Binary32.roundToFloat (2 : ℝ) = 2 :=
  roundToFloat_exact 2 1 8388608 (by norm_num) (by norm_num) (Or.inr (by norm_num))
    (by norm_num) (by norm_num)

/-- A value above `1 + 2 ^ (-24)` is rounded to a value above `1`. -/
theorem one_lt_roundToFloat (x : ℝ) (h : 1 + 1 / 2 ^ 24 < x) : 1 < Binary32.roundToFloat x := by
  rcases lt_or_le x 2 with h2 | h2
  · have hp : (0 : ℝ) < 1 / 2 ^ 24 := by positivity
    have := abs_roundToFloat_sub_le_of_lt_two x (by rw [abs_lt]; constructor <;> linarith)
    rw [abs_le] at this
    linarith [this.1]
  · have := roundToFloat_mono h2
    rw [roundToFloat_two] at this
    linarith

/-- `saturate` takes values in `[0, 1]`. -/
theorem saturate_mem_unit (v : ℝ) :
    0 ≤ NormalRayReflect.saturate v ∧ NormalRayReflect.saturate v ≤ 1 := by
  unfold NormalRayReflect.saturate clamp
  exact ⟨le_min (le_max_right _ _) zero_le_one, min_le_right _ _⟩

/-- The diffuse weight computed in binary32 arithmetic from a specular weight `s` and a
transmission weight `t` in `[0, 1]` with `s + t ≤ 1 + 2 ^ (-24)`. -/
theorem diffuse_float_facts (s t : ℝ) (hs0 : 0 ≤ s) (hs1 : s ≤ 1) (ht0 : 0 ≤ t) (ht1 : t ≤ 1)
    (hst : s + t ≤ 1 + 1 / 2 ^ 24) :
    |NormalRayReflect.saturate (Binary32.fsub (Binary32.fsub 1 t) s) + s + t - 1|
      ≤ 1 / 2 ^ 23 := by
  have hp : (0 : ℝ) < 1 / 2 ^ 24 := by positivity
  have he : (1 : ℝ) / 2 ^ 23 = 2 * (1 / 2 ^ 24) := by norm_num
  obtain ⟨hy0, hy1⟩ := roundToFloat_mem_unit (1 - t) (by linarith) (by linarith)
  have e1 := abs_roundToFloat_sub_le_of_lt_two (1 - t)
    (by rw [abs_lt]; constructor <;> linarith)
  have e2 := abs_roundToFloat_sub_le_of_lt_two (Binary32.roundToFloat (1 - t) - s)
    (by rw [abs_lt]; constructor <;> linarith)
  rw [abs_le] at e1 e2
  unfold Binary32.fsub NormalRayReflect.saturate clamp
  rw [he, abs_le]
  rcases le_total (Binary32.roundToFloat (Binary32.roundToFloat (1 - t) - s)) 0 with h | h
  · rw [max_eq_right h, min_eq_left zero_le_one]
    constructor <;> linarith [e1.1, e1.2, e2.1, e2.2]
  · rw [max_eq_left h]
    rcases le_total (Binary32.roundToFloat (Binary32.roundToFloat (1 - t) - s)) 1 with h' | h'
    · rw [min_eq_left h']
      constructor <;> linarith [e1.1, e1.2, e2.1, e2.2]
    · rw [min_eq_right h']
      constructor <;> linarith [e1.1, e1.2, e2.1, e2.2]

/-- The reconciled lobe weights in binary32 arithmetic: each lies in `[0, 1]` and their sum
differs from `1` by at most `2 ^ (-23)`. -/
theorem lobeWeights_float_facts (S T : ℝ) :
    0 ≤ (Binary32.processLobeWeights S T).specular ∧
    (Binary32.processLobeWeights S T).specular ≤ 1 ∧
    0 ≤ (Binary32.processLobeWeights S T).transmission ∧
    (Binary32.processLobeWeights S T).transmission ≤ 1 ∧
    0 ≤ (Binary32.processLobeWeights S T).diffuse ∧
    (Binary32.processLobeWeights S T).diffuse ≤ 1 ∧
    |(Binary32.processLobeWeights S T).diffuse + (Binary32.processLobeWeights S T).specular
        + (Binary32.processLobeWeights S T).transmission - 1| ≤ 1 / 2 ^ 23 := by
  have hp : (0 : ℝ) < 1 / 2 ^ 24 := by positivity
  obtain ⟨hs0, hs1⟩ := saturate_mem_unit S
  unfold Binary32.processLobeWeights
  simp only
  by_cases hA : Binary32.fadd (NormalRayReflect.saturate S) T > 1
  · rw [if_pos hA]
    obtain ⟨ht0, ht1⟩ := roundToFloat_mem_unit (1 - NormalRayReflect.saturate S)
      (by linarith) (by linarith)
    have e := abs_roundToFloat_sub_le_of_lt_two (1 - NormalRayReflect.saturate S)
      (by rw [abs_lt]; constructor <;> linarith)
    rw [abs_le] at e
    have hd := saturate_mem_unit (Binary32.fsub (Binary32.fsub 1
      (Binary32.fsub 1 (NormalRayReflect.saturate S))) (NormalRayReflect.saturate S))
    refine ⟨hs0, hs1, ht0, ht1, hd.1, hd.2, ?_⟩
    exact diffuse_float_facts _ _ hs0 hs1 ht0 ht1 (by unfold Binary32.fsub; linarith [e.2])
  · rw [if_neg hA]
    obtain ⟨ht0, ht1⟩ := saturate_mem_unit T
    have hd := saturate_mem_unit (Binary32.fsub (Binary32.fsub 1
      (NormalRayReflect.saturate T)) (NormalRayReflect.saturate S))
    refine ⟨hs0, hs1, ht0, ht1, hd.1, hd.2, ?_⟩
    apply diffuse_float_facts _ _ hs0 hs1 ht0 ht1
    have hsT : NormalRayReflect.saturate S + T ≤ 1 + 1 / 2 ^ 24 := by
      by_contra hc
      exact hA (one_lt_roundToFloat _ (not_le.1 hc))
    have htT : NormalRayReflect.saturate T ≤ max T 0 := by
      unfold NormalRayReflect.saturate clamp
      exact min_le_left _ _
    rcases le_total T 0 with h | h
    · rw [max_eq_right h] at htT
      linarith
    · rw [max_eq_left h] at htT
      linarith

/-- C10, the claim as stated fails: in binary32 arithmetic the raw weights
`(1 / 2, 2 ^ (-30))` are reconciled to `(1 / 2, 2 ^ (-30), 1 / 2)`, whose sum
`1 + 2 ^ (-30)` exceeds `1`. -/
theorem lobeWeights_sum_le_one_counterexample :
    Binary32.processLobeWeights (1 / 2 : ℝ) (1 / 2 ^ 30) = ⟨1 / 2, 1 / 2 ^ 30, 1 / 2⟩ ∧
    ¬ ((Binary32.processLobeWeights (1 / 2 : ℝ) (1 / 2 ^ 30)).diffuse
        + (Binary32.processLobeWeights (1 / 2 : ℝ) (1 / 2 ^ 30)).specular
        + (Binary32.processLobeWeights (1 / 2 : ℝ) (1 / 2 ^ 30)).transmission ≤ 1) := by
  have h1 : Binary32.roundToFloat (1 / 2 + 1 / 2 ^ 30 : ℝ) = 1 / 2 := by
    have := roundToFloat_eq_of_pos (1 / 2 + 1 / 2 ^ 30 : ℝ) (-1) (2 ^ 23) (by norm_num)
      (by norm_num) (Or.inr (by norm_num)) (by norm_num) (Or.inl (by constructor <;> norm_num))
    rw [this]
    norm_num
  have h2 : Binary32.roundToFloat (1 - 1 / 2 ^ 30 : ℝ) = 1 := by
    have := roundToFloat_eq_of_pos (1 - 1 / 2 ^ 30 : ℝ) (-1) (2 ^ 24) (by norm_num)
      (by norm_num) (Or.inr (by norm_num)) (by norm_num) (Or.inl (by constructor <;> norm_num))
    rw [this]
    norm_num
  have h3 : Binary32.roundToFloat (1 - 1 / 2 : ℝ) = 1 / 2 := by
    rw [show (1 - 1 / 2 : ℝ) = 1 / 2 by norm_num]
    exact roundToFloat_exact _ (-1) (2 ^ 23) (by norm_num) (by norm_num)
      (Or.inr (by norm_num)) (by norm_num) (by norm_num)
  have hs : NormalRayReflect.saturate (1 / 2 : ℝ) = 1 / 2 := by
    unfold NormalRayReflect.saturate clamp
    norm_num
  have ht : NormalRayReflect.saturate (1 / 2 ^ 30 : ℝ) = 1 / 2 ^ 30 := by
    unfold NormalRayReflect.saturate clamp
    norm_num
  have hw : Binary32.processLobeWeights (1 / 2 : ℝ) (1 / 2 ^ 30)
      = ⟨1 / 2, 1 / 2 ^ 30, 1 / 2⟩ := by
    have hif : ¬ ((1 : ℝ) / 2 > 1) := by norm_num
    unfold Binary32.processLobeWeights
    simp only [hs, ht, Binary32.fadd, Binary32.fsub, h1, if_neg hif, h2, h3]
  rw [hw]
  refine ⟨rfl, ?_⟩
  norm_num

/-- C10 as amended: in binary32 arithmetic, for raw weights in `[0, 1]`, the reconciled
weights are non-negative and sum to at most `1 + 2 ^ (-23)`. -/
theorem lobeWeights_sum_le_float (S T : ℝ) (_hS0 : 0 ≤ S) (_hS1 : S ≤ 1) (_hT0 : 0 ≤ T)
    (_hT1 : T ≤ 1) :
    (Binary32.processLobeWeights S T).diffuse + (Binary32.processLobeWeights S T).specular
        + (Binary32.processLobeWeights S T).transmission ≤ 1 + 1 / 2 ^ 23 ∧
    0 ≤ (Binary32.processLobeWeights S T).diffuse ∧
    0 ≤ (Binary32.processLobeWeights S T).specular ∧
    0 ≤ (Binary32.processLobeWeights S T).transmission := by
  obtain ⟨hs0, _, ht0, _, hd0, _, hsum⟩ := lobeWeights_float_facts S T
  rw [abs_le] at hsum
  exact ⟨by linarith [hsum.2], hd0, hs0, ht0⟩

/-- Witness for the amended C10 at the raw weights `(1 / 2, 2 ^ (-30))`. -/
theorem lobeWeights_sum_le_float_witness :
    (Binary32.processLobeWeights (1 / 2 : ℝ) (1 / 2 ^ 30)).diffuse
        + (Binary32.processLobeWeights (1 / 2 : ℝ) (1 / 2 ^ 30)).specular
        + (Binary32.processLobeWeights (1 / 2 : ℝ) (1 / 2 ^ 30)).transmission
      ≤ 1 + 1 / 2 ^ 23 :=
  (lobeWeights_sum_le_float (1 / 2) (1 / 2 ^ 30) (by norm_num) (by norm_num) (by positivity)
    (by norm_num)).1

/-- C25, the claim as stated fails: in binary32 arithmetic the raw weights `(0.3f, 0.1f)`
are reconciled to weights whose sum is `1 - 3 * 2 ^ (-27)`, not `1`. -/
theorem lobeWeights_sum_eq_one_counterexample :
    (Binary32.processLobeWeights (5033165 / 16777216 : ℝ) (13421773 / 134217728)).diffuse
        + (Binary32.processLobeWeights (5033165 / 16777216 : ℝ)
            (13421773 / 134217728)).specular
        + (Binary32.processLobeWeights (5033165 / 16777216 : ℝ)
            (13421773 / 134217728)).transmission = 1 - 3 / 2 ^ 27 ∧
    (Binary32.processLobeWeights (5033165 / 16777216 : ℝ) (13421773 / 134217728)).diffuse
        + (Binary32.processLobeWeights (5033165 / 16777216 : ℝ)
            (13421773 / 134217728)).specular
        + (Binary32.processLobeWeights (5033165 / 16777216 : ℝ)
            (13421773 / 134217728)).transmission ≠ 1 := by
  have h1 : Binary32.roundToFloat (5033165 / 16777216 + 13421773 / 134217728 : ℝ)
      = 13421773 / 33554432 := by
    have := roundToFloat_eq_of_pos (5033165 / 16777216 + 13421773 / 134217728 : ℝ) (-2)
      13421773 (by norm_num) (by norm_num) (Or.inr (by norm_num)) (by norm_num)
      (Or.inl (by constructor <;> norm_num))
    rw [this]
    norm_num
  have h2 : Binary32.roundToFloat (1 - 13421773 / 134217728 : ℝ) = 7549747 / 8388608 := by
    have := roundToFloat_eq_of_pos (1 - 13421773 / 134217728 : ℝ) (-1) 15099494
      (by norm_num) (by norm_num) (Or.inr (by norm_num)) (by norm_num)
      (Or.inl (by constructor <;> norm_num))
    rw [this]
    norm_num
  have h3 : Binary32.roundToFloat (7549747 / 8388608 - 5033165 / 16777216 : ℝ)
      = 10066329 / 16777216 := by
    have := roundToFloat_eq_of_pos (7549747 / 8388608 - 5033165 / 16777216 : ℝ) (-1)
      10066329 (by norm_num) (by norm_num) (Or.inr (by norm_num)) (by norm_num)
      (Or.inl (by constructor <;> norm_num))
    rw [this]
    norm_num
  have hs : NormalRayReflect.saturate (5033165 / 16777216 : ℝ) = 5033165 / 16777216 := by
    unfold NormalRayReflect.saturate clamp
    norm_num
  have ht : NormalRayReflect.saturate (13421773 / 134217728 : ℝ) = 13421773 / 134217728 := by
    unfold NormalRayReflect.saturate clamp
    norm_num
  have hd : NormalRayReflect.saturate (10066329 / 16777216 : ℝ) = 10066329 / 16777216 := by
    unfold NormalRayReflect.saturate clamp
    norm_num
  have hw : Binary32.processLobeWeights (5033165 / 16777216 : ℝ) (13421773 / 134217728)
      = ⟨5033165 / 16777216, 13421773 / 134217728, 10066329 / 16777216⟩ := by
    have hif : ¬ ((13421773 : ℝ) / 33554432 > 1) := by norm_num
    unfold Binary32.processLobeWeights
    simp only [hs, ht, Binary32.fadd, Binary32.fsub, h1, if_neg hif, h2, h3, hd]
  rw [hw]
  constructor <;> norm_num

/-- C25 as amended: in binary32 arithmetic, for all raw weights, the reconciled weights lie
in `[0, 1]` and their sum differs from `1` by at most `2 ^ (-23)`. -/
theorem lobeWeights_sum_near_one (S T : ℝ) :
    |(Binary32.processLobeWeights S T).diffuse + (Binary32.processLobeWeights S T).specular
        + (Binary32.processLobeWeights S T).transmission - 1| ≤ 1 / 2 ^ 23 ∧
    (0 ≤ (Binary32.processLobeWeights S T).diffuse ∧
      (Binary32.processLobeWeights S T).diffuse ≤ 1) ∧
    (0 ≤ (Binary32.processLobeWeights S T).specular ∧
      (Binary32.processLobeWeights S T).specular ≤ 1) ∧
    (0 ≤ (Binary32.processLobeWeights S T).transmission ∧
      (Binary32.processLobeWeights S T).transmission ≤ 1) := by
  obtain ⟨hs0, hs1, ht0, ht1, hd0, hd1, hsum⟩ := lobeWeights_float_facts S T
  exact ⟨hsum, ⟨hd0, hd1⟩, ⟨hs0, hs1⟩, ⟨ht0, ht1⟩⟩

/-! ## The divisor of the transmission term in binary32 arithmetic -/

/-- A binary32 number below `1` is at most `1 - 2 ^ (-24)`. -/
theorem float_lt_one_le (s : ℝ) (hs : Binary32.roundToFloat s = s) (h : s < 1) :
    s ≤ 1 - 1 / 2 ^ 24 := by
  rcases lt_or_le s (1 / 2) with h2 | h2
  · have : (1 : ℝ) / 2 ≤ 1 - 1 / 2 ^ 24 := by norm_num
    linarith
  · have hpos : 0 < s := by linarith
    have hexp : Binary32.exponent s = -1 :=
      exponent_eq_of_abs s (-1) (by norm_num)
        (by rw [abs_of_pos hpos]; norm_num; linarith)
        (by rw [abs_of_pos hpos]; norm_num; linarith)
    unfold Binary32.roundToFloat Binary32.ulp at hs
    rw [hexp] at hs
    have hu : ((2 : ℝ) ^ ((-1 : ℤ) - 23)) = 1 / 2 ^ 24 := by norm_num
    rw [hu] at hs
    have hM : ((Binary32.roundEven (s / (1 / 2 ^ 24)) : ℤ) : ℝ) < ((2 ^ 24 : ℤ) : ℝ) := by
      push_cast
      have hp : (0 : ℝ) < 1 / 2 ^ 24 := by positivity
      by_contra hc
      have := mul_le_mul_of_nonneg_right (not_lt.1 hc) hp.le
      rw [hs] at this
      norm_num at this
      linarith
    have hM2 : Binary32.roundEven (s / (1 / 2 ^ 24)) ≤ 2 ^ 24 - 1 := by
      have : Binary32.roundEven (s / (1 / 2 ^ 24)) < 2 ^ 24 := by exact_mod_cast hM
      omega
    have hM3 : ((Binary32.roundEven (s / (1 / 2 ^ 24)) : ℤ) : ℝ) ≤ ((2 ^ 24 - 1 : ℤ) : ℝ) := by
      exact_mod_cast hM2
    have hp : (0 : ℝ) < 1 / 2 ^ 24 := by positivity
    have := mul_le_mul_of_nonneg_right hM3 hp.le
    rw [hs] at this
    push_cast at this
    norm_num at this ⊢
    linarith

/-- `saturate` of a binary32 number is a binary32 number. -/
theorem roundToFloat_saturate (S : ℝ) (hS : Binary32.roundToFloat S = S) :
    Binary32.roundToFloat (NormalRayReflect.saturate S) = NormalRayReflect.saturate S := by
  unfold NormalRayReflect.saturate clamp
  rcases le_total S 0 with h | h
  · rw [max_eq_right h, min_eq_left zero_le_one, roundToFloat_zero]
  · rw [max_eq_left h]
    rcases le_total S 1 with h' | h'
    · rw [min_eq_left h', hS]
    · rw [min_eq_right h', roundToFloat_one]

/-- C24, the claim as stated fails: in binary32 arithmetic the raw weights `(1, 2 ^ (-30))`
are reconciled to specular `1` and transmission `2 ^ (-30) > 0` (the sum `1 + 2 ^ (-30)`
rounds to `1`, so the test `specular + T > 1` is false), and the divisor `1 - specular`
is `0`. -/
theorem transmission_division_counterexample :
    Binary32.processLobeWeights (1 : ℝ) (1 / 2 ^ 30) = ⟨1, 1 / 2 ^ 30, 0⟩ ∧
    0 < (Binary32.processLobeWeights (1 : ℝ) (1 / 2 ^ 30)).transmission ∧
    ¬ ((Binary32.processLobeWeights (1 : ℝ) (1 / 2 ^ 30)).specular < 1) ∧
    Binary32.fsub 1 (Binary32.processLobeWeights (1 : ℝ) (1 / 2 ^ 30)).specular = 0 := by
  have h1 : Binary32.roundToFloat (1 + 1 / 2 ^ 30 : ℝ) = 1 := by
    have := roundToFloat_eq_of_pos (1 + 1 / 2 ^ 30 : ℝ) 0 (2 ^ 23) (by norm_num)
      (by norm_num) (Or.inr (by norm_num)) (by norm_num) (Or.inl (by constructor <;> norm_num))
    rw [this]
    norm_num
  have h2 : Binary32.roundToFloat (1 - 1 / 2 ^ 30 : ℝ) = 1 := by
    have := roundToFloat_eq_of_pos (1 - 1 / 2 ^ 30 : ℝ) (-1) (2 ^ 24) (by norm_num)
      (by norm_num) (Or.inr (by norm_num)) (by norm_num) (Or.inl (by constructor <;> norm_num))
    rw [this]
    norm_num
  have hs : NormalRayReflect.saturate (1 : ℝ) = 1 := by
    unfold NormalRayReflect.saturate clamp
    norm_num
  have ht : NormalRayReflect.saturate (1 / 2 ^ 30 : ℝ) = 1 / 2 ^ 30 := by
    unfold NormalRayReflect.saturate clamp
    norm_num
  have h0 : NormalRayReflect.saturate (0 : ℝ) = 0 := by
    unfold NormalRayReflect.saturate clamp
    norm_num
  have hif : ¬ ((1 : ℝ) > 1) := lt_irrefl _
  have hw : Binary32.processLobeWeights (1 : ℝ) (1 / 2 ^ 30) = ⟨1, 1 / 2 ^ 30, 0⟩ := by
    unfold Binary32.processLobeWeights
    simp only [hs, ht, Binary32.fadd, Binary32.fsub, h1, if_neg hif, h2, sub_self,
      roundToFloat_zero, h0]
  rw [hw]
  refine ⟨rfl, by positivity, lt_irrefl _, ?_⟩
  unfold Binary32.fsub
  rw [sub_self, roundToFloat_zero]

/-- C24 as amended: in binary32 arithmetic, for a binary32 raw specular weight `S` and any raw
transmission weight `T` outside the corner `S ≥ 1, 0 < T ≤ 2 ^ (-24)`, whenever the
reconciled transmission weight is positive the reconciled specular weight is below `1` and
the divisor `1 - specular` is positive. -/
theorem transmission_division_float (S T : ℝ) (hS : Binary32.roundToFloat S = S)
    (ht : 0 < (Binary32.processLobeWeights S T).transmission)
    (hcorner : ¬ (1 ≤ S ∧ 0 < T ∧ T ≤ 1 / 2 ^ 24)) :
    (Binary32.processLobeWeights S T).specular < 1 ∧
    0 < Binary32.fsub 1 (Binary32.processLobeWeights S T).specular := by
  obtain ⟨hs0, hs1⟩ := saturate_mem_unit S
  have hspec : (Binary32.processLobeWeights S T).specular = NormalRayReflect.saturate S := rfl
  have hlt : NormalRayReflect.saturate S < 1 := by
    by_contra hc
    have hs : NormalRayReflect.saturate S = 1 := le_antisymm hs1 (not_lt.1 hc)
    have hS1 : 1 ≤ S := by
      have h1 : (1 : ℝ) ≤ max S 0 := by
        have : NormalRayReflect.saturate S ≤ max S 0 := by
          unfold NormalRayReflect.saturate clamp
          exact min_le_left _ _
        linarith
      rcases le_total S 0 with h | h
      · rw [max_eq_right h] at h1
        linarith
      · rw [max_eq_left h] at h1
        exact h1
    unfold Binary32.processLobeWeights at ht
    simp only [hs] at ht
    by_cases hA : Binary32.fadd 1 T > 1
    · rw [if_pos hA] at ht
      unfold Binary32.fsub at ht
      rw [sub_self, roundToFloat_zero] at ht
      exact lt_irrefl _ ht
    · rw [if_neg hA] at ht
      have hT0 : 0 < T := by
        by_contra hc0
        have : NormalRayReflect.saturate T = 0 := by
          unfold NormalRayReflect.saturate clamp
          rw [max_eq_right (not_lt.1 hc0), min_eq_left zero_le_one]
        rw [this] at ht
        exact lt_irrefl _ ht
      have hT1 : T ≤ 1 / 2 ^ 24 := by
        by_contra hc1
        apply hA
        unfold Binary32.fadd
        exact one_lt_roundToFloat _ (by linarith [not_le.1 hc1])
      exact hcorner ⟨hS1, hT0, hT1⟩
  rw [hspec]
  refine ⟨hlt, ?_⟩
  have hle := float_lt_one_le _ (roundToFloat_saturate S hS) hlt
  have h24 : Binary32.roundToFloat (1 / 2 ^ 24 : ℝ) = 1 / 2 ^ 24 :=
    roundToFloat_exact _ (-24) (2 ^ 23) (by norm_num) (by positivity) (Or.inr (by norm_num))
      (by norm_num) (by norm_num)
  have := roundToFloat_mono (show (1 : ℝ) / 2 ^ 24 ≤ 1 - NormalRayReflect.saturate S by linarith)
  rw [h24] at this
  unfold Binary32.fsub
  have hp : (0 : ℝ) < 1 / 2 ^ 24 := by positivity
  linarith

/-- Witness for the amended C24 at the raw weights `(1 / 2, 1 / 4)`. -/
theorem transmission_division_float_witness :
    (Binary32.processLobeWeights (1 / 2 : ℝ) (1 / 4)).specular < 1 ∧
    0 < Binary32.fsub 1 (Binary32.processLobeWeights (1 / 2 : ℝ) (1 / 4)).specular := by
  have h1 : Binary32.roundToFloat (1 / 2 : ℝ) = 1 / 2 :=
    roundToFloat_exact _ (-1) (2 ^ 23) (by norm_num) (by norm_num) (Or.inr (by norm_num))
      (by norm_num) (by norm_num)
  have h2 : Binary32.roundToFloat (1 / 2 + 1 / 4 : ℝ) = 3 / 4 := by
    rw [show (1 / 2 + 1 / 4 : ℝ) = 3 / 4 by norm_num]
    exact roundToFloat_exact _ (-1) 12582912 (by norm_num) (by norm_num)
      (Or.inr (by norm_num)) (by norm_num) (by norm_num)
  have hs : NormalRayReflect.saturate (1 / 2 : ℝ) = 1 / 2 := by
    unfold NormalRayReflect.saturate clamp
    norm_num
  have ht : NormalRayReflect.saturate (1 / 4 : ℝ) = 1 / 4 := by
    unfold NormalRayReflect.saturate clamp
    norm_num
  have hif : ¬ ((3 : ℝ) / 4 > 1) := by norm_num
  have htr : (Binary32.processLobeWeights (1 / 2 : ℝ) (1 / 4)).transmission = 1 / 4 := by
    unfold Binary32.processLobeWeights
    simp only [hs, ht, Binary32.fadd, h2, if_neg hif]
  exact transmission_division_float (1 / 2) (1 / 4) h1 (by rw [htr]; norm_num)
    (by norm_num)

end Blink
